import Mathlib

/-!
Shallow embedding of the coordinated-path-planning repository
(graph builder, A*, prioritized planner, CBS, D* Lite, route
materializer, conflict simulator) together with theorems settling the
spec claims.

Conventions of the embedding:
* Python `float` values that the algorithms compare and add are modelled
  as `ℚ` (every Python float is a rational); `float("inf")` is modelled
  by `⊤` in `WithTop ℚ`.
* Python `while` loops whose termination is not structural are given an
  explicit fuel argument; running out of fuel yields `none`.  All
  theorems about such functions are conditioned on a `some` result.
* `heapq` pops the least element of the heap under Python's tuple
  ordering; we model a pop as removing the first occurrence of the
  minimal element of the pending list, which agrees with `heapq`
  whenever the minimum is unique (ties in `heapq` are broken by heap
  shape, which the spec declares arbitrary).
* Python dicts are insertion-ordered association lists; assignment
  replaces in place when the key exists and appends otherwise.
-/

namespace MAPF

/-- `Agent` (cbs.py / prioritized_planner.py): name, start node, goal node. -/
structure Agent where
  name : String
  start : Nat
  goal : Nat
deriving DecidableEq

/-- `Constraint` (cbs.py): forbids `agent` from occupying `node` at `time`. -/
structure Constraint where
  agent : String
  node : Nat
  time : Nat
deriving DecidableEq

/-- `Conflict` (cbs.py): earliest vertex collision between two agents. -/
structure Conflict where
  time : Nat
  a1 : String
  a2 : String
  node : Nat
deriving DecidableEq

/-- Edge attributes (graph_builder.py): `travel_time` and `length`. -/
structure EdgeData where
  travel_time : ℚ
  length : ℚ
deriving DecidableEq

/-- The `networkx.DiGraph` as used by this repository: nodes carry
`(lat, lon)` coordinates, edges carry `EdgeData`.  Successor order is
edge insertion order, matching networkx adjacency iteration. -/
structure Graph where
  nodes : List (Nat × ℚ × ℚ)
  edges : List ((Nat × Nat) × EdgeData)
deriving DecidableEq

/-- `G.successors(u)` in edge-insertion order. -/
def Graph.successors (G : Graph) (u : Nat) : List Nat :=
  (G.edges.filter fun e => decide (e.1.1 = u)).map fun e => e.1.2

/-- `G.has_edge(u, v)`. -/
def Graph.hasEdge (G : Graph) (u v : Nat) : Bool :=
  G.edges.any fun e => decide (e.1 = (u, v))

/-- `G[u][v]["travel_time"]` (0 where Python would raise KeyError;
all uses in the source access existing edges). -/
def Graph.travelTime (G : Graph) (u v : Nat) : ℚ :=
  match G.edges.find? (fun e => decide (e.1 = (u, v))) with
  | some e => e.2.travel_time
  | none => 0

/-- Python dict lookup `d[k]` with an explicit default. -/
def dictGet {κ α : Type} [DecidableEq κ] (d : List (κ × α)) (k : κ)
    (dflt : α) : α :=
  match d.find? (fun p => decide (p.1 = k)) with
  | some p => p.2
  | none => dflt

/-- Python dict assignment `d[k] = v`: replaces in place when the key
exists, appends otherwise (insertion order preserved). -/
def dictSet {κ α : Type} [DecidableEq κ] (d : List (κ × α)) (k : κ)
    (v : α) : List (κ × α) :=
  if d.any (fun p => decide (p.1 = k)) then
    d.map fun p => if p.1 = k then (k, v) else p
  else d ++ [(k, v)]

/-- Node occupied at discrete time `t` by a path: `p[t]` while the path
is running, its last node afterwards (an agent that reached its goal
holds position there).  The default 0 is never reached on the nonempty
paths the planners produce. -/
def posAt (p : List Nat) (t : Nat) : Nat :=
  if t < p.length then p.getD t 0 else p.getLastD 0

/-! ### CBS low-level search (cbs.py) -/

/-- `_constraints_key_for_agent`: canonical, order-independent set of
`(node, time)` pairs restricted to this agent (Python `frozenset`). -/
def constraintsKeyForAgent (agent : Agent) (constraints : List Constraint) :
    Finset (Nat × Nat) :=
  ((constraints.filter fun c => decide (c.agent = agent.name)).map
    fun c => (c.node, c.time)).toFinset

/-- The cache key `(agent.name, agent.start, agent.goal, max_t, ckey)`. -/
abbrev CacheKey := String × Nat × Nat × Nat × Finset (Nat × Nat)

/-- `_LL_CACHE`, threaded explicitly instead of a process-wide global. -/
abbrev LLCache := List (CacheKey × List Nat)

/-- `blocked(node, t)`: membership in the constraint set (the Python
code pre-indexes `ckey` by time; membership is the same test). -/
def llsBlocked (ckey : Finset (Nat × Nat)) (node t : Nat) : Bool :=
  decide ((node, t) ∈ ckey)

/-- One BFS frontier entry: `(node, t, reversed path from the start)`.
The Python code stores a `came_from` pointer per state and rebuilds the
path at the goal; since each state's parent is written exactly once
(the `state not in came_from` guard), carrying the accumulated path in
the queue entry returns the identical path. -/
abbrev LLState := Nat × Nat × List Nat

/-- Expansion of one popped BFS state: try `[node] + successors`,
skipping constrained or already-discovered states, appending fresh
states to the frontier (FIFO) and recording them as discovered. -/
def llsExpand (ckey : Finset (Nat × Nat)) (t : Nat)
    (rpath : List Nat) (acc : List LLState × List (Nat × Nat)) (next : Nat) :
    List LLState × List (Nat × Nat) :=
  if llsBlocked ckey next (t + 1) then acc
  else if (next, t + 1) ∈ acc.2 then acc
  else (acc.1 ++ [(next, t + 1, next :: rpath)], (next, t + 1) :: acc.2)

/-- The BFS `while frontier:` loop of `low_level_search`.
`visited` is the key set of `came_from`. -/
def llsLoop (G : Graph) (ckey : Finset (Nat × Nat)) (goal max_t : Nat) :
    Nat → List LLState → List (Nat × Nat) → Option (List Nat)
  | 0, _, _ => none
  | _ + 1, [], _ => some []
  | fuel + 1, (node, t, rpath) :: frontier, visited =>
    if t > max_t then llsLoop G ckey goal max_t fuel frontier visited
    else if node = goal then some rpath.reverse
    else
      let acc := (node :: G.successors node).foldl
        (llsExpand ckey t rpath) (frontier, visited)
      llsLoop G ckey goal max_t fuel acc.1 acc.2

/-- `low_level_search` (cbs.py): time-expanded BFS for one agent under
constraints, memoized in the cache. -/
def lowLevelSearch (cache : LLCache) (G : Graph) (agent : Agent)
    (constraints : List Constraint) (max_t : Nat) (fuel : Nat) :
    Option (List Nat × LLCache) :=
  let ckey := constraintsKeyForAgent agent constraints
  let cacheKey : CacheKey := (agent.name, agent.start, agent.goal, max_t, ckey)
  match cache.find? (fun p => decide (p.1 = cacheKey)) with
  | some p => some (p.2, cache)
  | none =>
    match llsLoop G ckey agent.goal max_t fuel
        [(agent.start, 0, [agent.start])] [(agent.start, 0)] with
    | none => none
    | some path => some (path, cache ++ [(cacheKey, path)])

/-! ### Priority-queue pop

`heapq.heappop` removes a least element of the heap under Python's
comparison; we model it as removing the first occurrence of a minimal
element of the pending list. -/

/-- Pop a minimal element (leftmost among ties) under strict order `lt`. -/
def popMinBy (lt : α → α → Bool) : List α → Option (α × List α)
  | [] => none
  | x :: xs =>
    match popMinBy lt xs with
    | none => some (x, [])
    | some (m, rest) => if lt m x then some (m, x :: rest) else some (x, xs)

theorem popMinBy_eq_none {lt : α → α → Bool} {l : List α} :
    popMinBy lt l = none ↔ l = [] := by
  cases l with
  | nil => simp [popMinBy]
  | cons x xs =>
    simp only [popMinBy]
    constructor
    · intro h
      cases hx : popMinBy lt xs with
      | none => rw [hx] at h; simp at h
      | some p => rw [hx] at h; cases p with
        | mk m rest => simp only at h; split at h <;> simp at h
    · intro h; cases h

theorem popMinBy_perm {lt : α → α → Bool} {l rest : List α} {m : α}
    (h : popMinBy lt l = some (m, rest)) : (m :: rest).Perm l := by
  induction l generalizing m rest with
  | nil => simp [popMinBy] at h
  | cons x xs ih =>
    simp only [popMinBy] at h
    cases hx : popMinBy lt xs with
    | none =>
      rw [hx] at h
      simp only [Option.some.injEq, Prod.mk.injEq] at h
      obtain ⟨rfl, rfl⟩ := h
      rw [popMinBy_eq_none.mp hx]
    | some p =>
      obtain ⟨m', rest'⟩ := p
      rw [hx] at h
      simp only at h
      split at h
      · simp only [Option.some.injEq, Prod.mk.injEq] at h
        obtain ⟨rfl, rfl⟩ := h
        exact (List.Perm.swap x m' rest').trans (List.Perm.cons x (ih hx))
      · simp only [Option.some.injEq, Prod.mk.injEq] at h
        obtain ⟨rfl, rfl⟩ := h
        exact List.Perm.refl _

theorem popMinBy_mem {lt : α → α → Bool} {l rest : List α} {m : α}
    (h : popMinBy lt l = some (m, rest)) : m ∈ l :=
  (popMinBy_perm h).mem_iff.mp (List.mem_cons_self m rest)

theorem popMinBy_rest_subset {lt : α → α → Bool} {l rest : List α} {m : α}
    (h : popMinBy lt l = some (m, rest)) : ∀ y ∈ rest, y ∈ l := by
  intro y hy
  exact (popMinBy_perm h).mem_iff.mp (List.mem_cons_of_mem m hy)

/-! ### CBS conflict detection and high-level search (cbs.py) -/

/-- The joint plan: Python `Dict[str, List[int]]`. -/
abbrev PathDict := List (String × List Nat)

/-- The inner `for i / for j` pair scan of `detect_first_conflict` at a
fixed time `t`: head agent against each later agent, then recurse. -/
def conflictAmong (paths : PathDict) (t : Nat) : List String → Option Conflict
  | [] => none
  | a1 :: rest =>
    match rest.find? (fun a2 =>
        decide (posAt (dictGet paths a1 []) t = posAt (dictGet paths a2 []) t)) with
    | some a2 => some ⟨t, a1, a2, posAt (dictGet paths a1 []) t⟩
    | none => conflictAmong paths t rest

/-- `detect_first_conflict` (cbs.py): earliest vertex conflict, scanning
times in increasing order and agent pairs in dict order. -/
def detectFirstConflict (paths : PathDict) : Option Conflict :=
  if paths = [] then none
  else
    let T := (paths.map fun p => p.2.length).foldl max 0
    (List.range T).findSome? fun t => conflictAmong paths t (paths.map Prod.fst)

/-- `CBSTreeNode` (cbs.py): constraint set plus full joint plan. -/
structure CBSTreeNode where
  constraints : List Constraint
  paths : PathDict

/-- `CBSTreeNode.cost`: sum of path lengths. -/
def CBSTreeNode.cost (n : CBSTreeNode) : Nat :=
  (n.paths.map fun p => p.2.length).sum

/-- `CBSTreeNode.__lt__`: comparison by cost only. -/
def cbsNodeLt (n1 n2 : CBSTreeNode) : Bool :=
  decide (n1.cost < n2.cost)

/-- Root construction of `cbs_plan`: plan each agent independently,
raising (`Except.error`) as soon as some agent has no path. -/
def cbsBuildRoot (G : Graph) (max_t llFuel : Nat) :
    List Agent → LLCache → PathDict →
    Option (Except String (PathDict × LLCache))
  | [], cache, acc => some (.ok (acc, cache))
  | a :: rest, cache, acc =>
    match lowLevelSearch cache G a [] max_t llFuel with
    | none => none
    | some (p, cache') =>
      if p = [] then some (.error ("No path for agent " ++ a.name))
      else cbsBuildRoot G max_t llFuel rest cache' (dictSet acc a.name p)

/-- Child generation for the two conflicting agents: extend the
constraint list, replan just the offender, discard the child if the
replanning comes back empty. -/
def cbsExpand (G : Graph) (agents : List Agent) (max_t llFuel : Nat)
    (node : CBSTreeNode) (conflict : Conflict)
    (st : LLCache × List CBSTreeNode) (offender : String) :
    Option (LLCache × List CBSTreeNode) :=
  let newConstraints := node.constraints ++ [⟨offender, conflict.node, conflict.time⟩]
  match agents.find? (fun a => decide (a.name = offender)) with
  | none => some st
  | some agentObj =>
    match lowLevelSearch st.1 G agentObj newConstraints max_t llFuel with
    | none => none
    | some (replanned, cache') =>
      if replanned = [] then some (cache', st.2)
      else some (cache', st.2 ++ [⟨newConstraints, dictSet node.paths offender replanned⟩])

/-- The high-level `while open_heap:` loop of `cbs_plan`. -/
def cbsLoop (G : Graph) (agents : List Agent) (max_t llFuel : Nat) :
    Nat → LLCache → List CBSTreeNode → Option (Except String PathDict)
  | 0, _, _ => none
  | fuel + 1, cache, open_ =>
    match popMinBy cbsNodeLt open_ with
    | none => some (.error "CBS failed to find a conflict-free solution.")
    | some (node, rest) =>
      match detectFirstConflict node.paths with
      | none => some (.ok node.paths)
      | some conflict =>
        match [conflict.a1, conflict.a2].foldlM
            (cbsExpand G agents max_t llFuel node conflict) (cache, rest) with
        | none => none
        | some (cache', open') => cbsLoop G agents max_t llFuel fuel cache' open'

/-- `cbs_plan` (cbs.py): clear the cache, build the root, run the
high-level search.  `llFuel` bounds each low-level BFS, `fuel` the
high-level loop. -/
def cbsPlan (G : Graph) (agents : List Agent) (max_t llFuel fuel : Nat) :
    Option (Except String PathDict) :=
  match cbsBuildRoot G max_t llFuel agents [] [] with
  | none => none
  | some (.error e) => some (.error e)
  | some (.ok (rootPaths, cache)) =>
    cbsLoop G agents max_t llFuel fuel cache [⟨[], rootPaths⟩]

/-! ### Claim C7: idempotence of the low-level cache -/

/-- After a successful call, the cache maps the call's key to the
returned path. -/
theorem lowLevelSearch_cache_records
    (cache : LLCache) (G : Graph) (agent : Agent)
    (constraints : List Constraint) (max_t fuel : Nat)
    (p : List Nat) (cache' : LLCache)
    (h : lowLevelSearch cache G agent constraints max_t fuel = some (p, cache')) :
    cache'.find? (fun q => decide (q.1 = (agent.name, agent.start, agent.goal,
      max_t, constraintsKeyForAgent agent constraints))) = some
      ((agent.name, agent.start, agent.goal, max_t,
        constraintsKeyForAgent agent constraints), p) ∨
    ∃ q, cache'.find? (fun q => decide (q.1 = (agent.name, agent.start, agent.goal,
      max_t, constraintsKeyForAgent agent constraints))) = some q ∧ q.2 = p := by
  right
  simp only [lowLevelSearch] at h
  cases hf : cache.find? (fun q => decide (q.1 = (agent.name, agent.start,
      agent.goal, max_t, constraintsKeyForAgent agent constraints))) with
  | some q =>
    rw [hf] at h
    simp only [Option.some.injEq, Prod.mk.injEq] at h
    obtain ⟨rfl, rfl⟩ := h
    exact ⟨q, hf, rfl⟩
  | none =>
    rw [hf] at h
    cases hl : llsLoop G (constraintsKeyForAgent agent constraints) agent.goal
        max_t fuel [(agent.start, 0, [agent.start])] [(agent.start, 0)] with
    | none => rw [hl] at h; simp at h
    | some path =>
      rw [hl] at h
      simp only [Option.some.injEq, Prod.mk.injEq] at h
      obtain ⟨hpt, hch⟩ := h
      subst hpt
      subst hch
      refine ⟨((agent.name, agent.start, agent.goal, max_t,
        constraintsKeyForAgent agent constraints), path), ?_, rfl⟩
      rw [List.find?_append, hf]
      simp [List.find?]

/-- C7: calling `low_level_search` twice with the same graph, agent and
`max_t`, and with constraint lists whose `(node, time)` pairs for that
agent are identical, returns the identical path on the second call (the
cache key is the canonical constraint set, so the second call is a
cache hit on the entry committed — or already found — by the first). -/
theorem low_level_search_cache_idempotent
    (cache : LLCache) (G : Graph) (agent : Agent)
    (cs1 cs2 : List Constraint) (max_t fuel1 fuel2 : Nat)
    (p : List Nat) (cache' : LLCache)
    (hkey : constraintsKeyForAgent agent cs1 = constraintsKeyForAgent agent cs2)
    (h : lowLevelSearch cache G agent cs1 max_t fuel1 = some (p, cache')) :
    lowLevelSearch cache' G agent cs2 max_t fuel2 = some (p, cache') := by
  have hrec := lowLevelSearch_cache_records cache G agent cs1 max_t fuel1 p cache' h
  rcases hrec with hrec | ⟨q, hq, hq2⟩
  · simp only [lowLevelSearch, ← hkey, hrec]
  · simp only [lowLevelSearch, ← hkey, hq, hq2]

/-- A two-node graph with the single edge `0 → 1`, used by witnesses. -/
def exGraph2 : Graph :=
  ⟨[(0, 0, 0), (1, 0, 0)], [((0, 1), ⟨1, 1⟩)]⟩

/-- C7 witness: a concrete double call reproducing the first result. -/
theorem low_level_search_cache_idempotent_witness :
    constraintsKeyForAgent ⟨"a", 0, 1⟩ [⟨"a", 5, 1⟩, ⟨"b", 0, 0⟩] =
      constraintsKeyForAgent ⟨"a", 0, 1⟩ [⟨"a", 5, 1⟩] ∧
    lowLevelSearch [] exGraph2 ⟨"a", 0, 1⟩
      [⟨"a", 5, 1⟩, ⟨"b", 0, 0⟩] 100 100 = some ([0, 1],
        [(("a", 0, 1, 100, {(5, 1)}), [0, 1])]) ∧
    lowLevelSearch [(("a", 0, 1, 100, {(5, 1)}), [0, 1])]
      exGraph2 ⟨"a", 0, 1⟩
      [⟨"a", 5, 1⟩] 100 7 = some ([0, 1],
        [(("a", 0, 1, 100, {(5, 1)}), [0, 1])]) := by
  have h1 : lowLevelSearch [] exGraph2 ⟨"a", 0, 1⟩
      [⟨"a", 5, 1⟩, ⟨"b", 0, 0⟩] 100 100 = some ([0, 1],
        [(("a", 0, 1, 100, {(5, 1)}), [0, 1])]) := by rfl
  have hk : constraintsKeyForAgent ⟨"a", 0, 1⟩ [⟨"a", 5, 1⟩, ⟨"b", 0, 0⟩] =
      constraintsKeyForAgent ⟨"a", 0, 1⟩ [⟨"a", 5, 1⟩] := by decide
  exact ⟨hk, h1, low_level_search_cache_idempotent [] exGraph2 ⟨"a", 0, 1⟩
    [⟨"a", 5, 1⟩, ⟨"b", 0, 0⟩] [⟨"a", 5, 1⟩] 100 100 7 [0, 1]
    [(("a", 0, 1, 100, {(5, 1)}), [0, 1])] hk h1⟩

/-! ### Claim C1: CBS conflict-freedom -/

theorem getD_last (p : List Nat) (hne : p ≠ []) :
    p.getD (p.length - 1) 0 = p.getLastD 0 := by
  induction p with
  | nil => exact absurd rfl hne
  | cons x xs ih =>
    cases xs with
    | nil => rfl
    | cons y tl =>
      have hih := ih (by simp)
      simp only [List.length_cons, Nat.add_sub_cancel] at hih ⊢
      rw [List.getD_cons_succ, List.getLastD_cons, hih,
        List.getLastD_cons, List.getLastD_cons]

/-- Once a path has ended, `posAt` holds at the last node. -/
theorem posAt_stable (p : List Nat) (t : Nat) (hne : p ≠ [])
    (hlen : p.length ≤ t + 1) : posAt p t = p.getLastD 0 := by
  unfold posAt
  split
  case isTrue hlt =>
    rw [show t = p.length - 1 by omega]
    exact getD_last p hne
  case isFalse hlt => rfl

theorem le_foldl_max (l : List Nat) (a : Nat) :
    a ≤ l.foldl max a ∧ ∀ x ∈ l, x ≤ l.foldl max a := by
  induction l generalizing a with
  | nil => simp
  | cons y ys ih =>
    simp only [List.foldl_cons]
    constructor
    · exact le_trans (Nat.le_max_left a y) (ih (max a y)).1
    · intro x hx
      rcases List.mem_cons.mp hx with rfl | hx
      · exact le_trans (Nat.le_max_right a x) (ih (max a x)).1
      · exact (ih (max a y)).2 x hx

/-- A clean pair scan: the inner double loop of `detect_first_conflict`
finds nothing at time `t` iff the positions are pairwise distinct. -/
theorem conflictAmong_none {d : PathDict} {t : Nat} :
    ∀ {names : List String}, conflictAmong d t names = none →
      names.Pairwise (fun a1 a2 =>
        posAt (dictGet d a1 []) t ≠ posAt (dictGet d a2 []) t) := by
  intro names
  induction names with
  | nil => intro _; exact List.Pairwise.nil
  | cons a1 rest ih =>
    intro h
    simp only [conflictAmong] at h
    cases hf : rest.find? (fun a2 =>
        decide (posAt (dictGet d a1 []) t = posAt (dictGet d a2 []) t)) with
    | some a2 => rw [hf] at h; simp at h
    | none =>
      rw [hf] at h
      refine List.Pairwise.cons ?_ (ih h)
      intro a2 ha2
      have := List.find?_eq_none.mp hf a2 ha2
      simpa using this

theorem dictGet_mem {d : PathDict} {a : String}
    (h : a ∈ d.map Prod.fst) : ∃ e ∈ d, dictGet d a [] = e.2 := by
  obtain ⟨e, he, hfst⟩ := List.mem_map.mp h
  have hex : ∃ x ∈ d, (fun p => decide (p.1 = a)) x = true := ⟨e, he, by simp [hfst]⟩
  have hs := List.find?_isSome.mpr hex
  cases hfind : d.find? (fun p => decide (p.1 = a)) with
  | none => rw [hfind] at hs; simp at hs
  | some q =>
    exact ⟨q, List.mem_of_find?_eq_some hfind, by simp [dictGet, hfind]⟩

/-- If `detect_first_conflict` reports no conflict on a dict of nonempty
paths, the agents' positions are pairwise distinct at every time step
(including times past the scan horizon, where all positions are
stationary). -/
theorem detect_none_sound {d : PathDict}
    (hne : ∀ e ∈ d, e.2 ≠ [])
    (hdet : detectFirstConflict d = none) :
    ∀ a ∈ d.map Prod.fst, ∀ b ∈ d.map Prod.fst, a ≠ b →
      ∀ t, posAt (dictGet d a []) t ≠ posAt (dictGet d b []) t := by
  intro a ha b hb hab t
  by_cases hd : d = []
  · subst hd; simp at ha
  have hsymm : Symmetric (fun a1 a2 =>
      posAt (dictGet d a1 []) t ≠ posAt (dictGet d a2 []) t) :=
    fun x y hxy => hxy.symm
  simp only [detectFirstConflict, if_neg hd] at hdet
  have hall : ∀ s, s < (d.map fun p => p.2.length).foldl max 0 →
      conflictAmong d s (d.map Prod.fst) = none := by
    intro s hs
    exact List.findSome?_eq_none_iff.mp hdet s (List.mem_range.mpr hs)
  set T := (d.map fun p => p.2.length).foldl max 0 with hT
  by_cases ht : t < T
  · have hpw := conflictAmong_none (hall t ht)
    exact (List.Pairwise.forall (fun x y hxy => hxy.symm) hpw) ha hb hab
  · -- past the horizon: both agents hold their final nodes,
    -- equal to their positions at time T - 1
    obtain ⟨ea, hea, hpa⟩ := dictGet_mem ha
    obtain ⟨eb, heb, hpb⟩ := dictGet_mem hb
    have hlena : ea.2.length ≤ T :=
      (le_foldl_max (d.map fun p => p.2.length) 0).2 _
        (List.mem_map.mpr ⟨ea, hea, rfl⟩)
    have hlenb : eb.2.length ≤ T :=
      (le_foldl_max (d.map fun p => p.2.length) 0).2 _
        (List.mem_map.mpr ⟨eb, heb, rfl⟩)
    have hT1 : 1 ≤ T := by
      obtain ⟨e0, he0⟩ := List.exists_mem_of_ne_nil d hd
      have h1 : e0.2.length ∈ d.map fun p => p.2.length :=
        List.mem_map.mpr ⟨e0, he0, rfl⟩
      have := (le_foldl_max (d.map fun p => p.2.length) 0).2 _ h1
      have h2 : 1 ≤ e0.2.length :=
        List.length_pos.mpr (hne e0 he0)
      omega
    have hpw := conflictAmong_none (hall (T - 1) (by omega))
    have hne1 := (List.Pairwise.forall
      (fun (x : String) (y : String) (hxy :
        posAt (dictGet d x []) (T - 1) ≠ posAt (dictGet d y []) (T - 1)) => hxy.symm)
      hpw) ha hb hab
    rw [hpa, hpb] at hne1 ⊢
    rw [posAt_stable ea.2 t (hne ea hea) (by omega),
      posAt_stable eb.2 t (hne eb heb) (by omega)]
    rw [posAt_stable ea.2 (T - 1) (hne ea hea) (by omega),
      posAt_stable eb.2 (T - 1) (hne eb heb) (by omega)] at hne1
    exact hne1

theorem dictSet_mem {κ α : Type} [DecidableEq κ] {d : List (κ × α)} {k : κ} {v : α} :
    ∀ e ∈ dictSet d k v, e.2 = v ∨ e ∈ d := by
  intro e he
  unfold dictSet at he
  split at he
  · obtain ⟨p, hp, hpe⟩ := List.mem_map.mp he
    by_cases hk : p.1 = k
    · rw [if_pos hk] at hpe; left; rw [← hpe]
    · rw [if_neg hk] at hpe; right; rw [← hpe]; exact hp
  · rcases List.mem_append.mp he with h | h
    · right; exact h
    · left; simp at h; rw [h]

theorem cbsExpand_inv {G : Graph} {agents : List Agent} {max_t llFuel : Nat}
    {node : CBSTreeNode} {conflict : Conflict}
    {st st' : LLCache × List CBSTreeNode} {offender : String}
    (hnode : ∀ e ∈ node.paths, e.2 ≠ [])
    (hst : ∀ n ∈ st.2, ∀ e ∈ n.paths, e.2 ≠ [])
    (h : cbsExpand G agents max_t llFuel node conflict st offender = some st') :
    ∀ n ∈ st'.2, ∀ e ∈ n.paths, e.2 ≠ [] := by
  unfold cbsExpand at h
  cases hfind : agents.find? (fun a => decide (a.name = offender)) with
  | none =>
    rw [hfind] at h
    dsimp only at h
    simp only [Option.some.injEq] at h
    rw [← h]; exact hst
  | some agentObj =>
    rw [hfind] at h
    dsimp only at h
    cases hll : lowLevelSearch st.1 G agentObj
        (node.constraints ++ [⟨offender, conflict.node, conflict.time⟩])
        max_t llFuel with
    | none => rw [hll] at h; simp at h
    | some pr =>
      obtain ⟨replanned, cache'⟩ := pr
      rw [hll] at h
      dsimp only at h
      by_cases hrep : replanned = []
      · rw [if_pos hrep] at h
        simp only [Option.some.injEq] at h
        rw [← h]; exact hst
      · rw [if_neg hrep] at h
        simp only [Option.some.injEq] at h
        rw [← h]
        intro n hn
        rcases List.mem_append.mp hn with h2 | h2
        · exact hst n h2
        · simp at h2
          rw [h2]
          intro e he
          rcases dictSet_mem e he with h3 | h3
          · rw [h3]; exact hrep
          · exact hnode e h3

theorem cbsExpandFold_inv {G : Graph} {agents : List Agent} {max_t llFuel : Nat}
    {node : CBSTreeNode} {conflict : Conflict}
    (hnode : ∀ e ∈ node.paths, e.2 ≠ []) :
    ∀ (offs : List String) (st st' : LLCache × List CBSTreeNode),
      (∀ n ∈ st.2, ∀ e ∈ n.paths, e.2 ≠ []) →
      offs.foldlM (cbsExpand G agents max_t llFuel node conflict) st = some st' →
      ∀ n ∈ st'.2, ∀ e ∈ n.paths, e.2 ≠ [] := by
  intro offs
  induction offs with
  | nil =>
    intro st st' hst h
    simp only [List.foldlM_nil, pure, Option.some.injEq] at h
    rw [← h]; exact hst
  | cons o os ih =>
    intro st st' hst h
    simp only [List.foldlM_cons, bind, Option.bind_eq_bind] at h
    cases hx : cbsExpand G agents max_t llFuel node conflict st o with
    | none => rw [hx] at h; simp at h
    | some st1 =>
      rw [hx] at h
      simp only [Option.some_bind] at h
      exact ih st1 st' (cbsExpand_inv hnode hst hx) h

theorem cbsLoop_ok (G : Graph) (agents : List Agent) (max_t llFuel : Nat) :
    ∀ (fuel : Nat) (cache : LLCache) (open_ : List CBSTreeNode) (d : PathDict),
      (∀ n ∈ open_, ∀ e ∈ n.paths, e.2 ≠ []) →
      cbsLoop G agents max_t llFuel fuel cache open_ = some (.ok d) →
      (∀ e ∈ d, e.2 ≠ []) ∧ detectFirstConflict d = none := by
  intro fuel
  induction fuel with
  | zero =>
    intro cache open_ d _ h
    have heq : cbsLoop G agents max_t llFuel 0 cache open_ = none := rfl
    rw [heq] at h
    simp at h
  | succ fuel ih =>
    intro cache open_ d hinv h
    simp only [cbsLoop] at h
    cases hpop : popMinBy cbsNodeLt open_ with
    | none => rw [hpop] at h; simp at h
    | some pr =>
      obtain ⟨node, rest⟩ := pr
      rw [hpop] at h
      dsimp only at h
      have hnode : ∀ e ∈ node.paths, e.2 ≠ [] := hinv node (popMinBy_mem hpop)
      cases hdet : detectFirstConflict node.paths with
      | none =>
        rw [hdet] at h
        simp only [Option.some.injEq, Except.ok.injEq] at h
        rw [← h]
        exact ⟨hnode, hdet⟩
      | some conflict =>
        rw [hdet] at h
        dsimp only at h
        cases hfold : [conflict.a1, conflict.a2].foldlM
            (cbsExpand G agents max_t llFuel node conflict) (cache, rest) with
        | none => rw [hfold] at h; simp at h
        | some pr2 =>
          obtain ⟨cache', open'⟩ := pr2
          rw [hfold] at h
          dsimp only at h
          refine ih cache' open' d ?_ h
          exact cbsExpandFold_inv hnode [conflict.a1, conflict.a2] (cache, rest)
            (cache', open') (fun n hn => hinv n (popMinBy_rest_subset hpop n hn)) hfold

theorem cbsBuildRoot_inv (G : Graph) (max_t llFuel : Nat) :
    ∀ (ags : List Agent) (cache : LLCache) (acc paths : PathDict)
      (cache' : LLCache),
      (∀ e ∈ acc, e.2 ≠ []) →
      cbsBuildRoot G max_t llFuel ags cache acc = some (.ok (paths, cache')) →
      ∀ e ∈ paths, e.2 ≠ [] := by
  intro ags
  induction ags with
  | nil =>
    intro cache acc paths cache' hacc h
    have heq : cbsBuildRoot G max_t llFuel [] cache acc = some (.ok (acc, cache)) := rfl
    rw [heq] at h
    simp only [Option.some.injEq, Except.ok.injEq, Prod.mk.injEq] at h
    rw [← h.1]; exact hacc
  | cons a rest ih =>
    intro cache acc paths cache' hacc h
    simp only [cbsBuildRoot] at h
    cases hll : lowLevelSearch cache G a [] max_t llFuel with
    | none => rw [hll] at h; simp at h
    | some pr =>
      obtain ⟨p, cache1⟩ := pr
      rw [hll] at h
      dsimp only at h
      by_cases hp : p = []
      · rw [if_pos hp] at h; simp at h
      · rw [if_neg hp] at h
        refine ih cache1 (dictSet acc a.name p) paths cache' ?_ h
        intro e he
        rcases dictSet_mem e he with h2 | h2
        · rw [h2]; exact hp
        · exact hacc e h2

/-- C1: for every mapping returned by `cbs_plan`, all pairs of distinct
agents occupy different nodes at every time step, an agent whose path
has ended holding position at its last node. -/
theorem cbs_plan_conflict_free (G : Graph) (agents : List Agent)
    (max_t llFuel fuel : Nat) (d : PathDict)
    (h : cbsPlan G agents max_t llFuel fuel = some (.ok d)) :
    ∀ a ∈ d.map Prod.fst, ∀ b ∈ d.map Prod.fst, a ≠ b →
      ∀ t, posAt (dictGet d a []) t ≠ posAt (dictGet d b []) t := by
  unfold cbsPlan at h
  cases hroot : cbsBuildRoot G max_t llFuel agents [] [] with
  | none => rw [hroot] at h; simp at h
  | some r =>
    rw [hroot] at h
    cases r with
    | error e => simp at h
    | ok pr =>
      obtain ⟨rootPaths, cache⟩ := pr
      have hrne := cbsBuildRoot_inv G max_t llFuel agents [] [] rootPaths cache
        (by simp) hroot
      have hloop := cbsLoop_ok G agents max_t llFuel fuel cache
        [⟨[], rootPaths⟩] d ?_ h
      · exact detect_none_sound hloop.1 hloop.2
      · intro n hn
        simp only [List.mem_singleton] at hn
        rw [hn]
        exact hrne

/-- C1 witness: a concrete conflict-free plan for two disjoint agents. -/
theorem cbs_plan_conflict_free_witness :
    posAt (dictGet [("a", [0, 1]), ("b", [2, 3])] "a" []) 0 ≠
      posAt (dictGet [("a", [0, 1]), ("b", [2, 3])] "b" []) 0 :=
  cbs_plan_conflict_free
    ⟨[(0, 0, 0), (1, 0, 0), (2, 0, 0), (3, 0, 0)],
      [((0, 1), ⟨1, 1⟩), ((2, 3), ⟨1, 1⟩)]⟩
    [⟨"a", 0, 1⟩, ⟨"b", 2, 3⟩] 100 100 10
    [("a", [0, 1]), ("b", [2, 3])] (by rfl) "a" (by decide) "b" (by decide)
    (by decide) 0

/-! ### Prioritized planner (prioritized_planner.py) -/

/-- `occupied_nodes : Dict[int, set]` — reservation table from node id
to the set of reserved times (a list; only membership matters). -/
abbrev OccNodes := List (Nat × List Nat)

/-- `occupied_edges : Dict[Tuple[int, int], set]`. -/
abbrev OccEdges := List ((Nat × Nat) × List Nat)

/-- Membership test `t in occ.get(k, ())`. -/
def occMem {α : Type} [DecidableEq α] (occ : List (α × List Nat)) (k : α)
    (t : Nat) : Bool :=
  match occ.find? (fun p => decide (p.1 = k)) with
  | some p => decide (t ∈ p.2)
  | none => false

/-- `occ.setdefault(k, set()).add(t)`. -/
def occAdd {α : Type} [DecidableEq α] (occ : List (α × List Nat)) (k : α)
    (t : Nat) : List (α × List Nat) :=
  if occ.any (fun p => decide (p.1 = k)) then
    occ.map fun p => if p.1 = k then (p.1, t :: p.2) else p
  else occ ++ [(k, [t])]

/-- `is_blocked(next_node, cur_node, next_t)` from `time_expanded_astar`:
the node is reserved at that time, or the directed edge traversal is. -/
def teaIsBlocked (occN : OccNodes) (occE : OccEdges)
    (next cur next_t : Nat) : Bool :=
  occMem occN next next_t || occMem occE (cur, next) next_t

/-- `admissible_h`: the heuristic is fixed at 0. -/
def admissibleH (_n : Nat) : Nat := 0

/-- One heap entry `(f, g, node, t)` of `time_expanded_astar`, plus the
reversed path from the start.  The Python code keeps a `came_from`
pointer per `(node, t)` state; since `new_g < g_cost[state]` is never
true for an already-recorded state (every entry satisfies `g = t`, so
revisits have equal cost), each state's parent is written exactly once
and carrying the accumulated path is equivalent. -/
abbrev TEAEntry := Nat × Nat × Nat × Nat × List Nat

/-- `g_cost : Dict[(node, t), g]`. -/
abbrev GCost := List ((Nat × Nat) × Nat)

def gcostGet (g : GCost) (s : Nat × Nat) : Option Nat :=
  (g.find? (fun p => decide (p.1 = s))).map fun p => p.2

def gcostSet (g : GCost) (s : Nat × Nat) (v : Nat) : GCost :=
  dictSet g s v

/-- Python's lexicographic comparison of the 4-tuples `(f, g, node, t)`
pushed on the heap (the carried path is not part of the comparison; no
two entries share all four components, so ties never arise). -/
def teaLt (e1 e2 : TEAEntry) : Bool :=
  if e1.1 ≠ e2.1 then decide (e1.1 < e2.1)
  else if e1.2.1 ≠ e2.2.1 then decide (e1.2.1 < e2.2.1)
  else if e1.2.2.1 ≠ e2.2.2.1 then decide (e1.2.2.1 < e2.2.2.1)
  else decide (e1.2.2.2.1 < e2.2.2.2.1)

/-- Relaxation of one candidate next node (wait or move) in
`time_expanded_astar`. -/
def teaExpand (occN : OccNodes) (occE : OccEdges) (node t g : Nat)
    (rpath : List Nat) (acc : List TEAEntry × GCost) (next : Nat) :
    List TEAEntry × GCost :=
  if teaIsBlocked occN occE next node (t + 1) then acc
  else
    let newG := g + 1
    let better := match gcostGet acc.2 (next, t + 1) with
      | none => true
      | some x => decide (newG < x)
    if better then
      (acc.1 ++ [(newG + admissibleH next, newG, next, t + 1, next :: rpath)],
        gcostSet acc.2 (next, t + 1) newG)
    else acc

/-- The `while open_heap:` loop of `time_expanded_astar`. -/
def teaLoop (G : Graph) (goal max_t : Nat) (occN : OccNodes) (occE : OccEdges) :
    Nat → List TEAEntry → GCost → Option (List Nat)
  | 0, _, _ => none
  | fuel + 1, queue, gcost =>
    match popMinBy teaLt queue with
    | none => some []
    | some ((_f, g, node, t, rpath), rest) =>
      if t > max_t then teaLoop G goal max_t occN occE fuel rest gcost
      else if node = goal then some rpath.reverse
      else
        let acc := (node :: G.successors node).foldl
          (teaExpand occN occE node t g rpath) (rest, gcost)
        teaLoop G goal max_t occN occE fuel acc.1 acc.2

/-- `time_expanded_astar` (prioritized_planner.py): A* in `(node, time)`
space avoiding existing reservations; heuristic 0, so uniform cost. -/
def timeExpandedAstar (G : Graph) (agent : Agent) (occN : OccNodes)
    (occE : OccEdges) (max_t fuel : Nat) : Option (List Nat) :=
  teaLoop G agent.goal max_t occN occE fuel
    [(0, 0, agent.start, 0, [agent.start])] [((agent.start, 0), 0)]

/-- The `# reserve path` loop of `prioritized_plan`: claim every
`(node, t)` the path occupies and every `(edge, t)` transition. -/
def reservePath (occN : OccNodes) (occE : OccEdges) (path : List Nat) :
    OccNodes × OccEdges :=
  (List.range path.length).foldl
    (fun acc t =>
      let node := path.getD t 0
      let occN' := occAdd acc.1 node t
      if 0 < t then (occN', occAdd acc.2 (path.getD (t - 1) 0, node) t)
      else (occN', acc.2))
    (occN, occE)

/-- The per-agent loop of `prioritized_plan`, threading reservation
tables and the result dict. -/
def prioritizedPlanLoop (G : Graph) (abn : List (String × Agent))
    (max_t fuel : Nat) :
    List String → OccNodes → OccEdges → PathDict →
    Option (Except String PathDict)
  | [], _, _, paths => some (.ok paths)
  | name :: order, occN, occE, paths =>
    match abn.find? (fun p => decide (p.1 = name)) with
    | none => some (.error ("KeyError: " ++ name))
    | some pr =>
      match timeExpandedAstar G pr.2 occN occE max_t fuel with
      | none => none
      | some path =>
        if path = [] then some (.error ("No path for agent " ++ pr.2.name))
        else
          let r := reservePath occN occE path
          prioritizedPlanLoop G abn max_t fuel order r.1 r.2
            (dictSet paths name path)

/-- `prioritized_plan` (prioritized_planner.py). -/
def prioritizedPlan (G : Graph) (agents : List Agent)
    (priorityOrder : Option (List String)) (max_t fuel : Nat) :
    Option (Except String PathDict) :=
  let order := match priorityOrder with
    | none => agents.map Agent.name
    | some o => o
  let abn := agents.foldl (fun d a => dictSet d a.name a) []
  prioritizedPlanLoop G abn max_t fuel order [] [] []

/-! ### Claim C3: prioritized plan respects earlier reservations -/

/-- A reversed time-expanded path whose head occupies time `t`: each
hop is a wait or an edge of `G`, and every state after time 0 passed
the reservation check of `time_expanded_astar`. -/
def revOkB (G : Graph) (occN : OccNodes) (occE : OccEdges) :
    List Nat → Nat → Bool
  | [], _ => false
  | [_], t => decide (t = 0)
  | next :: cur :: rest, t =>
    decide (0 < t) && (decide (next = cur) || decide (next ∈ G.successors cur)) &&
    !(teaIsBlocked occN occE next cur t) && revOkB G occN occE (cur :: rest) (t - 1)

/-- Invariant of every entry on the `time_expanded_astar` heap. -/
def TEAGood (G : Graph) (occN : OccNodes) (occE : OccEdges) (start : Nat)
    (e : TEAEntry) : Prop :=
  e.2.2.2.2.head? = some e.2.2.1 ∧ e.2.2.2.2.getLastD 0 = start ∧
  revOkB G occN occE e.2.2.2.2 e.2.2.2.1 = true

theorem getLastD_irrel {p : List Nat} (hp : p ≠ []) (a b : Nat) :
    p.getLastD a = p.getLastD b := by
  cases p with
  | nil => exact absurd rfl hp
  | cons x xs => rw [List.getLastD_cons, List.getLastD_cons]

theorem teaExpand_good {G : Graph} {occN : OccNodes} {occE : OccEdges}
    {start f g node t : Nat} {rpath : List Nat}
    (hgood : TEAGood G occN occE start (f, g, node, t, rpath))
    {acc : List TEAEntry × GCost}
    (hacc : ∀ e ∈ acc.1, TEAGood G occN occE start e)
    {next : Nat} (hnext : next = node ∨ next ∈ G.successors node) :
    ∀ e ∈ (teaExpand occN occE node t g rpath acc next).1,
      TEAGood G occN occE start e := by
  intro e he
  unfold teaExpand at he
  split at he
  · exact hacc e he
  case isFalse hblocked =>
    dsimp only at he
    split at he
    · rcases List.mem_append.mp he with h2 | h2
      · exact hacc e h2
      · simp only [List.mem_singleton] at h2
        subst h2
        obtain ⟨hhead, hlast, hrev⟩ := hgood
        have hne : rpath ≠ [] := by
          intro hcontra; rw [hcontra] at hhead; simp at hhead
        obtain ⟨rtl, hrtl⟩ : ∃ rtl, rpath = node :: rtl := by
          cases rpath with
          | nil => exact absurd rfl hne
          | cons x xs =>
            simp only [List.head?_cons, Option.some.injEq] at hhead
            exact ⟨xs, by rw [hhead]⟩
        refine ⟨rfl, ?_, ?_⟩
        · show (next :: rpath).getLastD 0 = start
          rw [List.getLastD_cons, getLastD_irrel hne next 0]
          exact hlast
        · show revOkB G occN occE (next :: rpath) (t + 1) = true
          rw [hrtl]
          simp only [revOkB, Nat.add_sub_cancel]
          rw [hrtl] at hrev
          simp only [Bool.and_eq_true, Bool.or_eq_true, Bool.not_eq_eq_eq_not,
            Bool.not_true, decide_eq_true_eq]
          refine ⟨⟨⟨Nat.succ_pos t, ?_⟩, ?_⟩, hrev⟩
          · rcases hnext with h | h
            · left; exact h
            · right; simpa using h
          · simp only [Bool.not_eq_true] at hblocked
            exact hblocked
    · exact hacc e he

theorem teaFold_good {G : Graph} {occN : OccNodes} {occE : OccEdges}
    {start f g node t : Nat} {rpath : List Nat}
    (hgood : TEAGood G occN occE start (f, g, node, t, rpath)) :
    ∀ (l : List Nat), (∀ x ∈ l, x = node ∨ x ∈ G.successors node) →
      ∀ (acc : List TEAEntry × GCost),
        (∀ e ∈ acc.1, TEAGood G occN occE start e) →
        ∀ e ∈ (l.foldl (teaExpand occN occE node t g rpath) acc).1,
          TEAGood G occN occE start e := by
  intro l
  induction l with
  | nil => intro _ acc hacc e he; exact hacc e he
  | cons x xs ih =>
    intro hl acc hacc
    simp only [List.foldl_cons]
    exact ih (fun y hy => hl y (List.mem_cons_of_mem x hy))
      (teaExpand occN occE node t g rpath acc x)
      (teaExpand_good hgood hacc (hl x (List.mem_cons_self x xs)))

theorem teaLoop_safe (G : Graph) (goal max_t : Nat) (occN : OccNodes)
    (occE : OccEdges) (start : Nat) :
    ∀ (fuel : Nat) (queue : List TEAEntry) (gcost : GCost) (p : List Nat),
      (∀ e ∈ queue, TEAGood G occN occE start e) →
      teaLoop G goal max_t occN occE fuel queue gcost = some p →
      p = [] ∨ ∃ rpath t, p = rpath.reverse ∧ t ≤ max_t ∧
        rpath.head? = some goal ∧
        rpath.getLastD 0 = start ∧ revOkB G occN occE rpath t = true := by
  intro fuel
  induction fuel with
  | zero =>
    intro queue gcost p _ h
    have heq : teaLoop G goal max_t occN occE 0 queue gcost = none := rfl
    rw [heq] at h
    simp at h
  | succ fuel ih =>
    intro queue gcost p hq h
    simp only [teaLoop] at h
    cases hpop : popMinBy teaLt queue with
    | none => rw [hpop] at h; simp only [Option.some.injEq] at h; left; rw [← h]
    | some pr =>
      obtain ⟨⟨f, g, node, t, rpath⟩, rest⟩ := pr
      rw [hpop] at h
      dsimp only at h
      have hgood : TEAGood G occN occE start (f, g, node, t, rpath) :=
        hq _ (popMinBy_mem hpop)
      have hrest : ∀ e ∈ rest, TEAGood G occN occE start e :=
        fun e he => hq e (popMinBy_rest_subset hpop e he)
      by_cases ht : t > max_t
      · rw [if_pos ht] at h
        exact ih rest gcost p hrest h
      · rw [if_neg ht] at h
        by_cases hgoal : node = goal
        · rw [if_pos hgoal] at h
          simp only [Option.some.injEq] at h
          right
          refine ⟨rpath, t, h.symm, by omega, ?_, hgood.2.1, hgood.2.2⟩
          rw [← hgoal]
          exact hgood.1
        · rw [if_neg hgoal] at h
          refine ih _ _ p ?_ h
          refine teaFold_good hgood (node :: G.successors node) ?_ (rest, gcost) hrest
          intro x hx
          rcases List.mem_cons.mp hx with h2 | h2
          · left; exact h2
          · right; exact h2

/-- `time_expanded_astar` safety: any non-empty result is the reverse
of a reservation-respecting reversed path from start to goal. -/
theorem timeExpandedAstar_safe (G : Graph) (agent : Agent) (occN : OccNodes)
    (occE : OccEdges) (max_t fuel : Nat) (p : List Nat)
    (h : timeExpandedAstar G agent occN occE max_t fuel = some p) :
    p = [] ∨ ∃ rpath t, p = rpath.reverse ∧ t ≤ max_t ∧
      rpath.head? = some agent.goal ∧
      rpath.getLastD 0 = agent.start ∧ revOkB G occN occE rpath t = true := by
  refine teaLoop_safe G agent.goal max_t occN occE agent.start fuel _ _ p ?_ h
  intro e he
  simp only [List.mem_singleton] at he
  subst he
  exact ⟨rfl, rfl, by simp [revOkB]⟩

/-- Forward reading of `revOkB`: the reversed list, read forwards, has
length `t + 1` and every state after time 0 passed the blocked check
against its predecessor. -/
theorem revOkB_forward (G : Graph) (occN : OccNodes) (occE : OccEdges) :
    ∀ (rpath : List Nat) (t : Nat), revOkB G occN occE rpath t = true →
      rpath.reverse.length = t + 1 ∧
      ∀ k, 0 < k → k < rpath.reverse.length →
        teaIsBlocked occN occE (rpath.reverse.getD k 0)
          (rpath.reverse.getD (k - 1) 0) k = false ∧
        (rpath.reverse.getD k 0 = rpath.reverse.getD (k - 1) 0 ∨
          rpath.reverse.getD k 0 ∈
            G.successors (rpath.reverse.getD (k - 1) 0)) := by
  intro rpath
  induction rpath with
  | nil => intro t h; simp [revOkB] at h
  | cons x xs ih =>
    intro t h
    cases xs with
    | nil =>
      simp only [revOkB, decide_eq_true_eq] at h
      subst h
      exact ⟨by simp, fun k hk hk' => by simp at hk'; omega⟩
    | cons cur rest =>
      simp only [revOkB, Bool.and_eq_true, Bool.or_eq_true, Bool.not_eq_eq_eq_not,
        Bool.not_true, decide_eq_true_eq] at h
      obtain ⟨⟨⟨h0, hstep⟩, hblk⟩, hrec⟩ := h
      obtain ⟨hlen, hall⟩ := ih (t - 1) hrec
      have hlen' : (cur :: rest).reverse.length = t := by omega
      have hrl : rest.length + 1 = t := by
        simpa using hlen'
      constructor
      · simp only [List.length_reverse, List.length_cons]
        omega
      · intro k hk hk'
        rw [List.reverse_cons]
        rw [List.reverse_cons, List.length_append, List.length_singleton] at hk'
        have hklen : k < (cur :: rest).reverse.length + 1 := hk'
        by_cases hkt : k < (cur :: rest).reverse.length
        · rw [List.getD_append _ _ _ _ hkt, List.getD_append _ _ _ _ (by omega)]
          exact hall k hk hkt
        · have hkeq : k = t := by omega
          have h1 : ((cur :: rest).reverse ++ [x]).getD k 0 = x := by
            rw [List.getD_append_right _ _ _ _ (by omega)]
            rw [show k - (cur :: rest).reverse.length = 0 by omega]
            rfl
          have h2 : ((cur :: rest).reverse ++ [x]).getD (k - 1) 0 = cur := by
            rw [List.getD_append _ _ _ _ (by omega)]
            rw [List.reverse_cons]
            rw [List.getD_append_right _ _ _ _
              (by simp only [List.length_reverse]; omega)]
            have hz : k - 1 - rest.reverse.length = 0 := by
              simp only [List.length_reverse]
              omega
            rw [hz]
            rfl
          rw [h1, h2, hkeq]
          exact ⟨hblk, hstep⟩

/-- The reservation-respect property of one path against the tables:
at every time step after 0, neither the occupied node nor the traversed
directed edge is reserved. -/
def RespectsFrom (occN : OccNodes) (occE : OccEdges) (p : List Nat) : Prop :=
  ∀ t, 0 < t → t < p.length →
    occMem occN (p.getD t 0) t = false ∧
    occMem occE (p.getD (t - 1) 0, p.getD t 0) t = false

/-- Any result of `time_expanded_astar` respects the reservation tables
it was given, at every time step after 0. -/
theorem timeExpandedAstar_respects (G : Graph) (agent : Agent)
    (occN : OccNodes) (occE : OccEdges) (max_t fuel : Nat) (p : List Nat)
    (h : timeExpandedAstar G agent occN occE max_t fuel = some p) :
    RespectsFrom occN occE p := by
  rcases timeExpandedAstar_safe G agent occN occE max_t fuel p h with
    hnil | ⟨rpath, t, hp, _, _, _, hrev⟩
  · intro t h0 hlt; rw [hnil] at hlt; simp at hlt
  · intro k h0 hlt
    obtain ⟨_, hall⟩ := revOkB_forward G occN occE rpath t hrev
    rw [hp] at hlt ⊢
    have := (hall k h0 hlt).1
    unfold teaIsBlocked at this
    simp only [Bool.or_eq_false_iff] at this
    exact this

theorem dictGet_dictSet_self {κ α : Type} [DecidableEq κ] (d : List (κ × α))
    (k : κ) (v dflt : α) : dictGet (dictSet d k v) k dflt = v := by
  unfold dictGet dictSet
  by_cases hany : d.any (fun p => decide (p.1 = k)) = true
  case pos =>
    rw [if_pos hany]
    rw [List.find?_map]
    have hpred : (fun p : κ × α => decide (p.1 = k)) ∘
        (fun p : κ × α => if p.1 = k then (k, v) else p) =
        fun p : κ × α => decide (p.1 = k) := by
      funext p
      by_cases hp : p.1 = k
      · simp [hp]
      · simp [hp]
    rw [hpred]
    simp only [List.any_eq_true, decide_eq_true_eq] at hany
    obtain ⟨e, he, hek⟩ := hany
    have hs : (d.find? (fun p => decide (p.1 = k))).isSome = true :=
      List.find?_isSome.mpr ⟨e, he, by simpa using hek⟩
    cases hf : d.find? (fun p => decide (p.1 = k)) with
    | none => rw [hf] at hs; simp at hs
    | some q =>
      have hq : q.1 = k := by simpa using List.find?_some hf
      simp [hf, hq]
  case neg =>
    rw [if_neg hany]
    rw [List.find?_append]
    have hnone : d.find? (fun p => decide (p.1 = k)) = none := by
      rw [List.find?_eq_none]
      intro x hx
      simp only [decide_eq_true_eq]
      intro hxk
      exact hany (List.any_eq_true.mpr ⟨x, hx, by simp [hxk]⟩)
    rw [hnone]
    simp [List.find?]

theorem dictGet_dictSet_ne {κ α : Type} [DecidableEq κ] (d : List (κ × α))
    (k k' : κ) (v : α) (dflt : α) (h : k' ≠ k) :
    dictGet (dictSet d k v) k' dflt = dictGet d k' dflt := by
  unfold dictGet dictSet
  by_cases hany : d.any (fun p => decide (p.1 = k)) = true
  case pos =>
    rw [if_pos hany]
    rw [List.find?_map]
    have hpred : (fun p : κ × α => decide (p.1 = k')) ∘
        (fun p : κ × α => if p.1 = k then (k, v) else p) =
        fun p : κ × α => decide (p.1 = k') := by
      funext p
      by_cases hp : p.1 = k
      · simp [Function.comp, hp, Ne.symm h]
      · simp [hp]
    rw [hpred]
    cases hf : d.find? (fun p => decide (p.1 = k')) with
    | none => simp
    | some q =>
      have hq : q.1 = k' := by simpa using List.find?_some hf
      have hqk : ¬(q.1 = k) := by rw [hq]; exact h
      simp [hqk]
  case neg =>
    rw [if_neg hany]
    rw [List.find?_append]
    cases hf : d.find? (fun p => decide (p.1 = k')) with
    | none => simp [List.find?, Ne.symm h]
    | some q => simp

/-- The per-agent loop never changes the entry of a name outside the
remaining priority order. -/
theorem planLoop_preserves (G : Graph) (abn : List (String × Agent))
    (max_t fuel : Nat) :
    ∀ (order : List String) (occN : OccNodes) (occE : OccEdges)
      (paths d : PathDict),
      prioritizedPlanLoop G abn max_t fuel order occN occE paths =
        some (.ok d) →
      ∀ k, k ∉ order → dictGet d k [] = dictGet paths k [] := by
  intro order
  induction order with
  | nil =>
    intro occN occE paths d h k _
    have heq : prioritizedPlanLoop G abn max_t fuel [] occN occE paths =
        some (.ok paths) := rfl
    rw [heq] at h
    simp only [Option.some.injEq, Except.ok.injEq] at h
    rw [h]
  | cons name order' ih =>
    intro occN occE paths d h k hk
    simp only [prioritizedPlanLoop] at h
    cases hfind : abn.find? (fun p => decide (p.1 = name)) with
    | none => rw [hfind] at h; simp at h
    | some pr =>
      rw [hfind] at h
      dsimp only at h
      cases htea : timeExpandedAstar G pr.2 occN occE max_t fuel with
      | none => rw [htea] at h; simp at h
      | some path =>
        rw [htea] at h
        dsimp only at h
        by_cases hp : path = []
        · rw [if_pos hp] at h; simp at h
        · rw [if_neg hp] at h
          have hk1 : k ≠ name := fun hc => hk (hc ▸ List.mem_cons_self name order')
          have hk2 : k ∉ order' := fun hc => hk (List.mem_cons_of_mem name hc)
          rw [ih _ _ _ d h k hk2]
          exact dictGet_dictSet_ne paths name k path [] hk1

/-- Accumulate the reservation loop over a list of committed paths. -/
def reserveAllFrom (st : OccNodes × OccEdges) (ps : List (List Nat)) :
    OccNodes × OccEdges :=
  ps.foldl (fun acc p => reservePath acc.1 acc.2 p) st

theorem planLoop_respects (G : Graph) (abn : List (String × Agent))
    (max_t fuel : Nat) :
    ∀ (order : List String) (occN : OccNodes) (occE : OccEdges)
      (paths d : PathDict), order.Nodup →
      prioritizedPlanLoop G abn max_t fuel order occN occE paths =
        some (.ok d) →
      ∀ i (hi : i < order.length),
        RespectsFrom
          (reserveAllFrom (occN, occE)
            ((order.take i).map fun n => dictGet d n [])).1
          (reserveAllFrom (occN, occE)
            ((order.take i).map fun n => dictGet d n [])).2
          (dictGet d (order.get ⟨i, hi⟩) []) := by
  intro order
  induction order with
  | nil => intro occN occE paths d _ _ i hi; simp at hi
  | cons name order' ih =>
    intro occN occE paths d hnodup h i hi
    simp only [prioritizedPlanLoop] at h
    cases hfind : abn.find? (fun p => decide (p.1 = name)) with
    | none => rw [hfind] at h; simp at h
    | some pr =>
      rw [hfind] at h
      dsimp only at h
      cases htea : timeExpandedAstar G pr.2 occN occE max_t fuel with
      | none => rw [htea] at h; simp at h
      | some path =>
        rw [htea] at h
        dsimp only at h
        by_cases hp : path = []
        · rw [if_pos hp] at h; simp at h
        · rw [if_neg hp] at h
          obtain ⟨hname, hnodup'⟩ := List.nodup_cons.mp hnodup
          have hdname : dictGet d name [] = path := by
            rw [planLoop_preserves G abn max_t fuel order' _ _ _ d h name hname]
            exact dictGet_dictSet_self paths name path []
          cases i with
          | zero =>
            simp only [List.take_zero, List.map_nil]
            show RespectsFrom occN occE (dictGet d ((name :: order').get ⟨0, hi⟩) [])
            have : (name :: order').get ⟨0, hi⟩ = name := rfl
            rw [this, hdname]
            exact timeExpandedAstar_respects G pr.2 occN occE max_t fuel path htea
          | succ j =>
            have hj : j < order'.length := by
              simpa using hi
            have hget : (name :: order').get ⟨j + 1, hi⟩ = order'.get ⟨j, hj⟩ :=
              List.get_cons_succ
            rw [hget]
            rw [List.take_succ_cons, List.map_cons, hdname]
            show RespectsFrom
              (reserveAllFrom (reservePath occN occE path)
                ((order'.take j).map fun n => dictGet d n [])).1
              (reserveAllFrom (reservePath occN occE path)
                ((order'.take j).map fun n => dictGet d n [])).2
              (dictGet d (order'.get ⟨j, hj⟩) [])
            have hst : reservePath occN occE path =
                ((reservePath occN occE path).1, (reservePath occN occE path).2) := rfl
            rw [hst]
            exact ih (reservePath occN occE path).1 (reservePath occN occE path).2
              _ d hnodup' h j hj

/-- C3 (amended): for every mapping returned by `prioritized_plan`,
every agent in priority order and every time step `t ≥ 1` of its path,
the occupied `(node, t)` and the traversed `(edge, t)` are not among
the reservations committed by the agents planned before it.  (The
start state at time 0 is NOT checked by the code — see the
counterexample.) -/
theorem prioritized_plan_respects_reservations
    (G : Graph) (agents : List Agent) (order : List String)
    (max_t fuel : Nat) (d : PathDict) (hnodup : order.Nodup)
    (h : prioritizedPlan G agents (some order) max_t fuel = some (.ok d)) :
    ∀ i (hi : i < order.length),
      RespectsFrom
        (reserveAllFrom (([] : OccNodes), ([] : OccEdges))
          ((order.take i).map fun n => dictGet d n [])).1
        (reserveAllFrom (([] : OccNodes), ([] : OccEdges))
          ((order.take i).map fun n => dictGet d n [])).2
        (dictGet d (order.get ⟨i, hi⟩) []) := by
  refine planLoop_respects G
    (agents.foldl (fun acc a => dictSet acc a.name a) [])
    max_t fuel order [] [] [] d hnodup ?_
  exact h

/-- C3 counterexample: with two agents sharing start node 0 the plan
succeeds, agent "a" reserves `(node 0, time 0)`, and agent "b"
nevertheless occupies node 0 at time 0: the claim's inclusion of the
start state at time 0 fails on the code. -/
theorem prioritized_plan_start_time_zero_counterexample :
    prioritizedPlan ⟨[(0, 0, 0)], []⟩ [⟨"a", 0, 0⟩, ⟨"b", 0, 0⟩] none 50 10 =
      some (.ok [("a", [0]), ("b", [0])]) ∧
    occMem (reserveAllFrom (([] : OccNodes), ([] : OccEdges))
      [dictGet [("a", [0]), ("b", [0])] "a" []]).1
      ((dictGet [("a", [0]), ("b", [0])] "b" []).getD 0 0) 0 = true := by
  exact ⟨by rfl, by rfl⟩

/-- C3 witness: concrete instantiation of the amended theorem.  On a
path graph `0 → 1 → 2` with both agents routed `0 → 2`, agent "b"
(planned second) at time 1 occupies a node and edge unreserved by
agent "a". -/
theorem prioritized_plan_respects_reservations_witness :
    occMem (reserveAllFrom (([] : OccNodes), ([] : OccEdges))
      [dictGet [("a", [0, 1, 2]), ("b", [0, 0, 1, 2])] "a" []]).1
      ((dictGet [("a", [0, 1, 2]), ("b", [0, 0, 1, 2])] "b" []).getD 1 0) 1
      = false ∧
    occMem (reserveAllFrom (([] : OccNodes), ([] : OccEdges))
      [dictGet [("a", [0, 1, 2]), ("b", [0, 0, 1, 2])] "a" []]).2
      ((dictGet [("a", [0, 1, 2]), ("b", [0, 0, 1, 2])] "b" []).getD 0 0,
        (dictGet [("a", [0, 1, 2]), ("b", [0, 0, 1, 2])] "b" []).getD 1 0) 1
      = false := by
  have hmain := prioritized_plan_respects_reservations
    ⟨[(0, 0, 0), (1, 0, 0), (2, 0, 0)], [((0, 1), ⟨1, 1⟩), ((1, 2), ⟨1, 1⟩)]⟩
    [⟨"a", 0, 2⟩, ⟨"b", 0, 2⟩] ["a", "b"] 50 500
    [("a", [0, 1, 2]), ("b", [0, 0, 1, 2])] (by decide) (by rfl) 1 (by decide)
  have hinst := hmain 1 (by decide) (by decide)
  exact hinst

/-! ### A* (astar_planner.py)

`astar_shortest_path` uses `time_heuristic`, which divides the
haversine distance between two nodes' coordinates by an assumed
40 km/h speed.  The heuristic's (transcendental) value enters the
algorithm only through the `f` keys pushed on the heap, so the
embedding takes the heuristic as a function parameter `h`; every Python
float is a rational, so `h : Nat → Nat → ℚ`.  `h u v = 0` whenever the
two nodes carry identical coordinates (haversine of a point with
itself is 0). -/

/-- Python's comparison of the `(f, node)` tuples on the A* heap. -/
def astarLt (e1 e2 : ℚ × Nat) : Bool :=
  if e1.1 ≠ e2.1 then decide (e1.1 < e2.1) else decide (e1.2 < e2.2)

/-- Path reconstruction of `astar_shortest_path`: follow `came_from`
until a node with no parent; the Python loop appends and reverses,
which is consing at the front. -/
def astarReconstruct (cf : List (Nat × Nat)) :
    Nat → Nat → List Nat → Option (List Nat)
  | 0, _, _ => none
  | fuel + 1, current, acc =>
    match cf.find? (fun p => decide (p.1 = current)) with
    | none => some acc
    | some p => astarReconstruct cf fuel p.2 (p.2 :: acc)

/-- Relaxation of one successor edge in `astar_shortest_path`. -/
def astarRelax (G : Graph) (h : Nat → Nat → ℚ) (goal current : Nat)
    (gcur : ℚ)
    (acc : List (ℚ × Nat) × List (Nat × Nat) × List (Nat × ℚ))
    (nbr : Nat) :
    List (ℚ × Nat) × List (Nat × Nat) × List (Nat × ℚ) :=
  let cost := G.travelTime current nbr
  let tentative := gcur + cost
  let better := match acc.2.2.find? (fun p => decide (p.1 = nbr)) with
    | none => true
    | some p => decide (tentative < p.2)
  if better then
    (acc.1 ++ [(tentative + h nbr goal, nbr)],
      dictSet acc.2.1 nbr current,
      dictSet acc.2.2 nbr tentative)
  else acc

/-- The `while open_heap:` loop of `astar_shortest_path`. -/
def astarLoop (G : Graph) (h : Nat → Nat → ℚ) (goal : Nat) :
    Nat → List (ℚ × Nat) → List (Nat × Nat) → List (Nat × ℚ) →
    Option (List Nat × WithTop ℚ)
  | 0, _, _, _ => none
  | fuel + 1, open_, cf, g =>
    match popMinBy astarLt open_ with
    | none => some ([], ⊤)
    | some ((_, current), rest) =>
      if current = goal then
        match astarReconstruct cf (fuel + 1) current [current] with
        | none => none
        | some path =>
          some (path, match g.find? (fun p => decide (p.1 = current)) with
            | some q => (q.2 : WithTop ℚ)
            | none => ⊤)
      else
        let gcur := match g.find? (fun p => decide (p.1 = current)) with
          | some q => q.2
          | none => 0
        let acc := (G.successors current).foldl
          (astarRelax G h goal current gcur) (rest, cf, g)
        astarLoop G h goal fuel acc.1 acc.2.1 acc.2.2

/-- `astar_shortest_path` (astar_planner.py): returns the node path and
total time, or `([], ⊤)` when the goal is unreachable. -/
def astarShortestPath (G : Graph) (h : Nat → Nat → ℚ) (start goal : Nat)
    (fuel : Nat) : Option (List Nat × WithTop ℚ) :=
  astarLoop G h goal fuel [(0, start)] [] [(start, 0)]

/-- Every consecutive pair of the list is a directed edge of `G`. -/
def isWalkB (G : Graph) : List Nat → Bool
  | [] => true
  | [_] => true
  | u :: v :: rest => G.hasEdge u v && isWalkB G (v :: rest)

/-- Total `travel_time` along consecutive pairs. -/
def pathCost (G : Graph) : List Nat → ℚ
  | [] => 0
  | [_] => 0
  | u :: v :: rest => G.travelTime u v + pathCost G (v :: rest)

/-- The cost `c` is realized by some walk from `s` to `v` in `G`. -/
def IsWalkCost (G : Graph) (s v : Nat) (c : ℚ) : Prop :=
  ∃ w : List Nat, w ≠ [] ∧ isWalkB G w = true ∧ w.headD 0 = s ∧
    w.getLastD 0 = v ∧ pathCost G w = c

/-- Minimum of two optional costs (`none` = unreachable). -/
def optMin : Option ℚ → Option ℚ → Option ℚ
  | none, b => b
  | some a, none => some a
  | some a, some b => some (min a b)

/-- Modelled from the spec: the "brute-force shortest path computed by
an independent full search" that §8 compares A* against.  Exhaustive
minimum of total `travel_time` over all duplicate-free paths from
`current` to `goal`. -/
def refShortest (G : Graph) (goal : Nat) :
    Nat → Nat → List Nat → Option ℚ
  | fuel, current, visited =>
    if current = goal then some 0
    else match fuel with
      | 0 => none
      | fuel + 1 =>
        (G.successors current).foldl
          (fun best nbr =>
            if nbr ∈ visited then best
            else optMin best
              ((refShortest G goal fuel nbr (current :: visited)).map
                (fun c => G.travelTime current nbr + c)))
          none

/-! ### A* invariants (claims C2 and C5) -/

/-- Strengthened membership for `dictSet`: an entry of the updated dict
is the new binding or an entry of the old dict. -/
theorem dictSet_mem' {κ α : Type} [DecidableEq κ] {d : List (κ × α)}
    {k : κ} {v : α} : ∀ e ∈ dictSet d k v, e = (k, v) ∨ e ∈ d := by
  intro e he
  unfold dictSet at he
  split at he
  · obtain ⟨p, hp, hpe⟩ := List.mem_map.mp he
    by_cases hk : p.1 = k
    · rw [if_pos hk] at hpe; left; rw [← hpe]
    · rw [if_neg hk] at hpe; right; rw [← hpe]; exact hp
  · rcases List.mem_append.mp he with h2 | h2
    · right; exact h2
    · left; simpa using h2

/-- `dictSet` can only enlarge the key set. -/
theorem dictSet_key_mono {κ α : Type} [DecidableEq κ] {d : List (κ × α)}
    {k : κ} {v : α} {x : κ} (h : ∃ q ∈ d, q.1 = x) :
    ∃ q ∈ dictSet d k v, q.1 = x := by
  obtain ⟨q, hq, hqx⟩ := h
  unfold dictSet
  split
  · by_cases hk : q.1 = k
    · exact ⟨(k, v), List.mem_map.mpr ⟨q, hq, by rw [if_pos hk]⟩, by rw [← hqx, hk]⟩
    · exact ⟨q, List.mem_map.mpr ⟨q, hq, by rw [if_neg hk]⟩, hqx⟩
  · exact ⟨q, List.mem_append.mpr (Or.inl hq), hqx⟩

/-- The new key is always present after `dictSet`. -/
theorem dictSet_key_self {κ α : Type} [DecidableEq κ] (d : List (κ × α))
    (k : κ) (v : α) : ∃ q ∈ dictSet d k v, q.1 = k := by
  unfold dictSet
  split
  case isTrue hany =>
    simp only [List.any_eq_true, decide_eq_true_eq] at hany
    obtain ⟨e, he, hek⟩ := hany
    exact ⟨(k, v), List.mem_map.mpr ⟨e, he, by rw [if_pos hek]⟩, rfl⟩
  case isFalse _ =>
    exact ⟨(k, v), List.mem_append.mpr (Or.inr (List.mem_singleton.mpr rfl)), rfl⟩

theorem mem_successors_hasEdge {G : Graph} {u v : Nat}
    (h : v ∈ G.successors u) : G.hasEdge u v = true := by
  unfold Graph.successors at h
  obtain ⟨e, he, hev⟩ := List.mem_map.mp h
  have heu := List.of_mem_filter he
  simp only [decide_eq_true_eq] at heu
  unfold Graph.hasEdge
  refine List.any_eq_true.mpr ⟨e, List.mem_of_mem_filter he, ?_⟩
  simp only [decide_eq_true_eq]
  cases e with
  | mk uv dat =>
    cases uv with
    | mk a b =>
      simp only at heu hev
      rw [heu, hev]

/-- Appending one more edge to a nonempty walk. -/
theorem walk_append (G : Graph) :
    ∀ (w : List Nat), w ≠ [] → ∀ v : Nat, isWalkB G w = true →
      G.hasEdge (w.getLastD 0) v = true →
      isWalkB G (w ++ [v]) = true ∧
      pathCost G (w ++ [v]) = pathCost G w + G.travelTime (w.getLastD 0) v ∧
      (w ++ [v]).getLastD 0 = v ∧ (w ++ [v]).headD 0 = w.headD 0 := by
  intro w
  induction w with
  | nil => intro h; exact absurd rfl h
  | cons x xs ih =>
    intro _ v hW hE
    cases xs with
    | nil =>
      refine ⟨?_, ?_, ?_, ?_⟩
      · show isWalkB G [x, v] = true
        simp only [isWalkB, Bool.and_eq_true]
        exact ⟨by simpa using hE, trivial⟩
      · show pathCost G [x, v] = pathCost G [x] + G.travelTime x v
        simp only [pathCost]
        ring
      · rfl
      · rfl
    | cons y ys =>
      simp only [isWalkB, Bool.and_eq_true] at hW
      have hlast_eq : (x :: y :: ys).getLastD 0 = (y :: ys).getLastD 0 := by
        rw [List.getLastD_cons]
        exact @getLastD_irrel (y :: ys) (by simp) x 0
      rw [hlast_eq] at hE
      obtain ⟨ihW, ihC, ihL, _⟩ := ih (by simp) v hW.2 hE
      refine ⟨?_, ?_, ?_, rfl⟩
      · simp only [List.cons_append] at ihW ⊢
        simp only [isWalkB, Bool.and_eq_true]
        exact ⟨hW.1, ihW⟩
      · simp only [List.cons_append] at ihC ⊢
        simp only [pathCost]
        rw [ihC, hlast_eq]
        ring
      · simp only [List.cons_append] at ihL ⊢
        rw [List.getLastD_cons]
        rw [@getLastD_irrel (y :: (ys ++ [v])) (by simp) x 0]
        exact ihL

/-- Properties of the reconstructed A* path: it starts at `start`
(the only node without a parent reachable along `came_from`), keeps the
accumulator's last node, and every consecutive pair is a graph edge. -/
theorem astarReconstruct_props (G : Graph) (cf : List (Nat × Nat))
    (start : Nat)
    (hparent : ∀ q ∈ cf, q.2 = start ∨ ∃ q2 ∈ cf, q2.1 = q.2)
    (hedge : ∀ q ∈ cf, G.hasEdge q.2 q.1 = true) :
    ∀ (fuel current : Nat) (acc res : List Nat),
      acc.head? = some current → isWalkB G acc = true →
      (current = start ∨ ∃ q ∈ cf, q.1 = current) →
      astarReconstruct cf fuel current acc = some res →
      res.headD 0 = start ∧ res.getLastD 0 = acc.getLastD 0 ∧
      isWalkB G res = true ∧ res ≠ [] := by
  intro fuel
  induction fuel with
  | zero =>
    intro current acc res _ _ _ h
    have heq : astarReconstruct cf 0 current acc = none := rfl
    rw [heq] at h
    simp at h
  | succ fuel ih =>
    intro current acc res hhead hwalk hcur h
    simp only [astarReconstruct] at h
    cases hf : cf.find? (fun p => decide (p.1 = current)) with
    | none =>
      rw [hf] at h
      simp only [Option.some.injEq] at h
      subst h
      have hstart : current = start := by
        rcases hcur with h1 | ⟨q, hq, hq1⟩
        · exact h1
        · exfalso
          have : (cf.find? (fun p => decide (p.1 = current))).isSome = true :=
            List.find?_isSome.mpr ⟨q, hq, by simpa using hq1⟩
          rw [hf] at this
          simp at this
      refine ⟨?_, rfl, hwalk, ?_⟩
      · cases acc with
        | nil => simp at hhead
        | cons a as =>
          simp only [List.head?_cons, Option.some.injEq] at hhead
          rw [← hhead] at hstart
          simpa using hstart
      · intro hcontra
        rw [hcontra] at hhead
        simp at hhead
    | some q =>
      rw [hf] at h
      dsimp only at h
      have hq := List.mem_of_find?_eq_some hf
      have hq1 : q.1 = current := by simpa using List.find?_some hf
      have hne : acc ≠ [] := by
        intro hcontra; rw [hcontra] at hhead; simp at hhead
      have hwalk2 : isWalkB G (q.2 :: acc) = true := by
        cases acc with
        | nil => exact absurd rfl hne
        | cons a as =>
          simp only [List.head?_cons, Option.some.injEq] at hhead
          simp only [isWalkB, Bool.and_eq_true]
          refine ⟨?_, hwalk⟩
          rw [hhead, ← hq1]
          exact hedge q hq
      have hlast2 : (q.2 :: acc).getLastD 0 = acc.getLastD 0 := by
        rw [List.getLastD_cons]
        exact @getLastD_irrel acc hne q.2 0
      have := ih q.2 (q.2 :: acc) res rfl hwalk2 (hparent q hq) h
      rw [hlast2] at this
      exact this

/-- The invariant of the `astar_shortest_path` main loop. -/
def AstarInv (G : Graph) (start : Nat) (open_ : List (ℚ × Nat))
    (cf : List (Nat × Nat)) (g : List (Nat × ℚ)) : Prop :=
  (∀ e ∈ open_, e.2 = start ∨ ∃ q ∈ cf, q.1 = e.2) ∧
  (∀ q ∈ cf, q.2 = start ∨ ∃ q2 ∈ cf, q2.1 = q.2) ∧
  (∀ q ∈ cf, G.hasEdge q.2 q.1 = true) ∧
  (∀ q ∈ g, IsWalkCost G start q.1 q.2) ∧
  (∀ e ∈ open_, ∃ q ∈ g, q.1 = e.2)

/-- One relaxation step preserves the invariant (and the fact that the
expanded node stays discovered). -/
theorem astarRelax_inv {G : Graph} {hf : Nat → Nat → ℚ}
    {goal start current : Nat} {gcur : ℚ}
    (hwalk : IsWalkCost G start current gcur) :
    ∀ (acc : List (ℚ × Nat) × List (Nat × Nat) × List (Nat × ℚ)) (nbr : Nat),
      nbr ∈ G.successors current →
      AstarInv G start acc.1 acc.2.1 acc.2.2 →
      (current = start ∨ ∃ q ∈ acc.2.1, q.1 = current) →
      AstarInv G start (astarRelax G hf goal current gcur acc nbr).1
        (astarRelax G hf goal current gcur acc nbr).2.1
        (astarRelax G hf goal current gcur acc nbr).2.2 ∧
      (current = start ∨
        ∃ q ∈ (astarRelax G hf goal current gcur acc nbr).2.1, q.1 = current) := by
  intro acc nbr hnbr hinv hcur
  obtain ⟨inv1, inv2, inv3, inv4, inv5⟩ := hinv
  unfold astarRelax
  dsimp only
  split
  case isFalse _ => exact ⟨⟨inv1, inv2, inv3, inv4, inv5⟩, hcur⟩
  case isTrue _ =>
    refine ⟨⟨?_, ?_, ?_, ?_, ?_⟩, ?_⟩
    · intro e he
      rcases List.mem_append.mp he with h2 | h2
      · rcases inv1 e h2 with h3 | h3
        · left; exact h3
        · right; exact dictSet_key_mono h3
      · simp only [List.mem_singleton] at h2
        subst h2
        right
        exact dictSet_key_self acc.2.1 nbr current
    · intro q hq
      rcases dictSet_mem' q hq with h2 | h2
      · subst h2
        rcases hcur with h3 | h3
        · left; exact h3
        · right; exact dictSet_key_mono h3
      · rcases inv2 q h2 with h3 | h3
        · left; exact h3
        · right; exact dictSet_key_mono h3
    · intro q hq
      rcases dictSet_mem' q hq with h2 | h2
      · subst h2
        exact mem_successors_hasEdge hnbr
      · exact inv3 q h2
    · intro q hq
      rcases dictSet_mem' q hq with h2 | h2
      · subst h2
        obtain ⟨w, hwne, hwW, hwH, hwL, hwC⟩ := hwalk
        obtain ⟨haW, haC, haL, haH⟩ := walk_append G w hwne nbr hwW
          (by rw [hwL]; exact mem_successors_hasEdge hnbr)
        refine ⟨w ++ [nbr], by simp, haW, ?_, haL, ?_⟩
        · rw [haH]; exact hwH
        · rw [haC, hwC, hwL]
      · exact inv4 q h2
    · intro e he
      rcases List.mem_append.mp he with h2 | h2
      · exact dictSet_key_mono (inv5 e h2)
      · simp only [List.mem_singleton] at h2
        subst h2
        exact dictSet_key_self acc.2.2 nbr _
    · rcases hcur with h3 | h3
      · left; exact h3
      · right; exact dictSet_key_mono h3

theorem astarRelaxFold_inv {G : Graph} {hf : Nat → Nat → ℚ}
    {goal start current : Nat} {gcur : ℚ}
    (hwalk : IsWalkCost G start current gcur) :
    ∀ (l : List Nat), (∀ x ∈ l, x ∈ G.successors current) →
      ∀ (acc : List (ℚ × Nat) × List (Nat × Nat) × List (Nat × ℚ)),
        AstarInv G start acc.1 acc.2.1 acc.2.2 →
        (current = start ∨ ∃ q ∈ acc.2.1, q.1 = current) →
        AstarInv G start (l.foldl (astarRelax G hf goal current gcur) acc).1
          (l.foldl (astarRelax G hf goal current gcur) acc).2.1
          (l.foldl (astarRelax G hf goal current gcur) acc).2.2 := by
  intro l
  induction l with
  | nil => intro _ acc hinv _; exact hinv
  | cons x xs ih =>
    intro hl acc hinv hcur
    simp only [List.foldl_cons]
    obtain ⟨hinv', hcur'⟩ := astarRelax_inv hwalk acc x
      (hl x (List.mem_cons_self x xs)) hinv hcur
    exact ih (fun y hy => hl y (List.mem_cons_of_mem x hy)) _ hinv' hcur'

/-- Main-loop lemma for `astar_shortest_path`: any returned result is
either the failure pair `([], ∞)` or a genuine directed start-goal path
whose reported cost is the total travel time of some start-goal walk. -/
theorem astarLoop_main (G : Graph) (hf : Nat → Nat → ℚ) (goal start : Nat) :
    ∀ (fuel : Nat) (open_ : List (ℚ × Nat)) (cf : List (Nat × Nat))
      (g : List (Nat × ℚ)) (p : List Nat) (c : WithTop ℚ),
      AstarInv G start open_ cf g →
      astarLoop G hf goal fuel open_ cf g = some (p, c) →
      (p = [] ∧ c = ⊤) ∨
      (p ≠ [] ∧ p.headD 0 = start ∧ p.getLastD 0 = goal ∧
        isWalkB G p = true ∧ ∃ x : ℚ, c = (x : WithTop ℚ) ∧
        IsWalkCost G start goal x) := by
  intro fuel
  induction fuel with
  | zero =>
    intro open_ cf g p c _ h
    have heq : astarLoop G hf goal 0 open_ cf g = none := rfl
    rw [heq] at h
    simp at h
  | succ fuel ih =>
    intro open_ cf g p c hinv h
    simp only [astarLoop] at h
    cases hpop : popMinBy astarLt open_ with
    | none =>
      rw [hpop] at h
      simp only [Option.some.injEq, Prod.mk.injEq] at h
      left
      exact ⟨h.1.symm, h.2.symm⟩
    | some pr =>
      obtain ⟨⟨f, current⟩, rest⟩ := pr
      rw [hpop] at h
      dsimp only at h
      have hmem := popMinBy_mem hpop
      obtain ⟨inv1, inv2, inv3, inv4, inv5⟩ := hinv
      have hgsome : (g.find? (fun q => decide (q.1 = current))).isSome = true := by
        obtain ⟨q, hq, hq1⟩ := inv5 _ hmem
        exact List.find?_isSome.mpr ⟨q, hq, by simpa using hq1⟩
      by_cases hgoal : current = goal
      · rw [if_pos hgoal] at h
        cases hrec : astarReconstruct cf (fuel + 1) current [current] with
        | none => rw [hrec] at h; simp at h
        | some path =>
          rw [hrec] at h
          dsimp only at h
          cases hg : g.find? (fun q => decide (q.1 = current)) with
          | none => rw [hg] at hgsome; simp at hgsome
          | some q =>
            rw [hg] at h
            simp only [Option.some.injEq, Prod.mk.injEq] at h
            obtain ⟨hp, hc⟩ := h
            right
            have hprops := astarReconstruct_props G cf start inv2 inv3
              (fuel + 1) current [current] path rfl (by rfl)
              (inv1 _ hmem) hrec
            obtain ⟨hh, hl, hw, hne⟩ := hprops
            have hq1 : q.1 = current := by simpa using List.find?_some hg
            have hqw := inv4 q (List.mem_of_find?_eq_some hg)
            rw [hq1] at hqw
            subst hp
            refine ⟨hne, hh, ?_, hw, q.2, hc.symm, ?_⟩
            · rw [hl]
              show ([current].getLastD 0) = goal
              simpa using hgoal
            · rw [← hgoal]
              exact hqw
      · rw [if_neg hgoal] at h
        cases hg : g.find? (fun q => decide (q.1 = current)) with
        | none => rw [hg] at hgsome; simp at hgsome
        | some q =>
          rw [hg] at h
          dsimp only at h
          have hq1 : q.1 = current := by simpa using List.find?_some hg
          have hqw := inv4 q (List.mem_of_find?_eq_some hg)
          rw [hq1] at hqw
          refine ih _ _ _ p c ?_ h
          have hrest : AstarInv G start rest cf g :=
            ⟨fun e he => inv1 e (popMinBy_rest_subset hpop e he), inv2, inv3,
              inv4, fun e he => inv5 e (popMinBy_rest_subset hpop e he)⟩
          exact astarRelaxFold_inv hqw (G.successors current) (fun x hx => hx)
            (rest, cf, g) hrest (inv1 _ hmem)

/-! ### Claim C2: A* versus the brute-force shortest path -/

/-- C2 (amended): whenever `astar_shortest_path` returns, either it
failed with `([], ∞)`, or the returned path is a genuine directed path
from start to goal and the reported cost is the total travel time of
some start-to-goal walk in the graph.  The cost need NOT equal the
brute-force shortest-path cost even with strictly positive edge costs,
because the haversine-time heuristic is not admissible for the
synthetic travel times — see the counterexample. -/
theorem astar_shortest_path_returns_walk (G : Graph) (hf : Nat → Nat → ℚ)
    (start goal fuel : Nat) (p : List Nat) (c : WithTop ℚ)
    (h : astarShortestPath G hf start goal fuel = some (p, c)) :
    (p = [] ∧ c = ⊤) ∨
    (p ≠ [] ∧ p.headD 0 = start ∧ p.getLastD 0 = goal ∧
      isWalkB G p = true ∧ ∃ x : ℚ, c = (x : WithTop ℚ) ∧
      IsWalkCost G start goal x) := by
  refine astarLoop_main G hf goal start fuel [(0, start)] [] [(start, 0)]
    p c ⟨?_, ?_, ?_, ?_, ?_⟩ h
  · intro e he
    simp only [List.mem_singleton] at he
    subst he
    left; rfl
  · intro q hq; simp at hq
  · intro q hq; simp at hq
  · intro q hq
    simp only [List.mem_singleton] at hq
    subst hq
    exact ⟨[start], by simp, rfl, rfl, rfl, rfl⟩
  · intro e he
    simp only [List.mem_singleton] at he
    subst he
    exact ⟨(start, 0), List.mem_singleton.mpr rfl, rfl⟩

/-- Counterexample graph for C2: nodes 0 and 2 share coordinates
`(0, 0)`; node 1 sits at `(0, 1/100)`, about 1.11 km from the goal.
Edges: `0→1` and `1→2` with travel_time 1, `0→2` with travel_time 10 —
all strictly positive. -/
def astarCexGraph : Graph :=
  ⟨[(0, 0, 0), (1, 0, 1/100), (2, 0, 0)],
   [((0, 1), ⟨1, 1113⟩), ((1, 2), ⟨1, 1113⟩), ((0, 2), ⟨10, 0⟩)]⟩

/-- The `time_heuristic` values realized by `astarCexGraph`'s node
coordinates: 0 for co-located pairs (haversine of a point with itself
is exactly 0) and ≈ 100.2 s for node 1 against goal 2 (1113 m at
40 km/h).  The A* run compares only `1 + h 1 2` against `10 + h 2 2`,
so every value of `h 1 2` above 9 produces the identical execution;
100 stands in for the float value. -/
def astarCexH : Nat → Nat → ℚ := fun u _v => if u = 1 then 100 else 0

/-- C2 counterexample: on a graph with strictly positive edge costs,
`astar_shortest_path` returns the direct path `[0, 2]` with cost 10,
while the exhaustive reference search finds the true shortest cost 2
(via `0 → 1 → 2`): the heuristic overestimates through node 1. -/
theorem astar_not_shortest_counterexample :
    (∀ e ∈ astarCexGraph.edges, 0 < e.2.travel_time) ∧
    astarShortestPath astarCexGraph astarCexH 0 2 5 =
      some ([0, 2], ((10 : ℚ) : WithTop ℚ)) ∧
    refShortest astarCexGraph 2 3 0 [] = some 2 ∧
    ((10 : ℚ) : WithTop ℚ) ≠ ((2 : ℚ) : WithTop ℚ) := by
  refine ⟨?_, by with_unfolding_all rfl, by with_unfolding_all rfl, ?_⟩
  · intro e he
    fin_cases he <;> norm_num
  · simp only [ne_eq, WithTop.coe_eq_coe]
    norm_num

/-- C2 witness: the amended theorem applied to a concrete successful
search on the two-node graph. -/
theorem astar_shortest_path_returns_walk_witness :
    (([0, 1] : List Nat) = [] ∧ (((1 : ℚ)) : WithTop ℚ) = ⊤) ∨
    (([0, 1] : List Nat) ≠ [] ∧ ([0, 1] : List Nat).headD 0 = 0 ∧
      ([0, 1] : List Nat).getLastD 0 = 1 ∧
      isWalkB exGraph2 [0, 1] = true ∧
      ∃ x : ℚ, ((1 : ℚ) : WithTop ℚ) = (x : WithTop ℚ) ∧
        IsWalkCost exGraph2 0 1 x) :=
  astar_shortest_path_returns_walk exGraph2 (fun _u _v => 0) 0 1 5 [0, 1]
    ((1 : ℚ) : WithTop ℚ) (by with_unfolding_all rfl)

/-! ### Claim C5: path endpoints of the three searches -/

/-- Invariant of every entry on the BFS frontier of `low_level_search`:
the carried reversed path starts (at its head) at the entry's node and
ends at the agent's start. -/
def LLSGood (start : Nat) (e : LLState) : Prop :=
  e.2.2.head? = some e.1 ∧ e.2.2.getLastD 0 = start

theorem llsExpand_good {ckey : Finset (Nat × Nat)} {t : Nat}
    {rpath : List Nat} {start node : Nat}
    (hhead : rpath.head? = some node) (hlast : rpath.getLastD 0 = start) :
    ∀ (acc : List LLState × List (Nat × Nat)),
      (∀ e ∈ acc.1, LLSGood start e) →
      ∀ next, ∀ e ∈ (llsExpand ckey t rpath acc next).1, LLSGood start e := by
  intro acc hacc next e he
  unfold llsExpand at he
  split at he
  · exact hacc e he
  · split at he
    · exact hacc e he
    · rcases List.mem_append.mp he with h2 | h2
      · exact hacc e h2
      · simp only [List.mem_singleton] at h2
        subst h2
        have hne : rpath ≠ [] := by
          intro hc; rw [hc] at hhead; simp at hhead
        refine ⟨rfl, ?_⟩
        show (next :: rpath).getLastD 0 = start
        rw [List.getLastD_cons, getLastD_irrel hne next 0]
        exact hlast

theorem llsFold_good {ckey : Finset (Nat × Nat)} {t : Nat}
    {rpath : List Nat} {start node : Nat}
    (hhead : rpath.head? = some node) (hlast : rpath.getLastD 0 = start) :
    ∀ (l : List Nat) (acc : List LLState × List (Nat × Nat)),
      (∀ e ∈ acc.1, LLSGood start e) →
      ∀ e ∈ (l.foldl (llsExpand ckey t rpath) acc).1, LLSGood start e := by
  intro l
  induction l with
  | nil => intro acc hacc; exact hacc
  | cons x xs ih =>
    intro acc hacc
    simp only [List.foldl_cons]
    exact ih _ (llsExpand_good hhead hlast acc hacc x)

theorem headD_reverse (l : List Nat) : l.reverse.headD 0 = l.getLastD 0 := by
  rw [List.headD_eq_head?, List.head?_reverse, List.getLastD_eq_getLast?]

theorem getLastD_reverse (l : List Nat) : l.reverse.getLastD 0 = l.headD 0 := by
  rw [List.getLastD_eq_getLast?, List.getLast?_reverse, List.headD_eq_head?]

theorem llsLoop_endpoints (G : Graph) (ckey : Finset (Nat × Nat))
    (goal max_t start : Nat) :
    ∀ (fuel : Nat) (frontier : List LLState) (visited : List (Nat × Nat))
      (p : List Nat),
      (∀ e ∈ frontier, LLSGood start e) →
      llsLoop G ckey goal max_t fuel frontier visited = some p →
      p = [] ∨ (p.headD 0 = start ∧ p.getLastD 0 = goal) := by
  intro fuel
  induction fuel with
  | zero =>
    intro frontier visited p _ h
    cases frontier <;> exact absurd h (by intro hc; cases hc)
  | succ fuel ih =>
    intro frontier visited p hq h
    cases frontier with
    | nil =>
      have heq : llsLoop G ckey goal max_t (fuel + 1) [] visited = some [] := rfl
      rw [heq] at h
      simp only [Option.some.injEq] at h
      left; rw [← h]
    | cons e rest =>
      obtain ⟨node, t, rpath⟩ := e
      simp only [llsLoop] at h
      have hgood := hq _ (List.mem_cons_self _ rest)
      obtain ⟨hhead, hlast⟩ := hgood
      by_cases ht : t > max_t
      · rw [if_pos ht] at h
        exact ih rest visited p (fun e he => hq e (List.mem_cons_of_mem _ he)) h
      · rw [if_neg ht] at h
        by_cases hgoal : node = goal
        · rw [if_pos hgoal] at h
          simp only [Option.some.injEq] at h
          right
          rw [← h]
          constructor
          · rw [headD_reverse]; exact hlast
          · rw [getLastD_reverse, List.headD_eq_head?, hhead]
            simpa using hgoal
        · rw [if_neg hgoal] at h
          refine ih _ _ p ?_ h
          exact llsFold_good hhead hlast (node :: G.successors node)
            (rest, visited) (fun e he => hq e (List.mem_cons_of_mem _ he))

/-- A well-formed cache: every cached non-empty path runs from the
start to the goal recorded in its own key.  (Keys are
`(name, start, goal, max_t, ckey)`; the program only ever caches
results of `low_level_search` itself, which have this shape.) -/
def CacheWF (cache : LLCache) : Prop :=
  ∀ e ∈ cache, e.2 ≠ [] → e.2.headD 0 = e.1.2.1 ∧ e.2.getLastD 0 = e.1.2.2.1

theorem lowLevelSearch_endpoints (cache : LLCache) (G : Graph)
    (agent : Agent) (constraints : List Constraint) (max_t fuel : Nat)
    (p : List Nat) (cache' : LLCache) (hwf : CacheWF cache)
    (h : lowLevelSearch cache G agent constraints max_t fuel =
      some (p, cache')) (hne : p ≠ []) :
    p.headD 0 = agent.start ∧ p.getLastD 0 = agent.goal := by
  simp only [lowLevelSearch] at h
  cases hfind : cache.find? (fun q => decide (q.1 = (agent.name, agent.start,
      agent.goal, max_t, constraintsKeyForAgent agent constraints))) with
  | some q =>
    rw [hfind] at h
    simp only [Option.some.injEq, Prod.mk.injEq] at h
    have hq1 : q.1 = (agent.name, agent.start, agent.goal, max_t,
        constraintsKeyForAgent agent constraints) := by
      simpa using List.find?_some hfind
    have := hwf q (List.mem_of_find?_eq_some hfind) (by rw [h.1]; exact hne)
    rw [hq1] at this
    rw [← h.1]
    exact this
  | none =>
    rw [hfind] at h
    cases hloop : llsLoop G (constraintsKeyForAgent agent constraints)
        agent.goal max_t fuel [(agent.start, 0, [agent.start])]
        [(agent.start, 0)] with
    | none => rw [hloop] at h; simp at h
    | some path =>
      rw [hloop] at h
      simp only [Option.some.injEq, Prod.mk.injEq] at h
      have hinit : ∀ e ∈ [((agent.start, 0, [agent.start]) : LLState)],
          LLSGood agent.start e := by
        intro e he
        simp only [List.mem_singleton] at he
        subst he
        exact ⟨rfl, rfl⟩
      have hends := llsLoop_endpoints G _ agent.goal max_t agent.start fuel
        _ _ path hinit hloop
      rw [h.1] at hends
      rcases hends with h2 | h2
      · exact absurd h2 hne
      · exact h2

/-- C5: whenever `astar_shortest_path`, `low_level_search` (under a
well-formed cache) or `time_expanded_astar` returns a non-empty path,
its first element is the searching agent's start node and its last
element the goal node; on failure each returns the empty path, A*
additionally reporting infinite cost. -/
theorem search_results_start_goal :
    (∀ (G : Graph) (hf : Nat → Nat → ℚ) (start goal fuel : Nat)
        (p : List Nat) (c : WithTop ℚ),
      astarShortestPath G hf start goal fuel = some (p, c) →
      (p ≠ [] → p.headD 0 = start ∧ p.getLastD 0 = goal) ∧
      (p = [] → c = ⊤)) ∧
    (∀ (cache : LLCache) (G : Graph) (agent : Agent)
        (constraints : List Constraint) (max_t fuel : Nat)
        (p : List Nat) (cache' : LLCache), CacheWF cache →
      lowLevelSearch cache G agent constraints max_t fuel =
        some (p, cache') →
      p ≠ [] → p.headD 0 = agent.start ∧ p.getLastD 0 = agent.goal) ∧
    (∀ (G : Graph) (agent : Agent) (occN : OccNodes) (occE : OccEdges)
        (max_t fuel : Nat) (p : List Nat),
      timeExpandedAstar G agent occN occE max_t fuel = some p →
      p ≠ [] → p.headD 0 = agent.start ∧ p.getLastD 0 = agent.goal) := by
  refine ⟨?_, ?_, ?_⟩
  · intro G hf start goal fuel p c h
    have hmain := astarLoop_main G hf goal start fuel [(0, start)] []
      [(start, 0)] p c ?_ h
    · rcases hmain with ⟨hp, hc⟩ | ⟨hp, hh, hl, _, _⟩
      · exact ⟨fun hne => absurd hp hne, fun _ => hc⟩
      · exact ⟨fun _ => ⟨hh, hl⟩, fun hc => absurd hc hp⟩
    · refine ⟨?_, ?_, ?_, ?_, ?_⟩
      · intro e he
        simp only [List.mem_singleton] at he
        subst he
        left; rfl
      · intro q hq; simp at hq
      · intro q hq; simp at hq
      · intro q hq
        simp only [List.mem_singleton] at hq
        subst hq
        exact ⟨[start], by simp, rfl, rfl, rfl, rfl⟩
      · intro e he
        simp only [List.mem_singleton] at he
        subst he
        exact ⟨(start, 0), List.mem_singleton.mpr rfl, rfl⟩
  · intro cache G agent constraints max_t fuel p cache' hwf h hne
    exact lowLevelSearch_endpoints cache G agent constraints max_t fuel
      p cache' hwf h hne
  · intro G agent occN occE max_t fuel p h hne
    rcases timeExpandedAstar_safe G agent occN occE max_t fuel p h with
      hnil | ⟨rpath, t, hp, _, hhead, hlast, _⟩
    · exact absurd hnil hne
    · subst hp
      constructor
      · rw [headD_reverse]; exact hlast
      · rw [getLastD_reverse, List.headD_eq_head?, hhead]
        rfl

/-- C5 witness: concrete runs of the three searches on the two-node
graph, with endpoints produced by the claim theorem. -/
theorem search_results_start_goal_witness :
    (([0, 1] : List Nat).headD 0 = 0 ∧ ([0, 1] : List Nat).getLastD 0 = 1) ∧
    (([0, 1] : List Nat).headD 0 = 0 ∧ ([0, 1] : List Nat).getLastD 0 = 1) ∧
    (([0, 1] : List Nat).headD 0 = 0 ∧ ([0, 1] : List Nat).getLastD 0 = 1) := by
  refine ⟨?_, ?_, ?_⟩
  · exact (search_results_start_goal.1 exGraph2 (fun _u _v => 0) 0 1 5 [0, 1]
      ((1 : ℚ) : WithTop ℚ) (by with_unfolding_all rfl)).1 (by decide)
  · exact search_results_start_goal.2.1 [] exGraph2 ⟨"a", 0, 1⟩ [] 50 50
      [0, 1] [(("a", 0, 1, 50, (∅ : Finset (Nat × Nat))), [0, 1])]
      (by intro e he; cases he) (by rfl) (by decide)
  · exact search_results_start_goal.2.2 exGraph2 ⟨"a", 0, 1⟩ [] [] 50 50
      [0, 1] (by rfl) (by decide)

/-! ### Claim C8: prioritized planning fails iff some agent is stuck -/

/-- A reservation-respecting time-expanded path for an agent within the
horizon: nonempty, runs from the agent's start to its goal, takes at
most `max_t` steps, and every step (a wait or a move along a graph
edge) is unblocked by the reservation tables at its time. -/
def ValidPathB (G : Graph) (occN : OccNodes) (occE : OccEdges)
    (agent : Agent) (max_t : Nat) (p : List Nat) : Prop :=
  p ≠ [] ∧ p.headD 0 = agent.start ∧ p.getLastD 0 = agent.goal ∧
  p.length ≤ max_t + 1 ∧
  revOkB G occN occE p.reverse (p.length - 1) = true

/-- Soundness: a successful `time_expanded_astar` result is a valid
path. -/
theorem timeExpandedAstar_sound (G : Graph) (agent : Agent)
    (occN : OccNodes) (occE : OccEdges) (max_t fuel : Nat) (p : List Nat)
    (h : timeExpandedAstar G agent occN occE max_t fuel = some p)
    (hne : p ≠ []) : ValidPathB G occN occE agent max_t p := by
  rcases timeExpandedAstar_safe G agent occN occE max_t fuel p h with
    hnil | ⟨rpath, t, hp, htle, hhead, hlast, hrev⟩
  · exact absurd hnil hne
  · subst hp
    have hlen := (revOkB_forward G occN occE rpath t hrev).1
    refine ⟨hne, ?_, ?_, ?_, ?_⟩
    · rw [headD_reverse]; exact hlast
    · rw [getLastD_reverse, List.headD_eq_head?, hhead]; rfl
    · omega
    · rw [List.reverse_reverse]
      rw [show rpath.reverse.length - 1 = t by omega]
      exact hrev

/-- The state `s = (node, time)` has been discovered (has a `g_cost`
entry). -/
def Discovered (g : GCost) (s : Nat × Nat) : Prop :=
  ∃ q ∈ g, q.1 = s

/-- A fully-expanded state: past the horizon, or a non-goal state all
of whose unblocked candidate next states satisfy `W`. -/
def TEAExpandedP (G : Graph) (occN : OccNodes) (occE : OccEdges)
    (goal max_t : Nat) (s : Nat × Nat) (W : Nat × Nat → Prop) : Prop :=
  max_t < s.2 ∨ (s.1 ≠ goal ∧ ∀ next ∈ s.1 :: G.successors s.1,
    teaIsBlocked occN occE next s.1 (s.2 + 1) = false → W (next, s.2 + 1))

theorem teaExpandedP_mono {G : Graph} {occN : OccNodes} {occE : OccEdges}
    {goal max_t : Nat} {s : Nat × Nat} {W W' : Nat × Nat → Prop}
    (hWW : ∀ x, W x → W' x)
    (h : TEAExpandedP G occN occE goal max_t s W) :
    TEAExpandedP G occN occE goal max_t s W' := by
  rcases h with h | ⟨h1, h2⟩
  · left; exact h
  · right; exact ⟨h1, fun next hn hb => hWW _ (h2 next hn hb)⟩

/-- Case analysis of one `time_expanded_astar` relaxation (with the
popped entry's `g` equal to its time `t`, as every heap entry
satisfies). -/
theorem teaExpand_step (occN : OccNodes) (occE : OccEdges)
    (node t : Nat) (rpath : List Nat)
    (acc : List TEAEntry × GCost) (x : Nat) :
    (∀ q ∈ (teaExpand occN occE node t t rpath acc x).2,
      q = ((x, t + 1), t + 1) ∨ q ∈ acc.2) ∧
    (∀ s, Discovered acc.2 s →
      Discovered (teaExpand occN occE node t t rpath acc x).2 s) ∧
    (∀ e ∈ acc.1, e ∈ (teaExpand occN occE node t t rpath acc x).1) ∧
    (teaIsBlocked occN occE x node (t + 1) = false →
      Discovered (teaExpand occN occE node t t rpath acc x).2 (x, t + 1)) ∧
    (∀ e ∈ (teaExpand occN occE node t t rpath acc x).1,
      e ∈ acc.1 ∨
      (e = (t + 1 + admissibleH x, t + 1, x, t + 1, x :: rpath) ∧
        Discovered (teaExpand occN occE node t t rpath acc x).2
          (x, t + 1))) := by
  unfold teaExpand
  dsimp only
  split
  case isTrue hb =>
    refine ⟨fun q hq => Or.inr hq, fun s hs => hs, fun e he => he, ?_,
      fun e he => Or.inl he⟩
    intro hcontra
    rw [hb] at hcontra
    cases hcontra
  case isFalse hb =>
    split
    case isTrue hbetter =>
      refine ⟨?_, ?_, ?_, ?_, ?_⟩
      · intro q hq
        exact dictSet_mem' q hq
      · intro s hs
        exact dictSet_key_mono hs
      · intro e he
        exact List.mem_append.mpr (Or.inl he)
      · intro _
        exact dictSet_key_self acc.2 (x, t + 1) (t + 1)
      · intro e he
        rcases List.mem_append.mp he with h2 | h2
        · exact Or.inl h2
        · right
          refine ⟨by simpa using h2, ?_⟩
          exact dictSet_key_self acc.2 (x, t + 1) (t + 1)
    case isFalse hbetter =>
      refine ⟨fun q hq => Or.inr hq, fun s hs => hs, fun e he => he, ?_,
        fun e he => Or.inl he⟩
      intro _
      cases hget : gcostGet acc.2 (x, t + 1) with
      | none => rw [hget] at hbetter; simp at hbetter
      | some v =>
        unfold gcostGet at hget
        cases hfind : acc.2.find? (fun p => decide (p.1 = (x, t + 1))) with
        | none => rw [hfind] at hget; simp at hget
        | some q =>
          refine ⟨q, List.mem_of_find?_eq_some hfind, ?_⟩
          simpa using List.find?_some hfind

/-- Combined facts about a full expansion fold of
`time_expanded_astar`. -/
theorem teaExpandFold_props (occN : OccNodes) (occE : OccEdges)
    (node t : Nat) (rpath : List Nat) :
    ∀ (l : List Nat) (acc : List TEAEntry × GCost),
      (∀ q ∈ acc.2, q.2 = q.1.2) →
      (∀ q ∈ (l.foldl (teaExpand occN occE node t t rpath) acc).2,
        q.2 = q.1.2) ∧
      (∀ s, Discovered acc.2 s →
        Discovered (l.foldl (teaExpand occN occE node t t rpath) acc).2 s) ∧
      (∀ e ∈ acc.1, e ∈ (l.foldl (teaExpand occN occE node t t rpath) acc).1) ∧
      (∀ next ∈ l, teaIsBlocked occN occE next node (t + 1) = false →
        Discovered (l.foldl (teaExpand occN occE node t t rpath) acc).2
          (next, t + 1)) ∧
      (∀ e ∈ (l.foldl (teaExpand occN occE node t t rpath) acc).1,
        e ∈ acc.1 ∨
        (e.2.1 = e.2.2.2.1 ∧ e.2.2.2.2.head? = some e.2.2.1 ∧
          Discovered (l.foldl (teaExpand occN occE node t t rpath) acc).2
            (e.2.2.1, e.2.2.2.1))) := by
  intro l
  induction l with
  | nil =>
    intro acc hval
    exact ⟨hval, fun s hs => hs, fun e he => he, by simp,
      fun e he => Or.inl he⟩
  | cons x xs ih =>
    intro acc hval
    simp only [List.foldl_cons]
    obtain ⟨s1, s2, s3, s4, s5⟩ := teaExpand_step occN occE node t rpath acc x
    have hval1 : ∀ q ∈ (teaExpand occN occE node t t rpath acc x).2,
        q.2 = q.1.2 := by
      intro q hq
      rcases s1 q hq with h2 | h2
      · rw [h2]
      · exact hval q h2
    obtain ⟨i1, i2, i3, i4, i5⟩ := ih (teaExpand occN occE node t t rpath acc x) hval1
    refine ⟨i1, ?_, ?_, ?_, ?_⟩
    · intro s hs
      exact i2 s (s2 s hs)
    · intro e he
      exact i3 e (s3 e he)
    · intro next hn hb
      rcases List.mem_cons.mp hn with h2 | h2
      · subst h2
        exact i2 _ (s4 hb)
      · exact i4 next h2 hb
    · intro e he
      rcases i5 e he with h2 | h2
      · rcases s5 e h2 with h3 | ⟨h3, h4⟩
        · exact Or.inl h3
        · right
          subst h3
          exact ⟨rfl, rfl, i2 _ h4⟩
      · exact Or.inr h2

theorem teaExpandFold_queue_mono (occN : OccNodes) (occE : OccEdges)
    (node t g : Nat) (rpath : List Nat) :
    ∀ (l : List Nat) (acc : List TEAEntry × GCost), ∀ e ∈ acc.1,
      e ∈ (l.foldl (teaExpand occN occE node t g rpath) acc).1 := by
  intro l
  induction l with
  | nil => intro acc e he; exact he
  | cons x xs ih =>
    intro acc e he
    simp only [List.foldl_cons]
    refine ih _ e ?_
    unfold teaExpand
    dsimp only
    split
    · exact he
    · split
      · exact List.mem_append.mpr (Or.inl he)
      · exact he

/-- Any state key added by an expansion fold has a matching entry on
the resulting frontier. -/
theorem teaExpandFold_newkeys (occN : OccNodes) (occE : OccEdges)
    (node t : Nat) (rpath : List Nat) :
    ∀ (l : List Nat) (acc : List TEAEntry × GCost) (s : Nat × Nat),
      Discovered (l.foldl (teaExpand occN occE node t t rpath) acc).2 s →
      Discovered acc.2 s ∨
      ∃ e ∈ (l.foldl (teaExpand occN occE node t t rpath) acc).1,
        (e.2.2.1, e.2.2.2.1) = s := by
  intro l
  induction l with
  | nil => intro acc s hs; exact Or.inl hs
  | cons x xs ih =>
    intro acc s hs
    simp only [List.foldl_cons] at hs ⊢
    rcases ih _ s hs with h2 | h2
    · -- s discovered after the single step: either old or the step's key
      have hstep : Discovered acc.2 s ∨
          ∃ e ∈ (teaExpand occN occE node t t rpath acc x).1,
            (e.2.2.1, e.2.2.2.1) = s := by
        obtain ⟨q, hq, hq1⟩ := h2
        revert hq
        unfold teaExpand
        dsimp only
        split
        · intro hq; exact Or.inl ⟨q, hq, hq1⟩
        · split
          · intro hq
            rcases dictSet_mem' q hq with h3 | h3
            · right
              refine ⟨(t + 1 + admissibleH x, t + 1, x, t + 1, x :: rpath),
                List.mem_append.mpr (Or.inr (List.mem_singleton.mpr rfl)), ?_⟩
              rw [← hq1, h3]
            · exact Or.inl ⟨q, h3, hq1⟩
          · intro hq; exact Or.inl ⟨q, hq, hq1⟩
      rcases hstep with h3 | ⟨e, he, hes⟩
      · exact Or.inl h3
      · right
        exact ⟨e, teaExpandFold_queue_mono occN occE node t t rpath xs _ e he, hes⟩
    · exact Or.inr h2

/-- If the `time_expanded_astar` loop fails (empty path), the set of
discovered states is closed under unblocked expansion and contains no
in-horizon goal state. -/
theorem teaLoop_fail_closure (G : Graph) (goal max_t : Nat)
    (occN : OccNodes) (occE : OccEdges) :
    ∀ (fuel : Nat) (queue : List TEAEntry) (gcost : GCost),
      (∀ e ∈ queue, e.2.1 = e.2.2.2.1) →
      (∀ e ∈ queue, e.2.2.2.2.head? = some e.2.2.1) →
      (∀ q ∈ gcost, q.2 = q.1.2) →
      (∀ e ∈ queue, Discovered gcost (e.2.2.1, e.2.2.2.1)) →
      (∀ s, Discovered gcost s →
        (∃ e ∈ queue, (e.2.2.1, e.2.2.2.1) = s) ∨
        TEAExpandedP G occN occE goal max_t s (Discovered gcost)) →
      teaLoop G goal max_t occN occE fuel queue gcost = some [] →
      ∃ W : Nat × Nat → Prop, (∀ s, Discovered gcost s → W s) ∧
        ∀ s, W s → TEAExpandedP G occN occE goal max_t s W := by
  intro fuel
  induction fuel with
  | zero =>
    intro queue gcost _ _ _ _ _ h
    have heq : teaLoop G goal max_t occN occE 0 queue gcost = none := rfl
    rw [heq] at h
    simp at h
  | succ fuel ih =>
    intro queue gcost hq1 hq2 hg hq3 hclos h
    simp only [teaLoop] at h
    cases hpop : popMinBy teaLt queue with
    | none =>
      refine ⟨Discovered gcost, fun s hs => hs, ?_⟩
      intro s hs
      rcases hclos s hs with ⟨e, he, _⟩ | hexp
      · rw [popMinBy_eq_none.mp hpop] at he
        cases he
      · exact hexp
    | some pr =>
      obtain ⟨⟨f, g, node, t, rpath⟩, rest⟩ := pr
      rw [hpop] at h
      dsimp only at h
      have hmem := popMinBy_mem hpop
      have hgt : g = t := hq1 _ hmem
      have hhead : rpath.head? = some node := hq2 _ hmem
      have hsub := popMinBy_rest_subset hpop
      by_cases ht : t > max_t
      · rw [if_pos ht] at h
        refine ih rest gcost (fun e he => hq1 e (hsub e he))
          (fun e he => hq2 e (hsub e he)) hg
          (fun e he => hq3 e (hsub e he)) ?_ h
        intro s hs
        rcases hclos s hs with ⟨e, he, hes⟩ | hexp
        · have := (popMinBy_perm hpop).mem_iff.mpr he
          rcases List.mem_cons.mp this with h2 | h2
          · right
            left
            rw [← hes, h2]
            exact ht
          · exact Or.inl ⟨e, h2, hes⟩
        · exact Or.inr hexp
      · rw [if_neg ht] at h
        by_cases hgoal : node = goal
        · rw [if_pos hgoal] at h
          simp only [Option.some.injEq] at h
          rw [List.reverse_eq_nil_iff] at h
          rw [h] at hhead
          cases hhead
        · rw [if_neg hgoal] at h
          rw [hgt] at h
          obtain ⟨f1, f2, f3, f4, f5⟩ := teaExpandFold_props occN occE node t
            rpath (node :: G.successors node) (rest, gcost) hg
          have hnew := ih _ _ ?_ ?_ f1 ?_ ?_ h
          · obtain ⟨W, hsubW, hcl⟩ := hnew
            exact ⟨W, fun s hs => hsubW s (f2 s hs), hcl⟩
          · intro e he
            rcases f5 e he with h2 | ⟨h2, _, _⟩
            · exact hq1 e (hsub e h2)
            · exact h2
          · intro e he
            rcases f5 e he with h2 | ⟨_, h2, _⟩
            · exact hq2 e (hsub e h2)
            · exact h2
          · intro e he
            rcases f5 e he with h2 | ⟨_, _, h2⟩
            · exact f2 _ (hq3 e (hsub e h2))
            · exact h2
          · intro s hs
            rcases teaExpandFold_newkeys occN occE node t rpath
              (node :: G.successors node) (rest, gcost) s hs with h2 | h2
            · rcases hclos s h2 with ⟨e, he, hes⟩ | hexp
              · have := (popMinBy_perm hpop).mem_iff.mpr he
                rcases List.mem_cons.mp this with h3 | h3
                · have hs_eq : s = (node, t) := by rw [← hes, h3]
                  subst hs_eq
                  refine Or.inr ?_
                  right
                  exact ⟨hgoal, fun next hn hb => f4 next hn hb⟩
                · exact Or.inl ⟨e,
                    teaExpandFold_queue_mono occN occE node t t rpath _ _ e h3,
                    hes⟩
              · exact Or.inr (teaExpandedP_mono f2 hexp)
            · exact Or.inl h2

/-- Completeness: when `time_expanded_astar` comes back empty, no
reservation-respecting path within the horizon exists at all. -/
theorem timeExpandedAstar_complete (G : Graph) (agent : Agent)
    (occN : OccNodes) (occE : OccEdges) (max_t fuel : Nat)
    (h : timeExpandedAstar G agent occN occE max_t fuel = some []) :
    ¬ ∃ p, ValidPathB G occN occE agent max_t p := by
  rintro ⟨p, hne, hhead, hlast, hlen, hrev⟩
  have hlen1 : 1 ≤ p.length := List.length_pos.mpr hne
  obtain ⟨W, hsubW, hcl⟩ := teaLoop_fail_closure G agent.goal max_t occN occE
    fuel [(0, 0, agent.start, 0, [agent.start])] [((agent.start, 0), 0)]
    (by intro e he; simp only [List.mem_singleton] at he; subst he; rfl)
    (by intro e he; simp only [List.mem_singleton] at he; subst he; rfl)
    (by intro q hq; simp only [List.mem_singleton] at hq; subst hq; rfl)
    (by intro e he; simp only [List.mem_singleton] at he; subst he;
        exact ⟨((agent.start, 0), 0), List.mem_singleton.mpr rfl, rfl⟩)
    (by intro s hs
        obtain ⟨q, hq, hq1⟩ := hs
        simp only [List.mem_singleton] at hq
        subst hq
        exact Or.inl ⟨(0, 0, agent.start, 0, [agent.start]),
          List.mem_singleton.mpr rfl, hq1⟩)
    h
  have hfwd := revOkB_forward G occN occE p.reverse (p.length - 1) hrev
  rw [List.reverse_reverse] at hfwd
  obtain ⟨_, hall⟩ := hfwd
  have hW : ∀ i, i < p.length → W (p.getD i 0, i) := by
    intro i
    induction i with
    | zero =>
      intro _
      have h0 : p.getD 0 0 = agent.start := by
        cases p with
        | nil => exact absurd rfl hne
        | cons a as => simpa using hhead
      rw [h0]
      exact hsubW (agent.start, 0)
        ⟨((agent.start, 0), 0), List.mem_singleton.mpr rfl, rfl⟩
    | succ i ihi =>
      intro hi1
      have hiW := ihi (by omega)
      rcases hcl _ hiW with hout | ⟨_, hnext⟩
      · simp only at hout
        omega
      · obtain ⟨hblk, hstep⟩ := hall (i + 1) (by omega) hi1
        refine hnext (p.getD (i + 1) 0) ?_ ?_
        · simp only [Nat.add_sub_cancel] at hstep
          rcases hstep with h2 | h2
          · rw [h2]
            exact List.mem_cons_self _ _
          · exact List.mem_cons_of_mem _ h2
        · simp only [Nat.add_sub_cancel] at hblk
          exact hblk
  have hlastW := hW (p.length - 1) (by omega)
  rcases hcl _ hlastW with hout | ⟨hng, _⟩
  · simp only at hout
    omega
  · refine hng ?_
    show p.getD (p.length - 1) 0 = agent.goal
    rw [getD_last p hne]
    exact hlast

/-- The per-agent loop fails exactly when some position `i` of the
priority order admits no valid path under the reservations committed by
the positions before it (whose committed paths are what the same loop
run on the length-`i` prefix returns). -/
theorem planLoop_fail_iff (G : Graph) (abn : List (String × Agent))
    (max_t fuel : Nat) :
    ∀ (order : List String) (occN : OccNodes) (occE : OccEdges)
      (paths : PathDict) (r : Except String PathDict),
      order.Nodup →
      (∀ n ∈ order, (abn.find? (fun q => decide (q.1 = n))).isSome = true) →
      prioritizedPlanLoop G abn max_t fuel order occN occE paths = some r →
      ((∃ e, r = .error e) ↔
        ∃ i, ∃ hi : i < order.length, ∃ d : PathDict, ∃ ag : String × Agent,
          prioritizedPlanLoop G abn max_t fuel (order.take i) occN occE
            paths = some (.ok d) ∧
          abn.find? (fun q => decide (q.1 = order.get ⟨i, hi⟩)) = some ag ∧
          ¬ ∃ p, ValidPathB G
            (reserveAllFrom (occN, occE)
              ((order.take i).map fun n => dictGet d n [])).1
            (reserveAllFrom (occN, occE)
              ((order.take i).map fun n => dictGet d n [])).2
            ag.2 max_t p) := by
  intro order
  induction order with
  | nil =>
    intro occN occE paths r _ _ h
    have heq : prioritizedPlanLoop G abn max_t fuel [] occN occE paths =
        some (.ok paths) := rfl
    rw [heq] at h
    simp only [Option.some.injEq] at h
    constructor
    · rintro ⟨e, he⟩
      rw [← h] at he
      cases he
    · rintro ⟨i, hi, _⟩
      simp at hi
  | cons name order' ih =>
    intro occN occE paths r hnodup hres h
    obtain ⟨hname, hnodup'⟩ := List.nodup_cons.mp hnodup
    have hressome := hres name (List.mem_cons_self name order')
    cases hfindname : abn.find? (fun q => decide (q.1 = name)) with
    | none => rw [hfindname] at hressome; simp at hressome
    | some pr =>
      simp only [prioritizedPlanLoop] at h
      rw [hfindname] at h
      dsimp only at h
      cases htea : timeExpandedAstar G pr.2 occN occE max_t fuel with
      | none => rw [htea] at h; simp at h
      | some path =>
        rw [htea] at h
        dsimp only at h
        by_cases hp : path = []
        · rw [if_pos hp] at h
          simp only [Option.some.injEq] at h
          subst h
          constructor
          · intro _
            refine ⟨0, by simp, paths, pr, rfl, hfindname, ?_⟩
            subst hp
            exact timeExpandedAstar_complete G pr.2 occN occE max_t fuel htea
          · intro _
            exact ⟨"No path for agent " ++ pr.2.name, rfl⟩
        · rw [if_neg hp] at h
          have hvalid := timeExpandedAstar_sound G pr.2 occN occE max_t fuel
            path htea hp
          have hpreeq : ∀ j,
              prioritizedPlanLoop G abn max_t fuel
                ((name :: order').take (j + 1)) occN occE paths =
              prioritizedPlanLoop G abn max_t fuel (order'.take j)
                (reservePath occN occE path).1 (reservePath occN occE path).2
                (dictSet paths name path) := by
            intro j
            rw [List.take_succ_cons]
            simp only [prioritizedPlanLoop]
            rw [hfindname]
            dsimp only
            rw [htea]
            dsimp only
            rw [if_neg hp]
          have hihiff := ih (reservePath occN occE path).1
            (reservePath occN occE path).2 (dictSet paths name path) r
            hnodup' (fun n hn => hres n (List.mem_cons_of_mem name hn)) h
          rw [hihiff]
          constructor
          · rintro ⟨j, hj, d, ag, hpre, hfind2, hnot⟩
            refine ⟨j + 1, by simpa using hj, d, ag, ?_, ?_, ?_⟩
            · rw [hpreeq j]
              exact hpre
            · rw [List.get_cons_succ]
              exact hfind2
            · have hdname : dictGet d name [] = path := by
                rw [planLoop_preserves G abn max_t fuel (order'.take j) _ _ _
                  d hpre name (fun hc => hname (List.take_subset j order' hc))]
                exact dictGet_dictSet_self paths name path []
              rw [List.take_succ_cons, List.map_cons, hdname]
              show ¬∃ p, ValidPathB G
                (reserveAllFrom (reservePath occN occE path)
                  ((order'.take j).map fun n => dictGet d n [])).1
                (reserveAllFrom (reservePath occN occE path)
                  ((order'.take j).map fun n => dictGet d n [])).2
                ag.2 max_t p
              exact hnot
          · rintro ⟨i, hi, d, ag, hpre, hfind2, hnot⟩
            cases i with
            | zero =>
              exfalso
              have heq0 : prioritizedPlanLoop G abn max_t fuel
                  ((name :: order').take 0) occN occE paths =
                  some (.ok paths) := rfl
              rw [heq0] at hpre
              simp only [Option.some.injEq, Except.ok.injEq] at hpre
              subst hpre
              have hag : ag = pr := by
                have : (name :: order').get ⟨0, hi⟩ = name := rfl
                rw [this] at hfind2
                rw [hfindname] at hfind2
                simpa using hfind2.symm
              subst hag
              exact hnot ⟨path, hvalid⟩
            | succ j =>
              have hj : j < order'.length := by simpa using hi
              refine ⟨j, hj, d, ag, ?_, ?_, ?_⟩
              · rw [hpreeq j] at hpre
                exact hpre
              · rw [List.get_cons_succ] at hfind2
                exact hfind2
              · have hdname : dictGet d name [] = path := by
                  rw [hpreeq j] at hpre
                  rw [planLoop_preserves G abn max_t fuel (order'.take j) _ _ _
                    d hpre name (fun hc => hname (List.take_subset j order' hc))]
                  exact dictGet_dictSet_self paths name path []
                rw [List.take_succ_cons, List.map_cons, hdname] at hnot
                exact hnot

/-- C8: `prioritized_plan` raises exactly when some agent, processed in
priority order, has no reservation-respecting path to its goal within
`max_t` steps under the reservations committed by the agents planned
before it (their commitments being precisely what the planner returns
on the corresponding prefix of the priority order); and an error result
carries no path mapping.  Validity of a path checks every step's
`(node, time)` and `(edge, time)` against the tables for times ≥ 1,
matching the code's candidate-next-state rule (§4.3). -/
theorem prioritized_plan_fails_iff (G : Graph) (agents : List Agent)
    (order : List String) (max_t fuel : Nat) (r : Except String PathDict)
    (hnodup : order.Nodup)
    (hresolve : ∀ n ∈ order,
      ((agents.foldl (fun d a => dictSet d a.name a) []).find?
        (fun q => decide (q.1 = n))).isSome = true)
    (h : prioritizedPlan G agents (some order) max_t fuel = some r) :
    ((∃ e, r = .error e) ↔
      ∃ i, ∃ hi : i < order.length, ∃ d : PathDict, ∃ ag : String × Agent,
        prioritizedPlan G agents (some (order.take i)) max_t fuel =
          some (.ok d) ∧
        (agents.foldl (fun acc a => dictSet acc a.name a) []).find?
          (fun q => decide (q.1 = order.get ⟨i, hi⟩)) = some ag ∧
        ¬ ∃ p, ValidPathB G
          (reserveAllFrom (([] : OccNodes), ([] : OccEdges))
            ((order.take i).map fun n => dictGet d n [])).1
          (reserveAllFrom (([] : OccNodes), ([] : OccEdges))
            ((order.take i).map fun n => dictGet d n [])).2
          ag.2 max_t p) ∧
    (∀ e, r = Except.error e → ∀ d : PathDict, r ≠ Except.ok d) := by
  constructor
  · have h' : prioritizedPlanLoop G
        (agents.foldl (fun acc a => dictSet acc a.name a) []) max_t fuel
        order [] [] [] = some r := h
    have hiff := planLoop_fail_iff G
      (agents.foldl (fun acc a => dictSet acc a.name a) []) max_t fuel
      order [] [] [] r hnodup hresolve h'
    exact hiff
  · intro e he d
    rw [he]
    intro hc
    cases hc

/-- C8 witness: on a two-node graph with no edges, the planner fails
for agent "a", and the claim theorem yields the stuck position. -/
theorem prioritized_plan_fails_iff_witness :
    ∃ i, ∃ hi : i < (["a"] : List String).length, ∃ d : PathDict,
      ∃ ag : String × Agent,
      prioritizedPlan ⟨[(0, 0, 0), (1, 0, 0)], []⟩ [⟨"a", 0, 1⟩]
        (some ((["a"] : List String).take i)) 5 50 = some (.ok d) ∧
      List.find? (fun q => decide (q.1 = (["a"] : List String).get ⟨i, hi⟩))
        (([⟨"a", 0, 1⟩] : List Agent).foldl
          (fun acc a => dictSet acc a.name a) []) = some ag ∧
      ¬ ∃ p, ValidPathB ⟨[(0, 0, 0), (1, 0, 0)], []⟩
        (reserveAllFrom (([] : OccNodes), ([] : OccEdges))
          (((["a"] : List String).take i).map fun n => dictGet d n [])).1
        (reserveAllFrom (([] : OccNodes), ([] : OccEdges))
          (((["a"] : List String).take i).map fun n => dictGet d n [])).2
        ag.2 5 p :=
  (prioritized_plan_fails_iff ⟨[(0, 0, 0), (1, 0, 0)], []⟩ [⟨"a", 0, 1⟩]
    ["a"] 5 50 (.error "No path for agent a") (by decide)
    (by intro n hn; fin_cases hn; rfl) (by rfl)).1.mp
    ⟨"No path for agent a", rfl⟩

/-! ### Route model (models.py) and materializer (route_planner.py)

`haversine_distance_m` is a transcendental function of the
coordinates; the algorithms use its values only through comparisons and
proportions, so the embedding takes the pairwise distance function as
an oracle parameter `distFn` (any Python float being a rational). -/

/-- `Vehicle` (models.py). -/
structure Vehicle where
  name : String
  lat : ℚ
  lon : ℚ
deriving DecidableEq, Inhabited

/-- `RouteSegment` (models.py). -/
structure RouteSegment where
  start_lat : ℚ
  start_lon : ℚ
  end_lat : ℚ
  end_lon : ℚ
  distance_m : ℚ
  duration_s : ℚ
  t_start : ℚ
  t_end : ℚ
deriving DecidableEq, Inhabited

/-- `Route` (models.py). -/
structure Route where
  vehicle : Vehicle
  segments : List RouteSegment
  total_distance_m : ℚ
  total_duration_s : ℚ
deriving DecidableEq, Inhabited

/-- The in-segment branch of `Route.positions_at`: linear interpolation
within the segment, or the segment's end point when its duration is 0. -/
def segInterp (seg : RouteSegment) (t : ℚ) : ℚ × ℚ :=
  if seg.duration_s = 0 then (seg.end_lat, seg.end_lon)
  else
    (seg.start_lat + (t - seg.t_start) / seg.duration_s *
        (seg.end_lat - seg.start_lat),
      seg.start_lon + (t - seg.t_start) / seg.duration_s *
        (seg.end_lon - seg.start_lon))

/-- `Route.positions_at` (models.py). -/
def positionsAt (r : Route) (t : ℚ) : ℚ × ℚ :=
  if r.segments = [] then (r.vehicle.lat, r.vehicle.lon)
  else
    let first := r.segments.headD default
    let last := r.segments.getLastD default
    if t ≤ first.t_start then (first.start_lat, first.start_lon)
    else if last.t_end ≤ t then (last.end_lat, last.end_lon)
    else
      match r.segments.find?
          (fun seg => decide (seg.t_start ≤ t ∧ t ≤ seg.t_end)) with
      | some seg => segInterp seg t
      | none => (last.end_lat, last.end_lon)

/-- Consecutive point pairs of a polyline (the `for i in
range(len(points) - 1)` iteration shape). -/
def consecutivePairs : List (ℚ × ℚ) → List ((ℚ × ℚ) × (ℚ × ℚ))
  | [] => []
  | [_] => []
  | p1 :: p2 :: rest => (p1, p2) :: consecutivePairs (p2 :: rest)

/-- The segment-building loop of `build_route_for_vehicle`: each
consecutive pair `(p1, p2)` with raw distance `d` becomes a segment
whose share of the total distance and duration is `d / sumd`, with
cumulative times threaded through `tcum`. -/
def buildSegmentsAux (sumd total_distance total_duration : ℚ) :
    List ((ℚ × ℚ) × (ℚ × ℚ) × ℚ) → ℚ → List RouteSegment
  | [], _ => []
  | (p1, p2, d) :: rest, tcum =>
    let frac := d / sumd
    let segDuration := frac * total_duration
    { start_lat := p1.1, start_lon := p1.2, end_lat := p2.1, end_lon := p2.2,
      distance_m := frac * total_distance, duration_s := segDuration,
      t_start := tcum, t_end := tcum + segDuration } ::
    buildSegmentsAux sumd total_distance total_duration rest (tcum + segDuration)

/-- `build_route_for_vehicle` (route_planner.py), from the point where
the ORS response has been reduced to a polyline plus distance/duration
summary.  Fewer than two points raises; `sum_distances or 1.0` guards
the division. -/
def buildRouteForVehicle (distFn : (ℚ × ℚ) → (ℚ × ℚ) → ℚ)
    (vehicle : Vehicle) (latlon_points : List (ℚ × ℚ))
    (total_distance_m total_duration_s : ℚ) : Except String Route :=
  if latlon_points.length < 2 then
    .error ("Received too few points for vehicle " ++ vehicle.name ++
      "'s route.")
  else
    let pairs := consecutivePairs latlon_points
    let dists := pairs.map fun pr => distFn pr.1 pr.2
    let sumd := if dists.sum = 0 then 1 else dists.sum
    let segments := buildSegmentsAux sumd total_distance_m total_duration_s
      (pairs.map fun pr => (pr.1, pr.2, distFn pr.1 pr.2)) 0
    .ok ⟨vehicle, segments, total_distance_m, total_duration_s⟩

/-! ### Claim C6: route contiguity and continuity -/

theorem buildSegmentsAux_contiguous (sumd td tu : ℚ) :
    ∀ (triples : List ((ℚ × ℚ) × (ℚ × ℚ) × ℚ)) (tcum : ℚ) (i : Nat),
      i + 1 < (buildSegmentsAux sumd td tu triples tcum).length →
      ((buildSegmentsAux sumd td tu triples tcum).getD i default).t_end =
      ((buildSegmentsAux sumd td tu triples tcum).getD (i + 1)
        default).t_start := by
  intro triples
  induction triples with
  | nil => intro tcum i hi; simp [buildSegmentsAux] at hi
  | cons tr rest ih =>
    intro tcum i hi
    obtain ⟨p1, p2, d⟩ := tr
    cases i with
    | zero =>
      cases rest with
      | nil => simp [buildSegmentsAux] at hi
      | cons tr2 rest2 =>
        obtain ⟨q1, q2, e⟩ := tr2
        rfl
    | succ j =>
      simp only [buildSegmentsAux, List.length_cons] at hi
      show ((buildSegmentsAux sumd td tu ((p1, p2, d) :: rest) tcum).getD
        (j + 1) default).t_end = _
      simp only [buildSegmentsAux, List.getD_cons_succ]
      exact ih (tcum + d / sumd * tu) j (by omega)

theorem buildSegmentsAux_boundary (sumd td tu : ℚ) :
    ∀ (triples : List ((ℚ × ℚ) × (ℚ × ℚ) × ℚ)) (tcum : ℚ),
      triples.Chain' (fun a b => a.2.1 = b.1) →
      (∀ tr ∈ triples, tr.2.2 / sumd * tu = 0 → tr.1 = tr.2.1) →
      ∀ i, i + 1 < (buildSegmentsAux sumd td tu triples tcum).length →
        segInterp
          ((buildSegmentsAux sumd td tu triples tcum).getD i default)
          (((buildSegmentsAux sumd td tu triples tcum).getD i
            default).t_end) =
        segInterp
          ((buildSegmentsAux sumd td tu triples tcum).getD (i + 1) default)
          (((buildSegmentsAux sumd td tu triples tcum).getD (i + 1)
            default).t_start) := by
  intro triples
  induction triples with
  | nil => intro tcum _ _ i hi; simp [buildSegmentsAux] at hi
  | cons tr rest ih =>
    intro tcum hchain hcond i hi
    obtain ⟨p1, p2, d⟩ := tr
    cases i with
    | zero =>
      cases rest with
      | nil => simp [buildSegmentsAux] at hi
      | cons tr2 rest2 =>
        obtain ⟨q1, q2, e⟩ := tr2
        have hp2q1 : p2 = q1 := (List.chain'_cons.mp hchain).1
        have hs1 : segInterp
            ⟨p1.1, p1.2, p2.1, p2.2, d / sumd * td, d / sumd * tu, tcum,
              tcum + d / sumd * tu⟩ (tcum + d / sumd * tu) =
            (p2.1, p2.2) := by
          unfold segInterp
          dsimp only
          split
          case isTrue _ => rfl
          case isFalse hdur =>
            simp only [Prod.mk.injEq]
            constructor
            · rw [show tcum + d / sumd * tu - tcum = d / sumd * tu by ring,
                div_self hdur]
              ring
            · rw [show tcum + d / sumd * tu - tcum = d / sumd * tu by ring,
                div_self hdur]
              ring
        have hs2 : segInterp
            ⟨q1.1, q1.2, q2.1, q2.2, e / sumd * td, e / sumd * tu,
              tcum + d / sumd * tu,
              tcum + d / sumd * tu + e / sumd * tu⟩
            (tcum + d / sumd * tu) = (p2.1, p2.2) := by
          unfold segInterp
          dsimp only
          split
          case isTrue hdur2 =>
            have hq12 : q1 = q2 :=
              hcond (q1, q2, e)
                (List.mem_cons_of_mem _ (List.mem_cons_self _ rest2)) hdur2
            rw [hp2q1, hq12]
          case isFalse _ =>
            simp only [Prod.mk.injEq]
            constructor
            · rw [show tcum + d / sumd * tu - (tcum + d / sumd * tu) = 0
                by ring]
              rw [hp2q1]
              ring
            · rw [show tcum + d / sumd * tu - (tcum + d / sumd * tu) = 0
                by ring]
              rw [hp2q1]
              ring
        exact hs1.trans hs2.symm
    | succ j =>
      simp only [buildSegmentsAux, List.length_cons] at hi
      show segInterp ((buildSegmentsAux sumd td tu
        ((p1, p2, d) :: rest) tcum).getD (j + 1) default) _ = _
      simp only [buildSegmentsAux, List.getD_cons_succ]
      exact ih (tcum + d / sumd * tu) (List.Chain'.tail hchain)
        (fun tr2 htr2 => hcond tr2 (List.mem_cons_of_mem _ htr2)) j (by omega)

theorem consecutivePairs_chain :
    ∀ pts : List (ℚ × ℚ),
      (consecutivePairs pts).Chain' (fun a b => a.2 = b.1) := by
  intro pts
  induction pts with
  | nil => exact List.chain'_nil
  | cons p1 tl ih =>
    cases tl with
    | nil => exact List.chain'_nil
    | cons p2 rest =>
      show List.Chain' _ ((p1, p2) :: consecutivePairs (p2 :: rest))
      rw [List.chain'_cons']
      refine ⟨?_, ih⟩
      intro b hb
      cases rest with
      | nil => simp [consecutivePairs] at hb
      | cons p3 r2 =>
        simp only [consecutivePairs, List.head?_cons, Option.mem_def,
          Option.some.injEq] at hb
        rw [← hb]

/-- C6 (amended): for a Route produced by `build_route_for_vehicle`,
consecutive segments are always contiguous in time; and when the total
duration is positive and the distance function vanishes only on equal
points (true of the haversine away from the poles), the per-segment
interpolation of `positions_at` agrees across every segment boundary.
(With total duration 0 the code produces zero-duration segments whose
interpolation jumps — see the counterexample.) -/
theorem build_route_contiguous_and_continuous
    (distFn : (ℚ × ℚ) → (ℚ × ℚ) → ℚ) (vehicle : Vehicle)
    (pts : List (ℚ × ℚ)) (td tu : ℚ) (route : Route)
    (hdz : ∀ p q, distFn p q = 0 → p = q)
    (htu : 0 < tu)
    (h : buildRouteForVehicle distFn vehicle pts td tu = .ok route) :
    (∀ i, i + 1 < route.segments.length →
      (route.segments.getD i default).t_end =
      (route.segments.getD (i + 1) default).t_start) ∧
    (∀ i, i + 1 < route.segments.length →
      segInterp (route.segments.getD i default)
        ((route.segments.getD i default).t_end) =
      segInterp (route.segments.getD (i + 1) default)
        ((route.segments.getD (i + 1) default).t_start)) := by
  simp only [buildRouteForVehicle] at h
  split at h
  · cases h
  case isFalse hlen =>
    simp only [Except.ok.injEq] at h
    subst h
    refine ⟨fun i hi => buildSegmentsAux_contiguous _ _ _ _ _ i hi,
      fun i hi => buildSegmentsAux_boundary _ _ _ _ _ ?_ ?_ i hi⟩
    · refine (List.chain'_map _).mpr ?_
      exact consecutivePairs_chain pts
    · intro tr htr hdur
      obtain ⟨pr, hpr, hf⟩ := List.mem_map.mp htr
      rw [← hf] at hdur ⊢
      dsimp only at hdur ⊢
      rcases mul_eq_zero.mp hdur with h2 | h2
      · rcases div_eq_zero_iff.mp h2 with h3 | h3
        · exact hdz pr.1 pr.2 h3
        · exfalso
          revert h3
          split
          · norm_num
          case isFalse hz => exact hz
      · exact absurd h2 htu.ne'

/-- C6 counterexample: when the ORS summary reports total duration 0
(e.g. a degenerate route), every segment gets duration 0, segments stay
contiguous, but the per-segment interpolation is discontinuous at the
boundary: the earlier segment yields its end point `(0, 1)` while the
later one yields its own end point `(0, 2)`.  (The oracle distance 1000
stands in for the ≈ 111 km haversine distance of the one-degree steps;
only its non-zeroness matters.) -/
theorem route_continuity_counterexample :
    buildRouteForVehicle (fun p q => if p = q then 0 else 1000)
      ⟨"amb", 0, 0⟩ [(0, 0), (0, 1), (0, 2)] 2000 0 =
      .ok ⟨⟨"amb", 0, 0⟩,
        [⟨0, 0, 0, 1, 1000, 0, 0, 0⟩, ⟨0, 1, 0, 2, 1000, 0, 0, 0⟩],
        2000, 0⟩ ∧
    segInterp ⟨0, 0, 0, 1, 1000, 0, 0, 0⟩ 0 ≠
      segInterp ⟨0, 1, 0, 2, 1000, 0, 0, 0⟩ 0 := by
  constructor
  · with_unfolding_all rfl
  · intro hc
    simp only [segInterp, if_pos rfl] at hc
    rw [Prod.mk.injEq] at hc
    norm_num at hc

/-- C6 witness: a three-point route with total duration 100 s; the
boundary at t = 50 is contiguous and the interpolations agree. -/
theorem build_route_contiguous_and_continuous_witness :
    ((⟨0, 0, 0, 1, 1000, 50, 0, 50⟩ : RouteSegment).t_end =
      (⟨0, 1, 0, 2, 1000, 50, 50, 100⟩ : RouteSegment).t_start) ∧
    segInterp ⟨0, 0, 0, 1, 1000, 50, 0, 50⟩ 50 =
      segInterp ⟨0, 1, 0, 2, 1000, 50, 50, 100⟩ 50 := by
  have hdz : ∀ p q : ℚ × ℚ, (if p = q then (0 : ℚ) else 1000) = 0 → p = q := by
    intro p q hv
    by_cases hpq : p = q
    · exact hpq
    · rw [if_neg hpq] at hv; norm_num at hv
  have hmain := build_route_contiguous_and_continuous
    (fun p q => if p = q then 0 else 1000) ⟨"amb", 0, 0⟩
    [(0, 0), (0, 1), (0, 2)] 2000 100
    ⟨⟨"amb", 0, 0⟩,
      [⟨0, 0, 0, 1, 1000, 50, 0, 50⟩, ⟨0, 1, 0, 2, 1000, 50, 50, 100⟩],
      2000, 100⟩
    hdz (by norm_num) (by with_unfolding_all rfl)
  exact ⟨hmain.1 0 (by decide), hmain.2 0 (by decide)⟩

/-! ### Graph builder (graph_builder.py)

`haversine_m` is again taken as an oracle parameter `distFn`; the
builder uses it only through comparisons with the 10 m merge radius and
as the stored edge `length`. -/

/-- The `while i < n - 1` sampling loop of `downsample_polyline`
(fuelled; `n` units of fuel always suffice for `step ≥ 1`). -/
def downsampleWhile (polyline : List (ℚ × ℚ)) (n step : Nat) :
    Nat → Nat → List (ℚ × ℚ)
  | 0, _ => []
  | fuel + 1, i =>
    if i < n - 1 then
      polyline.getD i (0, 0) :: downsampleWhile polyline n step fuel (i + step)
    else []

/-- `downsample_polyline` (graph_builder.py).  (For
`target_waypoints = 1` Python raises ZeroDivisionError; the embedding's
`n / 0 = 0` branch is never exercised by the claims.) -/
def downsamplePolyline (polyline : List (ℚ × ℚ))
    (target_waypoints : Nat) : List (ℚ × ℚ) :=
  let n := polyline.length
  if n ≤ target_waypoints then polyline
  else
    let step := max 1 (n / (target_waypoints - 1))
    (polyline.headD (0, 0) ::
      downsampleWhile polyline n step n step) ++ [polyline.getLastD (0, 0)]

/-- The scan of `find_or_create_node`: first existing node within the
10 m merge radius. -/
def findNearIdx (distFn : (ℚ × ℚ) → (ℚ × ℚ) → ℚ) (p : ℚ × ℚ) :
    List (ℚ × ℚ) → Nat → Option Nat
  | [], _ => none
  | c :: rest, i =>
    if distFn p c ≤ 10 then some i else findNearIdx distFn p rest (i + 1)

/-- `find_or_create_node` (graph_builder.py): merge into the first node
within 10 m, else append a fresh node (dense ids). -/
def findOrCreateNode (distFn : (ℚ × ℚ) → (ℚ × ℚ) → ℚ)
    (st : List (ℚ × ℚ) × Graph) (p : ℚ × ℚ) :
    Nat × List (ℚ × ℚ) × Graph :=
  match findNearIdx distFn p st.1 0 with
  | some idx => (idx, st)
  | none =>
    (st.1.length, st.1 ++ [p],
      ⟨st.2.nodes ++ [(st.1.length, p.1, p.2)], st.2.edges⟩)

/-- The per-agent waypoint loop: node ids for each downsampled point. -/
def buildWay (distFn : (ℚ × ℚ) → (ℚ × ℚ) → ℚ) :
    List (ℚ × ℚ) → List (ℚ × ℚ) × Graph →
    List Nat × List (ℚ × ℚ) × Graph
  | [], st => ([], st)
  | p :: rest, st =>
    let r := findOrCreateNode distFn st p
    let r2 := buildWay distFn rest r.2
    (r.1 :: r2.1, r2.2)

/-- The edge-creation loop: connect consecutive waypoints, skipping
already-existing edges; `travel_time` 1, `length` the haversine
distance between the two nodes' coordinates. -/
def addEdges (distFn : (ℚ × ℚ) → (ℚ × ℚ) → ℚ)
    (coords : List (ℚ × ℚ)) : Graph → List Nat → Graph
  | G, [] => G
  | G, [_] => G
  | G, u :: v :: rest =>
    let G' := if G.hasEdge u v then G
      else ⟨G.nodes, G.edges ++
        [((u, v), ⟨1, distFn (coords.getD u (0, 0)) (coords.getD v (0, 0))⟩)]⟩
    addEdges distFn coords G' (v :: rest)

/-- One agent of `build_abstract_graph_from_routes`: downsample, skip
the agent if fewer than two points remain, else merge waypoints and add
edges. -/
def buildAbstractStep (distFn : (ℚ × ℚ) → (ℚ × ℚ) → ℚ)
    (target_waypoints : Nat)
    (st : (List (ℚ × ℚ) × Graph) × List (String × List Nat))
    (entry : String × List (ℚ × ℚ)) :
    (List (ℚ × ℚ) × Graph) × List (String × List Nat) :=
  let pts := downsamplePolyline entry.2 target_waypoints
  if pts.length < 2 then st
  else
    let r := buildWay distFn pts st.1
    let G' := addEdges distFn r.2.1 r.2.2 r.1
    ((r.2.1, G'), dictSet st.2 entry.1 r.1)

/-- `build_abstract_graph_from_routes` (graph_builder.py). -/
def buildAbstractGraphFromRoutes (distFn : (ℚ × ℚ) → (ℚ × ℚ) → ℚ)
    (polylines : List (String × List (ℚ × ℚ)))
    (target_waypoints : Nat) : Graph × List (String × List Nat) :=
  let st := polylines.foldl (buildAbstractStep distFn target_waypoints)
    (([], ⟨[], []⟩), [])
  (st.1.2, st.2)

/-! ### Conflict simulator (simulation.py) -/

/-- The all-pairs proximity scan of `simulate_routes` at one time
step, threading the first-conflict record and the event count. -/
def simScanPairs (distFn : (ℚ × ℚ) → (ℚ × ℚ) → ℚ)
    (threshold t : ℚ) :
    List (String × ℚ × ℚ) →
    Option (ℚ × String × String × ℚ) × Nat →
    Option (ℚ × String × String × ℚ) × Nat
  | [], acc => acc
  | p :: rest, acc =>
    let acc2 := rest.foldl (fun a q =>
      let d := distFn p.2 q.2
      if d ≤ threshold then
        (match a.1 with
          | none => some (t, p.1, q.1, d)
          | some c => some c, a.2 + 1)
      else a) acc
    simScanPairs distFn threshold t rest acc2

/-- `simulate_routes` (simulation.py): `none` models the immediate
`print`-and-return on an empty route list; otherwise the first detected
conflict (if any) and the total conflict-event count. -/
def simulateRoutes (distFn : (ℚ × ℚ) → (ℚ × ℚ) → ℚ)
    (routes : List Route) (time_step_s conflict_distance_m : ℚ) :
    Option (Option (ℚ × String × String × ℚ) × Nat) :=
  match routes with
  | [] => none
  | r0 :: rest =>
    let max_duration := (rest.map fun r => r.total_duration_s).foldl max
      r0.total_duration_s
    let total_steps := (⌊max_duration / time_step_s⌋).toNat + 1
    some ((List.range total_steps).foldl
      (fun acc stepIdx =>
        let t := (stepIdx : ℚ) * time_step_s
        let positions := (r0 :: rest).map fun r =>
          (r.vehicle.name, positionsAt r t)
        simScanPairs distFn conflict_distance_m t positions acc)
      (none, 0))

/-! ### Invariants of the builder loops -/

theorem findOrCreateNode_edges (distFn : (ℚ × ℚ) → (ℚ × ℚ) → ℚ)
    (st : List (ℚ × ℚ) × Graph) (p : ℚ × ℚ) :
    ((findOrCreateNode distFn st p).2.2).edges = st.2.edges := by
  unfold findOrCreateNode
  cases findNearIdx distFn p st.1 0 <;> rfl

theorem findOrCreateNode_hit (distFn : (ℚ × ℚ) → (ℚ × ℚ) → ℚ)
    (st : List (ℚ × ℚ) × Graph) (p : ℚ × ℚ) (u : Nat)
    (h : findNearIdx distFn p st.1 0 = some u) :
    findOrCreateNode distFn st p = (u, st) := by
  unfold findOrCreateNode
  rw [h]

theorem buildWay_cons (distFn : (ℚ × ℚ) → (ℚ × ℚ) → ℚ) (p : ℚ × ℚ)
    (l : List (ℚ × ℚ)) (st : List (ℚ × ℚ) × Graph) :
    buildWay distFn (p :: l) st =
      ((findOrCreateNode distFn st p).1 ::
        (buildWay distFn l (findOrCreateNode distFn st p).2).1,
       (buildWay distFn l (findOrCreateNode distFn st p).2).2) := rfl

theorem buildWay_edges (distFn : (ℚ × ℚ) → (ℚ × ℚ) → ℚ)
    (pts : List (ℚ × ℚ)) :
    ∀ st : List (ℚ × ℚ) × Graph,
      ((buildWay distFn pts st).2.2).edges = st.2.edges := by
  induction pts with
  | nil => intro st; rfl
  | cons p rest ih =>
    intro st
    rw [buildWay_cons]
    rw [ih, findOrCreateNode_edges]

theorem addEdges_cons2 (distFn : (ℚ × ℚ) → (ℚ × ℚ) → ℚ)
    (coords : List (ℚ × ℚ)) (G : Graph) (u v : Nat) (r : List Nat) :
    addEdges distFn coords G (u :: v :: r) =
      addEdges distFn coords
        (if G.hasEdge u v then G
         else ⟨G.nodes, G.edges ++ [((u, v),
           ⟨1, distFn (coords.getD u (0, 0)) (coords.getD v (0, 0))⟩)]⟩)
        (v :: r) := rfl

theorem addEdges_edges_mono (distFn : (ℚ × ℚ) → (ℚ × ℚ) → ℚ)
    (coords : List (ℚ × ℚ)) (e : (Nat × Nat) × EdgeData) :
    ∀ (l : List Nat) (G : Graph), e ∈ G.edges →
      e ∈ (addEdges distFn coords G l).edges := by
  intro l
  induction l with
  | nil => intro G h; exact h
  | cons u t ih =>
    intro G h
    cases t with
    | nil => exact h
    | cons v r =>
      rw [addEdges_cons2]
      apply ih
      split
      · exact h
      · exact List.mem_append_left _ h

theorem hasEdge_eq_of_edges {G G' : Graph} (h : G.edges = G'.edges)
    (u v : Nat) : G.hasEdge u v = G'.hasEdge u v := by
  unfold Graph.hasEdge
  rw [h]

theorem buildAbstractStep_skip (distFn : (ℚ × ℚ) → (ℚ × ℚ) → ℚ)
    (tw : Nat) (st : (List (ℚ × ℚ) × Graph) × List (String × List Nat))
    (entry : String × List (ℚ × ℚ))
    (h : (downsamplePolyline entry.2 tw).length < 2) :
    buildAbstractStep distFn tw st entry = st := by
  simp only [buildAbstractStep]
  rw [if_pos h]

theorem buildAbstractStep_go (distFn : (ℚ × ℚ) → (ℚ × ℚ) → ℚ)
    (tw : Nat) (st : (List (ℚ × ℚ) × Graph) × List (String × List Nat))
    (entry : String × List (ℚ × ℚ))
    (h : ¬ (downsamplePolyline entry.2 tw).length < 2) :
    buildAbstractStep distFn tw st entry =
      (((buildWay distFn (downsamplePolyline entry.2 tw) st.1).2.1,
        addEdges distFn
          (buildWay distFn (downsamplePolyline entry.2 tw) st.1).2.1
          (buildWay distFn (downsamplePolyline entry.2 tw) st.1).2.2
          (buildWay distFn (downsamplePolyline entry.2 tw) st.1).1),
        dictSet st.2 entry.1
          (buildWay distFn (downsamplePolyline entry.2 tw) st.1).1) := by
  simp only [buildAbstractStep]
  rw [if_neg h]

theorem buildAbstractStep_edges_mono (distFn : (ℚ × ℚ) → (ℚ × ℚ) → ℚ)
    (tw : Nat) (st : (List (ℚ × ℚ) × Graph) × List (String × List Nat))
    (entry : String × List (ℚ × ℚ)) (e : (Nat × Nat) × EdgeData)
    (h : e ∈ st.1.2.edges) :
    e ∈ (buildAbstractStep distFn tw st entry).1.2.edges := by
  by_cases hsk : (downsamplePolyline entry.2 tw).length < 2
  · rw [buildAbstractStep_skip distFn tw st entry hsk]; exact h
  · rw [buildAbstractStep_go distFn tw st entry hsk]
    dsimp only
    apply addEdges_edges_mono
    rw [buildWay_edges]
    exact h

theorem buildFold_edges_mono (distFn : (ℚ × ℚ) → (ℚ × ℚ) → ℚ)
    (tw : Nat) (e : (Nat × Nat) × EdgeData) :
    ∀ (l : List (String × List (ℚ × ℚ)))
      (st : (List (ℚ × ℚ) × Graph) × List (String × List Nat)),
      e ∈ st.1.2.edges →
      e ∈ (l.foldl (buildAbstractStep distFn tw) st).1.2.edges := by
  intro l
  induction l with
  | nil => intro st h; exact h
  | cons a t ih =>
    intro st h
    rw [List.foldl_cons]
    exact ih _ (buildAbstractStep_edges_mono distFn tw st a e h)

theorem buildAbstractStep_ways_ne (distFn : (ℚ × ℚ) → (ℚ × ℚ) → ℚ)
    (tw : Nat) (st : (List (ℚ × ℚ) × Graph) × List (String × List Nat))
    (entry : String × List (ℚ × ℚ)) (name : String)
    (h : entry.1 ≠ name) :
    dictGet (buildAbstractStep distFn tw st entry).2 name [] =
      dictGet st.2 name [] := by
  by_cases hsk : (downsamplePolyline entry.2 tw).length < 2
  · rw [buildAbstractStep_skip distFn tw st entry hsk]
  · rw [buildAbstractStep_go distFn tw st entry hsk]
    exact dictGet_dictSet_ne st.2 entry.1 name _ [] h.symm

theorem buildFold_ways_ne (distFn : (ℚ × ℚ) → (ℚ × ℚ) → ℚ)
    (tw : Nat) (name : String) :
    ∀ (l : List (String × List (ℚ × ℚ)))
      (st : (List (ℚ × ℚ) × Graph) × List (String × List Nat)),
      (∀ q ∈ l, q.1 ≠ name) →
      dictGet (l.foldl (buildAbstractStep distFn tw) st).2 name [] =
        dictGet st.2 name [] := by
  intro l
  induction l with
  | nil => intro st _; rfl
  | cons a t ih =>
    intro st hq
    rw [List.foldl_cons,
      ih _ (fun q hmem => hq q (List.mem_cons_of_mem a hmem))]
    exact buildAbstractStep_ways_ne distFn tw st a name
      (hq a (List.mem_cons_self a t))

theorem dictSet_keys_not_mem {κ α : Type} [DecidableEq κ]
    {d : List (κ × α)} {k x : κ} {v : α}
    (hx : x ∉ d.map Prod.fst) (hxk : x ≠ k) :
    x ∉ (dictSet d k v).map Prod.fst := by
  intro hmem
  obtain ⟨q, hq, hqx⟩ := List.mem_map.mp hmem
  rcases dictSet_mem' q hq with h1 | h1
  · rw [h1] at hqx
    exact hxk hqx.symm
  · exact hx (List.mem_map.mpr ⟨q, h1, hqx⟩)

theorem buildFold_skips (distFn : (ℚ × ℚ) → (ℚ × ℚ) → ℚ)
    (tw : Nat) (name : String) :
    ∀ (l : List (String × List (ℚ × ℚ)))
      (st : (List (ℚ × ℚ) × Graph) × List (String × List Nat)),
      (∀ poly, (name, poly) ∈ l → (downsamplePolyline poly tw).length < 2) →
      name ∉ st.2.map Prod.fst →
      name ∉ (l.foldl (buildAbstractStep distFn tw) st).2.map Prod.fst := by
  intro l
  induction l with
  | nil => intro st _ h; exact h
  | cons a t ih =>
    intro st hsmall h
    rw [List.foldl_cons]
    refine ih _ (fun poly hp => hsmall poly (List.mem_cons_of_mem a hp)) ?_
    obtain ⟨a1, a2⟩ := a
    by_cases hna : a1 = name
    · have hsk : (downsamplePolyline a2 tw).length < 2 := by
        apply hsmall a2
        rw [← hna]
        exact List.mem_cons_self (a1, a2) t
      rw [buildAbstractStep_skip distFn tw st (a1, a2) hsk]
      exact h
    · by_cases hsk : (downsamplePolyline a2 tw).length < 2
      · rw [buildAbstractStep_skip distFn tw st (a1, a2) hsk]
        exact h
      · rw [buildAbstractStep_go distFn tw st (a1, a2) hsk]
        exact dictSet_keys_not_mem h (fun he => hna he.symm)

/-- Oracle distance for the concrete builder scenarios: 0 between equal
coordinate pairs (exactly the haversine value there) and 10000 m —
far outside the 10 m merge radius, as with the one-degree steps used
below — between distinct ones. -/
def gbDist : (ℚ × ℚ) → (ℚ × ℚ) → ℚ := fun p q => if p = q then 0 else 10000

/-- The polyline set of the C9 counterexample: agent "a" has a single
geometry point, agent "b" a proper two-point polyline. -/
def gbCexPolys : List (String × List (ℚ × ℚ)) :=
  [("a", [(0, 0)]), ("b", [(0, 0), (1, 1)])]

/-- C9 counterexample: `build_abstract_graph_from_routes` does NOT
reject an input in which some agent has fewer than two geometry points:
it silently `continue`s past agent "a" (which ends up with no waypoint
entry) and goes on to build nodes, an edge and a waypoint list for
agent "b" — a partial result, produced with no error. -/
theorem builder_partial_result_counterexample :
    (buildAbstractGraphFromRoutes gbDist gbCexPolys 8).2 = [("b", [0, 1])] ∧
    "a" ∉ (buildAbstractGraphFromRoutes gbDist gbCexPolys 8).2.map Prod.fst ∧
    (buildAbstractGraphFromRoutes gbDist gbCexPolys 8).1.edges =
      [((0, 1), ⟨1, 10000⟩)] := by
  have h : buildAbstractGraphFromRoutes gbDist gbCexPolys 8 =
      (⟨[(0, 0, 0), (1, 1, 1)], [((0, 1), ⟨1, 10000⟩)]⟩, [("b", [0, 1])]) := by
    with_unfolding_all rfl
  refine ⟨?_, ?_, ?_⟩
  · rw [h]
  · rw [h]
    decide
  · rw [h]

/-- C9 (amended): of the three entry points the claim names, only
`build_route_for_vehicle` (< 2 points) and `simulate_routes` (empty
route list) reject degenerate input before computing anything;
`build_abstract_graph_from_routes` never rejects — it skips each agent
whose downsampled polyline has fewer than two points (the agent gets no
waypoint entry) while continuing to process the rest of the input. -/
theorem invalid_input_rejection (distFn : (ℚ × ℚ) → (ℚ × ℚ) → ℚ) :
    (∀ (vehicle : Vehicle) (pts : List (ℚ × ℚ)) (td tu : ℚ),
      pts.length < 2 →
      buildRouteForVehicle distFn vehicle pts td tu =
        .error ("Received too few points for vehicle " ++ vehicle.name ++
          "'s route.")) ∧
    (∀ ts cd : ℚ, simulateRoutes distFn [] ts cd = none) ∧
    (∀ (polylines : List (String × List (ℚ × ℚ))) (tw : Nat)
      (name : String),
      (∀ poly, (name, poly) ∈ polylines →
        (downsamplePolyline poly tw).length < 2) →
      name ∉ (buildAbstractGraphFromRoutes distFn polylines tw).2.map
        Prod.fst) := by
  refine ⟨?_, ?_, ?_⟩
  · intro vehicle pts td tu h
    simp only [buildRouteForVehicle]
    rw [if_pos h]
  · intro ts cd
    rfl
  · intro polylines tw name hsmall
    show name ∉ (polylines.foldl (buildAbstractStep distFn tw)
      (([], ⟨[], []⟩), [])).2.map Prod.fst
    exact buildFold_skips distFn tw name polylines _ hsmall
      (List.not_mem_nil name)

/-- Witness for the amended C9 theorem on concrete degenerate inputs. -/
theorem invalid_input_rejection_witness :
    buildRouteForVehicle gbDist ⟨"amb", 0, 0⟩ [((0 : ℚ), (0 : ℚ))] 100 10 =
      .error ("Received too few points for vehicle " ++ "amb" ++
        "'s route.") ∧
    simulateRoutes gbDist [] 1 10 = none ∧
    "a" ∉ (buildAbstractGraphFromRoutes gbDist
      [("a", [((0 : ℚ), (0 : ℚ))])] 8).2.map Prod.fst := by
  have h := invalid_input_rejection gbDist
  refine ⟨h.1 ⟨"amb", 0, 0⟩ [(0, 0)] 100 10 (by decide), h.2.1 1 10, ?_⟩
  refine h.2.2 [("a", [(0, 0)])] 8 "a" ?_
  intro poly hp
  have hpoly : poly = [((0 : ℚ), (0 : ℚ))] := by
    have := List.mem_singleton.mp hp
    exact congrArg Prod.snd this
  rw [hpoly]
  decide

/-- C10: if, at the moment an agent's waypoints are merged, two
consecutive downsampled points of that agent both merge into the same
existing node `u` (both lie within the 10 m radius of `u` and of no
earlier node), then the agent's waypoint sequence contains `u` twice in
a row and — provided the self-loop does not already exist — a directed
self-loop edge `(u, u)` with `travel_time` 1 and `length` 0 is added
and survives to the returned graph (the haversine distance from a point
to itself being 0, hypothesis `hdd`). -/
theorem builder_selfloop (distFn : (ℚ × ℚ) → (ℚ × ℚ) → ℚ)
    (hdd : ∀ c, distFn c c = 0)
    (pre post : List (String × List (ℚ × ℚ))) (name : String)
    (poly : List (ℚ × ℚ)) (tw : Nat) (p p' : ℚ × ℚ)
    (rest : List (ℚ × ℚ)) (u : Nat)
    (hpts : downsamplePolyline poly tw = p :: p' :: rest)
    (hp : findNearIdx distFn p
      (pre.foldl (buildAbstractStep distFn tw)
        (([], ⟨[], []⟩), [])).1.1 0 = some u)
    (hp' : findNearIdx distFn p'
      (pre.foldl (buildAbstractStep distFn tw)
        (([], ⟨[], []⟩), [])).1.1 0 = some u)
    (hloop : (pre.foldl (buildAbstractStep distFn tw)
      (([], ⟨[], []⟩), [])).1.2.hasEdge u u = false)
    (hpost : ∀ q ∈ post, q.1 ≠ name) :
    (∃ tail, dictGet (buildAbstractGraphFromRoutes distFn
        (pre ++ (name, poly) :: post) tw).2 name [] = u :: u :: tail) ∧
    ((u, u), (⟨1, 0⟩ : EdgeData)) ∈
      (buildAbstractGraphFromRoutes distFn
        (pre ++ (name, poly) :: post) tw).1.edges := by
  have hfold : (pre ++ (name, poly) :: post).foldl
      (buildAbstractStep distFn tw) (([], (⟨[], []⟩ : Graph)), []) =
      post.foldl (buildAbstractStep distFn tw)
        (buildAbstractStep distFn tw
          (pre.foldl (buildAbstractStep distFn tw) (([], ⟨[], []⟩), []))
          (name, poly)) := by
    rw [List.foldl_append, List.foldl_cons]
  generalize hst0 : pre.foldl (buildAbstractStep distFn tw)
    (([], (⟨[], []⟩ : Graph)), []) = st0 at *
  have hlen : ¬ (downsamplePolyline poly tw).length < 2 := by
    rw [hpts]
    simp
  have hstep := buildAbstractStep_go distFn tw st0 (name, poly) hlen
  have hfoc : findOrCreateNode distFn st0.1 p = (u, st0.1) :=
    findOrCreateNode_hit distFn st0.1 p u hp
  have hfoc' : findOrCreateNode distFn st0.1 p' = (u, st0.1) :=
    findOrCreateNode_hit distFn st0.1 p' u hp'
  have hway : buildWay distFn (downsamplePolyline poly tw) st0.1 =
      (u :: u :: (buildWay distFn rest st0.1).1,
        (buildWay distFn rest st0.1).2) := by
    rw [hpts, buildWay_cons, hfoc]
    dsimp only
    rw [buildWay_cons, hfoc']
  have hedges1 : (buildWay distFn rest st0.1).2.2.edges = st0.1.2.edges :=
    buildWay_edges distFn rest st0.1
  have hhe : (buildWay distFn rest st0.1).2.2.hasEdge u u = false := by
    rw [hasEdge_eq_of_edges hedges1]
    exact hloop
  have hmem0 : ((u, u), (⟨1, 0⟩ : EdgeData)) ∈
      (addEdges distFn (buildWay distFn rest st0.1).2.1
        (buildWay distFn rest st0.1).2.2
        (u :: u :: (buildWay distFn rest st0.1).1)).edges := by
    rw [addEdges_cons2, if_neg (by rw [hhe]; exact Bool.false_ne_true)]
    apply addEdges_edges_mono
    dsimp only
    rw [hdd ((buildWay distFn rest st0.1).2.1.getD u (0, 0))]
    exact List.mem_append_right _ (List.mem_singleton_self _)
  have hmem1 : ((u, u), (⟨1, 0⟩ : EdgeData)) ∈
      (buildAbstractStep distFn tw st0 (name, poly)).1.2.edges := by
    rw [hstep]
    dsimp only
    rw [hway]
    exact hmem0
  have hways1 : dictGet (buildAbstractStep distFn tw st0 (name, poly)).2
      name [] = u :: u :: (buildWay distFn rest st0.1).1 := by
    rw [hstep]
    dsimp only
    rw [hway]
    exact dictGet_dictSet_self st0.2 name _ []
  constructor
  · refine ⟨(buildWay distFn rest st0.1).1, ?_⟩
    show dictGet ((pre ++ (name, poly) :: post).foldl
      (buildAbstractStep distFn tw) (([], ⟨[], []⟩), [])).2 name [] = _
    rw [hfold, buildFold_ways_ne distFn tw name post _ hpost]
    exact hways1
  · show ((u, u), (⟨1, 0⟩ : EdgeData)) ∈
      ((pre ++ (name, poly) :: post).foldl
        (buildAbstractStep distFn tw) (([], ⟨[], []⟩), [])).1.2.edges
    rw [hfold]
    exact buildFold_edges_mono distFn tw _ post _ hmem1

/-- Witness for C10: agent "a" creates nodes 0 and 1; agent "b"'s two
identical points both merge into node 1, yielding waypoints `[1, 1]`
and the self-loop `((1, 1), travel_time 1, length 0)`. -/
theorem builder_selfloop_witness :
    (∃ tail, dictGet (buildAbstractGraphFromRoutes gbDist
        [("a", [((0 : ℚ), (0 : ℚ)), (1, 1)]), ("b", [(1, 1), (1, 1)])]
        8).2 "b" [] = 1 :: 1 :: tail) ∧
    ((1, 1), (⟨1, 0⟩ : EdgeData)) ∈
      (buildAbstractGraphFromRoutes gbDist
        [("a", [((0 : ℚ), (0 : ℚ)), (1, 1)]), ("b", [(1, 1), (1, 1)])]
        8).1.edges := by
  have h := builder_selfloop gbDist
    (fun c => by simp [gbDist])
    [("a", [(0, 0), (1, 1)])] [] "b" [(1, 1), (1, 1)] 8 (1, 1) (1, 1) [] 1
    (by with_unfolding_all rfl) (by with_unfolding_all rfl)
    (by with_unfolding_all rfl) (by with_unfolding_all rfl)
    (fun q hq => absurd hq (List.not_mem_nil q))
  exact h

/-! ### D* Lite (dstar_lite.py)

`_heuristic` divides a haversine distance by 40 km/h (and returns ∞
for a node outside the graph), so it enters the algorithm only through
the priority keys; the embedding takes it as an oracle parameter
`h : Nat → Nat → Option ℚ`.  `h u v = some 0` is its exact value
whenever both nodes exist and carry identical coordinates.  Python
floats become `ℚ`; in this section `float("inf")` is modelled by
`none : Option ℚ` with the float arithmetic and comparisons spelled
out (`qadd`, `qmin`, `qltB`), which matches IEEE semantics on the
values the program produces: `inf` absorbs addition, `inf == inf`,
and `x < inf` exactly for finite `x`.  The `heapq` priority queue is a
list whose front element is the leftmost minimum under the tuple order
`((k1, k2), node)`; `_update_vertex` keeps at most one entry per node,
so the minimum is unique and `popMinBy` is exactly
`queue[0]`/`heappop`. -/

/-- `+` on floats-with-infinity. -/
def qadd : Option ℚ → Option ℚ → Option ℚ
  | some a, some b => some (a + b)
  | _, _ => none

/-- `min` on floats-with-infinity. -/
def qmin : Option ℚ → Option ℚ → Option ℚ
  | some a, some b => some (min a b)
  | some a, none => some a
  | none, b => b

/-- `<` on floats-with-infinity. -/
def qltB : Option ℚ → Option ℚ → Bool
  | some a, some b => decide (a < b)
  | some _, none => true
  | none, _ => false

/-- `G.predecessors(u)` in edge-insertion order. -/
def Graph.predecessors (G : Graph) (u : Nat) : List Nat :=
  (G.edges.filter fun e => decide (e.1.2 = u)).map fun e => e.1.1

/-- The mutable state of a `DStarLite` object. -/
structure DState where
  G : Graph
  start : Nat
  goal : Nat
  km : Option ℚ
  g : List (Nat × Option ℚ)
  rhs : List (Nat × Option ℚ)
  queue : List ((Option ℚ × Option ℚ) × Nat)
  path_nodes : List Nat
deriving DecidableEq

/-- Python `<` on the `(k1, k2)` float pairs. -/
def keyLt (a b : Option ℚ × Option ℚ) : Bool :=
  if a.1 ≠ b.1 then qltB a.1 b.1 else qltB a.2 b.2

/-- Python `<` on the full `((k1, k2), node)` heap entries. -/
def dstarEntryLt (a b : (Option ℚ × Option ℚ) × Nat) : Bool :=
  if a.1 ≠ b.1 then keyLt a.1 b.1 else decide (a.2 < b.2)

/-- `DStarLite._calculate_key`. -/
def calculateKey (h : Nat → Nat → Option ℚ) (st : DState) (u : Nat) :
    Option ℚ × Option ℚ :=
  (qadd (qadd (qmin (dictGet st.g u none) (dictGet st.rhs u none))
      (h st.start u)) st.km,
   qmin (dictGet st.g u none) (dictGet st.rhs u none))

/-- `DStarLite._update_vertex`: recompute `rhs(u)` (unless `u` is the
goal) over `u`'s successors, drop `u`'s queue entries, re-push iff `u`
is inconsistent. -/
def updateVertex (h : Nat → Nat → Option ℚ) (st : DState) (u : Nat) :
    DState :=
  let st1 :=
    if u ≠ st.goal then
      { st with rhs := dictSet st.rhs u ((st.G.successors u).foldl
          (fun m nbr => qmin m (qadd (some (st.G.travelTime u nbr))
            (dictGet st.g nbr none))) none) }
    else st
  let q := st1.queue.filter fun item => decide (item.2 ≠ u)
  if dictGet st1.g u none ≠ dictGet st1.rhs u none then
    { st1 with queue := q ++ [(calculateKey h st1 u, u)] }
  else
    { st1 with queue := q }

/-- `DStarLite._compute_shortest_path` (fuelled; `none` = fuel ran
out).  `calculate_key u` is recomputed where Python uses the `k_new`
it computed just before popping: the key does not depend on the queue,
so the values agree. -/
def cspLoop (h : Nat → Nat → Option ℚ) : Nat → DState → Option DState
  | 0, _ => none
  | fuel + 1, st =>
    match popMinBy dstarEntryLt st.queue with
    | none => some st
    | some ((k_old, u), restQ) =>
      if keyLt k_old (calculateKey h st st.start) ||
          decide (dictGet st.rhs st.start none ≠
            dictGet st.g st.start none) then
        if keyLt k_old (calculateKey h st u) then
          cspLoop h fuel
            { st with queue := restQ ++ [(calculateKey h st u, u)] }
        else if qltB (dictGet st.rhs u none) (dictGet st.g u none) then
          cspLoop h fuel
            ((st.G.predecessors u).foldl (fun s n => updateVertex h s n)
              { st with g := dictSet st.g u (dictGet st.rhs u none),
                        queue := restQ })
        else
          cspLoop h fuel
            (updateVertex h
              ((st.G.predecessors u).foldl (fun s n => updateVertex h s n)
                { st with g := dictSet st.g u none, queue := restQ })
              u)
      else some st

/-- The inner successor scan of `DStarLite._extract_path` (and of
`step`): greedy `min (travel_time + g)`, earliest minimum kept. -/
def extractScan (G : Graph) (g : List (Nat × Option ℚ)) (curr : Nat) :
    Option ℚ × Option Nat :=
  (G.successors curr).foldl
    (fun acc nbr =>
      if qltB (qadd (some (G.travelTime curr nbr)) (dictGet g nbr none))
          acc.1 then
        (qadd (some (G.travelTime curr nbr)) (dictGet g nbr none),
          some nbr)
      else acc)
    (none, none)

/-- The `while curr != goal and len(path) < max_steps` loop of
`_extract_path`.  `max_steps + 1` fuel always suffices since every
iteration appends a node. -/
def extractLoop (G : Graph) (g : List (Nat × Option ℚ))
    (goal max_steps : Nat) : Nat → Nat → List Nat → List Nat
  | 0, _, path => path
  | fuel + 1, curr, path =>
    if curr ≠ goal ∧ path.length < max_steps then
      match extractScan G g curr with
      | (_, none) => path
      | (min_cost, some nxt) =>
        if min_cost = none then path
        else extractLoop G g goal max_steps fuel nxt (path ++ [nxt])
    else path

/-- `DStarLite._extract_path` (`max_steps = 2 * |nodes|`). -/
def extractPath (st : DState) : DState :=
  { st with path_nodes :=
      (extractLoop st.G st.g st.goal (st.G.nodes.length * 2)
        (st.G.nodes.length * 2 + 1) st.start [st.start]) }

/-- `DStarLite.__init__`: `g = rhs = ∞` everywhere, `rhs(goal) = 0`,
goal pushed, then the repair loop and a path extraction. -/
def dstarInit (h : Nat → Nat → Option ℚ) (G : Graph)
    (start goal fuel : Nat) : Option DState :=
  let st0 : DState := ⟨G, start, goal, some 0,
    G.nodes.map fun n => (n.1, none),
    dictSet (G.nodes.map fun n => (n.1, (none : Option ℚ))) goal (some 0),
    [], []⟩
  (cspLoop h fuel
    { st0 with queue := [(calculateKey h st0 goal, goal)] }).map extractPath

/-- `self.G[u][v]["travel_time"] = c`. -/
def setTravelTime (G : Graph) (u v : Nat) (c : ℚ) : Graph :=
  ⟨G.nodes, G.edges.map fun e =>
    if e.1 = (u, v) then (e.1, ⟨c, e.2.length⟩) else e⟩

/-- `DStarLite.block_edge_and_replan`: multiply the edge's
`travel_time` by `1e6`, update the source vertex, re-run the repair
loop, re-extract; a missing edge only prints. -/
def blockEdgeAndReplan (h : Nat → Nat → Option ℚ) (st : DState)
    (u v : Nat) (fuel : Nat) : Option DState :=
  if st.G.hasEdge u v then
    (cspLoop h fuel
      (updateVertex h
        { st with
            G := setTravelTime st.G u v (st.G.travelTime u v * 1000000) }
        u)).map extractPath
  else some st

/-! ### Equations and invariants of the D* Lite loops -/

theorem cspLoop_pop_none (h : Nat → Nat → Option ℚ) (fuel : Nat)
    (st : DState) (hq : popMinBy dstarEntryLt st.queue = none) :
    cspLoop h (fuel + 1) st = some st := by
  simp only [cspLoop]
  rw [hq]

theorem cspLoop_step2 (h : Nat → Nat → Option ℚ) (fuel : Nat) (st : DState)
    (k_old : Option ℚ × Option ℚ) (u : Nat)
    (restQ : List ((Option ℚ × Option ℚ) × Nat))
    (hq : popMinBy dstarEntryLt st.queue = some ((k_old, u), restQ))
    (hc : (keyLt k_old (calculateKey h st st.start) ||
      decide (dictGet st.rhs st.start none ≠
        dictGet st.g st.start none)) = true)
    (h1 : keyLt k_old (calculateKey h st u) = false)
    (h2 : qltB (dictGet st.rhs u none) (dictGet st.g u none) = true) :
    cspLoop h (fuel + 1) st = cspLoop h fuel
      ((st.G.predecessors u).foldl (fun s n => updateVertex h s n)
        { st with g := dictSet st.g u (dictGet st.rhs u none),
                  queue := restQ }) := by
  simp only [cspLoop]
  rw [hq]
  dsimp only
  rw [if_pos hc, if_neg (fun hh => Bool.false_ne_true (h1 ▸ hh)),
    if_pos h2]

theorem cspLoop_step3 (h : Nat → Nat → Option ℚ) (fuel : Nat) (st : DState)
    (k_old : Option ℚ × Option ℚ) (u : Nat)
    (restQ : List ((Option ℚ × Option ℚ) × Nat))
    (hq : popMinBy dstarEntryLt st.queue = some ((k_old, u), restQ))
    (hc : (keyLt k_old (calculateKey h st st.start) ||
      decide (dictGet st.rhs st.start none ≠
        dictGet st.g st.start none)) = true)
    (h1 : keyLt k_old (calculateKey h st u) = false)
    (h2 : qltB (dictGet st.rhs u none) (dictGet st.g u none) = false) :
    cspLoop h (fuel + 1) st = cspLoop h fuel
      (updateVertex h
        ((st.G.predecessors u).foldl (fun s n => updateVertex h s n)
          { st with g := dictSet st.g u none, queue := restQ })
        u) := by
  simp only [cspLoop]
  rw [hq]
  dsimp only
  rw [if_pos hc, if_neg (fun hh => Bool.false_ne_true (h1 ▸ hh)),
    if_neg (fun hh => Bool.false_ne_true (h2 ▸ hh))]

/-- `_update_vertex` never touches the graph, the start or the goal. -/
theorem updateVertex_frame (h : Nat → Nat → Option ℚ) (st : DState)
    (u : Nat) :
    (updateVertex h st u).G = st.G ∧
    (updateVertex h st u).start = st.start ∧
    (updateVertex h st u).goal = st.goal := by
  refine ⟨?_, ?_, ?_⟩ <;>
    (simp only [updateVertex]; split <;> split <;> rfl)

theorem updFold_frame (h : Nat → Nat → Option ℚ) :
    ∀ (l : List Nat) (st : DState),
      (l.foldl (fun s n => updateVertex h s n) st).G = st.G ∧
      (l.foldl (fun s n => updateVertex h s n) st).start = st.start ∧
      (l.foldl (fun s n => updateVertex h s n) st).goal = st.goal := by
  intro l
  induction l with
  | nil => intro st; exact ⟨rfl, rfl, rfl⟩
  | cons a t ih =>
    intro st
    rw [List.foldl_cons]
    obtain ⟨h1, h2, h3⟩ := ih (updateVertex h st a)
    obtain ⟨g1, g2, g3⟩ := updateVertex_frame h st a
    exact ⟨h1.trans g1, h2.trans g2, h3.trans g3⟩

/-- `_compute_shortest_path` never touches the graph, the start or the
goal. -/
theorem cspLoop_frame (h : Nat → Nat → Option ℚ) :
    ∀ (fuel : Nat) (st st' : DState), cspLoop h fuel st = some st' →
      st'.G = st.G ∧ st'.start = st.start ∧ st'.goal = st.goal := by
  intro fuel
  induction fuel with
  | zero =>
    intro st st' hr
    have h0 : cspLoop h 0 st = none := rfl
    rw [h0] at hr
    cases hr
  | succ fuel ih =>
    intro st st' hr
    simp only [cspLoop] at hr
    cases hq : popMinBy dstarEntryLt st.queue with
    | none =>
      rw [hq] at hr
      dsimp only at hr
      cases hr
      exact ⟨rfl, rfl, rfl⟩
    | some pr =>
      obtain ⟨⟨k_old, u⟩, restQ⟩ := pr
      rw [hq] at hr
      dsimp only at hr
      split at hr
      case isTrue =>
        split at hr
        case isTrue =>
          obtain ⟨h1, h2, h3⟩ := ih _ _ hr
          exact ⟨h1, h2, h3⟩
        case isFalse =>
          split at hr
          case isTrue =>
            obtain ⟨h1, h2, h3⟩ := ih _ _ hr
            obtain ⟨f1, f2, f3⟩ := updFold_frame h (st.G.predecessors u)
              { st with g := dictSet st.g u (dictGet st.rhs u none),
                        queue := restQ }
            exact ⟨h1.trans f1, h2.trans f2, h3.trans f3⟩
          case isFalse =>
            obtain ⟨h1, h2, h3⟩ := ih _ _ hr
            obtain ⟨v1, v2, v3⟩ := updateVertex_frame h
              ((st.G.predecessors u).foldl (fun s n => updateVertex h s n)
                { st with g := dictSet st.g u none, queue := restQ }) u
            obtain ⟨f1, f2, f3⟩ := updFold_frame h (st.G.predecessors u)
              { st with g := dictSet st.g u none, queue := restQ }
            exact ⟨(h1.trans v1).trans f1, (h2.trans v2).trans f2,
              (h3.trans v3).trans f3⟩
      case isFalse =>
        cases hr
        exact ⟨rfl, rfl, rfl⟩

/-- A winner of the `_extract_path` successor scan is a successor. -/
theorem extractScan_mem (G : Graph) (g : List (Nat × Option ℚ))
    (curr n : Nat) (h : (extractScan G g curr).2 = some n) :
    n ∈ G.successors curr := by
  have main : ∀ (l : List Nat) (acc : Option ℚ × Option Nat),
      (l.foldl (fun acc nbr =>
        if qltB (qadd (some (G.travelTime curr nbr)) (dictGet g nbr none))
            acc.1 then
          (qadd (some (G.travelTime curr nbr)) (dictGet g nbr none),
            some nbr)
        else acc) acc).2 = some n →
      acc.2 = some n ∨ n ∈ l := by
    intro l
    induction l with
    | nil => intro acc hr; exact Or.inl hr
    | cons a t ih =>
      intro acc hr
      rw [List.foldl_cons] at hr
      rcases ih _ hr with hl | hl
      · by_cases hcond : qltB (qadd (some (G.travelTime curr a))
            (dictGet g a none)) acc.1 = true
        · rw [if_pos hcond] at hl
          dsimp only at hl
          injection hl with han
          right
          rw [← han]
          exact List.mem_cons_self a t
        · rw [if_neg hcond] at hl
          exact Or.inl hl
      · exact Or.inr (List.mem_cons_of_mem a hl)
  have h' : ((G.successors curr).foldl (fun acc nbr =>
      if qltB (qadd (some (G.travelTime curr nbr)) (dictGet g nbr none))
          acc.1 then
        (qadd (some (G.travelTime curr nbr)) (dictGet g nbr none),
          some nbr)
      else acc) ((none : Option ℚ), (none : Option Nat))).2 = some n := h
  rcases main (G.successors curr) (none, none) h' with h1 | h1
  · exact Option.noConfusion h1
  · exact h1

/-- The `_extract_path` loop returns a nonempty directed walk of `G`
keeping the head of the accumulated path. -/
theorem extractLoop_walk (G : Graph) (g : List (Nat × Option ℚ))
    (goal max_steps : Nat) :
    ∀ (fuel curr : Nat) (path : List Nat), path ≠ [] →
      path.getLastD 0 = curr → isWalkB G path = true →
      (extractLoop G g goal max_steps fuel curr path ≠ [] ∧
       (extractLoop G g goal max_steps fuel curr path).headD 0 =
         path.headD 0 ∧
       isWalkB G (extractLoop G g goal max_steps fuel curr path) =
         true) := by
  intro fuel
  induction fuel with
  | zero => intro curr path h1 h2 h3; exact ⟨h1, rfl, h3⟩
  | succ fuel ih =>
    intro curr path h1 h2 h3
    simp only [extractLoop]
    split
    case isTrue =>
      cases hscan : extractScan G g curr with
      | mk mc onxt =>
        cases onxt with
        | none => exact ⟨h1, rfl, h3⟩
        | some nxt =>
          dsimp only
          split
          case isTrue => exact ⟨h1, rfl, h3⟩
          case isFalse =>
            have hedge : G.hasEdge curr nxt = true := by
              apply mem_successors_hasEdge
              apply extractScan_mem G g curr nxt
              rw [hscan]
            have hw := walk_append G path h1 nxt h3 (by rw [h2]; exact hedge)
            have hres := ih nxt (path ++ [nxt]) (by simp) hw.2.2.1 hw.1
            exact ⟨hres.1, hres.2.1.trans hw.2.2.2, hres.2.2⟩
    case isFalse => exact ⟨h1, rfl, h3⟩

/-- Setting the `travel_time` of an existing edge is observable through
`travelTime`. -/
theorem setTravelTime_travelTime (G : Graph) (u v : Nat) (c : ℚ)
    (hE : G.hasEdge u v = true) :
    (setTravelTime G u v c).travelTime u v = c := by
  unfold Graph.hasEdge at hE
  unfold setTravelTime Graph.travelTime
  dsimp only
  rw [List.find?_map]
  have hcomp : ((fun e : (Nat × Nat) × EdgeData => decide (e.1 = (u, v))) ∘
      (fun e : (Nat × Nat) × EdgeData =>
        if e.1 = (u, v) then (e.1, ⟨c, e.2.length⟩) else e)) =
      fun e : (Nat × Nat) × EdgeData => decide (e.1 = (u, v)) := by
    funext e
    by_cases he : e.1 = (u, v) <;> simp [he]
  rw [hcomp]
  obtain ⟨e, he, hpe⟩ := List.any_eq_true.mp hE
  cases hfind : G.edges.find? (fun e => decide (e.1 = (u, v))) with
  | none =>
    exfalso
    have hnone := List.find?_eq_none.mp hfind e he
    rw [hpe] at hnone
    exact hnone rfl
  | some e0 =>
    have hp0 := List.find?_some hfind
    simp only [decide_eq_true_eq] at hp0
    simp [hp0]

/-! #### The strict order behind the D* Lite priority queue

`qltB`/`keyLt`/`dstarEntryLt` are the float/tuple comparisons of the
`heapq` entries; the following lemmas show they form a strict total
order, so the leftmost minimum `popMinBy` extracts is THE heap
minimum. -/

theorem qltB_irrefl (a : Option ℚ) : qltB a a = false := by
  cases a with
  | none => rfl
  | some x => simp [qltB]

theorem qltB_asymm (a b : Option ℚ) (h : qltB a b = true) :
    qltB b a = false := by
  cases a with
  | none => exact absurd h (by simp [qltB])
  | some x =>
    cases b with
    | none => rfl
    | some y =>
      simp only [qltB, decide_eq_true_eq] at h
      simp only [qltB, decide_eq_false_iff_not, not_lt]
      exact h.le

theorem qltB_negtrans (a b c : Option ℚ) (h1 : qltB a b = false)
    (h2 : qltB b c = false) : qltB a c = false := by
  cases a with
  | none => rfl
  | some x =>
    cases b with
    | none => exact absurd h1 (by simp [qltB])
    | some y =>
      cases c with
      | none => exact absurd h2 (by simp [qltB])
      | some z =>
        simp only [qltB, decide_eq_false_iff_not, not_lt] at h1 h2 ⊢
        exact h2.trans h1

theorem qltB_conn (a b : Option ℚ) (h1 : qltB a b = false)
    (h2 : qltB b a = false) : a = b := by
  cases a with
  | none =>
    cases b with
    | none => rfl
    | some y => exact absurd h2 (by simp [qltB])
  | some x =>
    cases b with
    | none => exact absurd h1 (by simp [qltB])
    | some y =>
      simp only [qltB, decide_eq_false_iff_not, not_lt] at h1 h2
      rw [le_antisymm h2 h1]

theorem keyLt_irrefl (a : Option ℚ × Option ℚ) : keyLt a a = false := by
  unfold keyLt
  rw [if_neg (fun hne => hne rfl)]
  exact qltB_irrefl a.2

theorem keyLt_asymm (a b : Option ℚ × Option ℚ) (h : keyLt a b = true) :
    keyLt b a = false := by
  unfold keyLt at h ⊢
  by_cases h1 : a.1 = b.1
  · rw [if_neg (fun hne => hne h1)] at h
    rw [if_neg (fun hne => hne h1.symm)]
    exact qltB_asymm _ _ h
  · rw [if_pos h1] at h
    rw [if_pos (fun he => h1 he.symm)]
    exact qltB_asymm _ _ h

theorem keyLt_negtrans (a b c : Option ℚ × Option ℚ)
    (h1 : keyLt a b = false) (h2 : keyLt b c = false) :
    keyLt a c = false := by
  unfold keyLt at h1 h2 ⊢
  by_cases hab : a.1 = b.1
  · rw [if_neg (fun hne => hne hab)] at h1
    by_cases hbc : b.1 = c.1
    · rw [if_neg (fun hne => hne hbc)] at h2
      rw [if_neg (fun hne => hne (hab.trans hbc))]
      exact qltB_negtrans _ _ _ h1 h2
    · rw [if_pos hbc] at h2
      rw [if_pos (fun he => hbc (hab ▸ he)), hab]
      exact h2
  · rw [if_pos hab] at h1
    by_cases hbc : b.1 = c.1
    · rw [if_pos (fun he => hab (he.trans hbc.symm)), ← hbc]
      exact h1
    · rw [if_pos hbc] at h2
      by_cases hac : a.1 = c.1
      · exact absurd (hac.trans (qltB_conn _ _ h2
          (hac ▸ h1)).symm) hab
      · rw [if_pos hac]
        exact qltB_negtrans _ _ _ h1 h2

theorem keyLt_conn (a b : Option ℚ × Option ℚ) (h1 : keyLt a b = false)
    (h2 : keyLt b a = false) : a = b := by
  unfold keyLt at h1 h2
  by_cases hab : a.1 = b.1
  · rw [if_neg (fun hne => hne hab)] at h1
    rw [if_neg (fun hne => hne hab.symm)] at h2
    obtain ⟨a1, a2⟩ := a
    obtain ⟨b1, b2⟩ := b
    dsimp only at hab h1 h2 ⊢
    rw [hab, qltB_conn _ _ h1 h2]
  · rw [if_pos hab] at h1
    rw [if_pos (fun he => hab he.symm)] at h2
    exact absurd (qltB_conn _ _ h1 h2) hab

theorem dstarEntryLt_irrefl (a : (Option ℚ × Option ℚ) × Nat) :
    dstarEntryLt a a = false := by
  unfold dstarEntryLt
  rw [if_neg (fun hne => hne rfl)]
  simp

theorem dstarEntryLt_asymm (a b : (Option ℚ × Option ℚ) × Nat)
    (h : dstarEntryLt a b = true) : dstarEntryLt b a = false := by
  unfold dstarEntryLt at h ⊢
  by_cases h1 : a.1 = b.1
  · rw [if_neg (fun hne => hne h1)] at h
    rw [if_neg (fun hne => hne h1.symm)]
    simp only [decide_eq_true_eq] at h
    simp only [decide_eq_false_iff_not, not_lt]
    exact h.le
  · rw [if_pos h1] at h
    rw [if_pos (fun he => h1 he.symm)]
    exact keyLt_asymm _ _ h

theorem dstarEntryLt_negtrans (a b c : (Option ℚ × Option ℚ) × Nat)
    (h1 : dstarEntryLt a b = false) (h2 : dstarEntryLt b c = false) :
    dstarEntryLt a c = false := by
  unfold dstarEntryLt at h1 h2 ⊢
  by_cases hab : a.1 = b.1
  · rw [if_neg (fun hne => hne hab)] at h1
    by_cases hbc : b.1 = c.1
    · rw [if_neg (fun hne => hne hbc)] at h2
      rw [if_neg (fun hne => hne (hab.trans hbc))]
      simp only [decide_eq_false_iff_not, not_lt] at h1 h2 ⊢
      exact h2.trans h1
    · rw [if_pos hbc] at h2
      rw [if_pos (fun he => hbc (hab ▸ he)), hab]
      exact h2
  · rw [if_pos hab] at h1
    by_cases hbc : b.1 = c.1
    · rw [if_pos (fun he => hab (he.trans hbc.symm)), ← hbc]
      exact h1
    · rw [if_pos hbc] at h2
      by_cases hac : a.1 = c.1
      · exact absurd (hac.trans (keyLt_conn _ _ h2 (hac ▸ h1)).symm) hab
      · rw [if_pos hac]
        exact keyLt_negtrans _ _ _ h1 h2

/-- `popMinBy` under a strict total order returns a true minimum. -/
theorem popMinBy_min {α : Type} (lt : α → α → Bool)
    (hirr : ∀ a, lt a a = false)
    (hasym : ∀ a b, lt a b = true → lt b a = false)
    (hneg : ∀ a b c, lt a b = false → lt b c = false → lt a c = false) :
    ∀ (l : List α) (m : α) (rest : List α),
      popMinBy lt l = some (m, rest) → ∀ e ∈ l, lt e m = false := by
  intro l
  induction l with
  | nil => intro m rest h e he; cases h
  | cons x xs ih =>
    intro m rest h e he
    simp only [popMinBy] at h
    cases hx : popMinBy lt xs with
    | none =>
      rw [hx] at h
      dsimp only at h
      injection h with h'
      injection h' with hm _
      have hxs : xs = [] := popMinBy_eq_none.mp hx
      subst hxs
      rcases List.mem_singleton.mp he with rfl
      rw [← hm]
      exact hirr e
    | some pr =>
      obtain ⟨m', rest'⟩ := pr
      rw [hx] at h
      dsimp only at h
      by_cases hlt : lt m' x = true
      · rw [if_pos hlt] at h
        injection h with h'
        injection h' with hm _
        subst hm
        rcases List.mem_cons.mp he with rfl | hmem
        · exact hasym _ _ hlt
        · exact ih m' rest' hx e hmem
      · rw [if_neg hlt] at h
        injection h with h'
        injection h' with hm _
        subst hm
        have hlt' : lt m' x = false := by
          cases hb : lt m' x with
          | false => rfl
          | true => exact absurd hb hlt
        rcases List.mem_cons.mp he with rfl | hmem
        · exact hirr e
        · exact hneg e m' x (ih m' rest' hx e hmem) hlt'

/-! #### Reachability and the Bellman fixpoint of `g`/`rhs` -/

/-- `x` reaches `goal` along a directed walk of `G` ("`x` and `goal`
are connected" in the claim's sense). -/
def Reaches (G : Graph) (x goal : Nat) : Prop :=
  ∃ w : List Nat, w ≠ [] ∧ isWalkB G w = true ∧
    w.headD 0 = x ∧ w.getLastD 0 = goal

theorem reaches_self (G : Graph) (x : Nat) : Reaches G x x :=
  ⟨[x], by simp, rfl, rfl, rfl⟩

theorem hasEdge_mem_successors {G : Graph} {u v : Nat}
    (h : G.hasEdge u v = true) : v ∈ G.successors u := by
  unfold Graph.hasEdge at h
  obtain ⟨e, he, hpe⟩ := List.any_eq_true.mp h
  simp only [decide_eq_true_eq] at hpe
  unfold Graph.successors
  refine List.mem_map.mpr ⟨e, List.mem_filter.mpr ⟨he, ?_⟩, ?_⟩
  · simp [hpe]
  · rw [hpe]

theorem mem_successors_mem_predecessors {G : Graph} {x u : Nat}
    (h : u ∈ G.successors x) : x ∈ G.predecessors u := by
  unfold Graph.successors at h
  obtain ⟨e, hef, heu⟩ := List.mem_map.mp h
  have hex := List.of_mem_filter hef
  simp only [decide_eq_true_eq] at hex
  unfold Graph.predecessors
  refine List.mem_map.mpr ⟨e, List.mem_filter.mpr
    ⟨List.mem_of_mem_filter hef, by simp [heu]⟩, hex⟩

theorem reaches_cons (G : Graph) (x y goal : Nat)
    (hE : G.hasEdge x y = true) (hR : Reaches G y goal) :
    Reaches G x goal := by
  obtain ⟨w, hne, hwalk, hhead, hlast⟩ := hR
  cases w with
  | nil => exact absurd rfl hne
  | cons z rest =>
    have hz : z = y := hhead
    rw [hz] at hwalk hlast
    refine ⟨x :: y :: rest, by simp, ?_, rfl, ?_⟩
    · show (G.hasEdge x y && isWalkB G (y :: rest)) = true
      rw [hE, hwalk]
      rfl
    · rw [List.getLastD_cons, @getLastD_irrel (y :: rest) (by simp) x 0]
      exact hlast

/-! #### Arithmetic helpers for `qadd` / `qmin` / `minRhs` -/

theorem qmin_ne_none_left (a b : Option ℚ) (h : a ≠ none) :
    qmin a b ≠ none := by
  cases a with
  | none => exact absurd rfl h
  | some x => cases b <;> simp [qmin]

theorem qmin_ne_none_right (a : Option ℚ) (y : ℚ) :
    qmin a (some y) ≠ none := by
  cases a <;> simp [qmin]

theorem qmin_ne_none_of_ne (a b : Option ℚ) (h : a ≠ b) :
    qmin a b ≠ none := by
  cases a with
  | none =>
    cases b with
    | none => exact absurd rfl h
    | some y => simp [qmin]
  | some x => cases b <;> simp [qmin]

theorem qmin_none_iff (a b : Option ℚ) :
    qmin a b = none ↔ a = none ∧ b = none := by
  cases a <;> cases b <;> simp [qmin]

theorem qadd_some_none (c : ℚ) (b : Option ℚ) :
    qadd (some c) b = none ↔ b = none := by
  cases b <;> simp [qadd]

/-- `rhs(x)` as `_update_vertex` recomputes it: the min over `x`'s
successors of edge cost plus `g`. -/
def minRhs (st : DState) (x : Nat) : Option ℚ :=
  (st.G.successors x).foldl
    (fun m nbr => qmin m (qadd (some (st.G.travelTime x nbr))
      (dictGet st.g nbr none))) none

theorem foldl_congr_mem {α β : Type} (f f' : α → β → α) :
    ∀ (l : List β) (a : α), (∀ x, ∀ b ∈ l, f x b = f' x b) →
      l.foldl f a = l.foldl f' a := by
  intro l
  induction l with
  | nil => intro a _; rfl
  | cons b t ih =>
    intro a hcong
    rw [List.foldl_cons, List.foldl_cons,
      hcong a b (List.mem_cons_self b t)]
    exact ih _ (fun x c hc => hcong x c (List.mem_cons_of_mem b hc))

theorem qminFold_stays (st : DState) (x : Nat) :
    ∀ (l : List Nat) (acc : Option ℚ), acc ≠ none →
      l.foldl (fun m nbr => qmin m (qadd (some (st.G.travelTime x nbr))
        (dictGet st.g nbr none))) acc ≠ none := by
  intro l
  induction l with
  | nil => intro acc h; exact h
  | cons a t ih =>
    intro acc h
    rw [List.foldl_cons]
    exact ih _ (qmin_ne_none_left _ _ h)

theorem minRhs_ne_none (st : DState) (x nbr : Nat) (gv : ℚ)
    (hm : nbr ∈ st.G.successors x)
    (hg : dictGet st.g nbr none = some gv) : minRhs st x ≠ none := by
  unfold minRhs
  have main : ∀ (l : List Nat) (acc : Option ℚ), nbr ∈ l →
      l.foldl (fun m n => qmin m (qadd (some (st.G.travelTime x n))
        (dictGet st.g n none))) acc ≠ none := by
    intro l
    induction l with
    | nil => intro acc h; exact absurd h (List.not_mem_nil nbr)
    | cons a t ih =>
      intro acc h
      rw [List.foldl_cons]
      rcases List.mem_cons.mp h with rfl | hmem
      · apply qminFold_stays
        rw [hg]
        exact qmin_ne_none_right _ _
      · exact ih _ hmem
  exact main _ _ hm

theorem minRhs_witness (st : DState) (x : Nat) (h : minRhs st x ≠ none) :
    ∃ nbr ∈ st.G.successors x, dictGet st.g nbr none ≠ none := by
  unfold minRhs at h
  have main : ∀ (l : List Nat) (acc : Option ℚ),
      l.foldl (fun m n => qmin m (qadd (some (st.G.travelTime x n))
        (dictGet st.g n none))) acc ≠ none →
      acc ≠ none ∨ ∃ nbr ∈ l, dictGet st.g nbr none ≠ none := by
    intro l
    induction l with
    | nil => intro acc h; exact Or.inl h
    | cons a t ih =>
      intro acc h
      rw [List.foldl_cons] at h
      rcases ih _ h with h1 | h1
      · by_cases ha : dictGet st.g a none = none
        · left
          intro hacc
          apply h1
          rw [hacc, (qadd_some_none _ _).mpr ha]
          rfl
        · exact Or.inr ⟨a, List.mem_cons_self a t, ha⟩
      · obtain ⟨nbr, hmem, hne⟩ := h1
        exact Or.inr ⟨nbr, List.mem_cons_of_mem a hmem, hne⟩
  rcases main _ _ h with h1 | h1
  · exact absurd rfl h1
  · exact h1

/-- `minRhs` depends only on the graph and the `g` table. -/
theorem minRhs_congr (st st' : DState) (x : Nat) (hG : st'.G = st.G)
    (hg : ∀ n, dictGet st'.g n none = dictGet st.g n none) :
    minRhs st' x = minRhs st x := by
  unfold minRhs
  rw [hG]
  exact foldl_congr_mem _ _ _ _ (fun m nbr _ => by rw [hg nbr])

/-- `minRhs x` ignores a `g`-change at a non-successor of `x`. -/
theorem minRhs_congr_except (st st' : DState) (x u : Nat)
    (hG : st'.G = st.G)
    (hg : ∀ n, n ≠ u → dictGet st'.g n none = dictGet st.g n none)
    (hns : u ∉ st.G.successors x) : minRhs st' x = minRhs st x := by
  unfold minRhs
  rw [hG]
  refine foldl_congr_mem _ _ _ _ (fun m nbr hmem => ?_)
  rw [hg nbr (fun he => hns (he ▸ hmem))]

/-! #### `setTravelTime` changes one edge weight and nothing else -/

theorem setTravelTime_hasEdge (G : Graph) (u v : Nat) (c : ℚ)
    (a b : Nat) : (setTravelTime G u v c).hasEdge a b = G.hasEdge a b := by
  unfold Graph.hasEdge setTravelTime
  dsimp only
  rw [List.any_map]
  refine congrArg _ (funext fun e => ?_)
  by_cases he : e.1 = (u, v) <;> simp [he]

theorem setTravelTime_successors (G : Graph) (u v : Nat) (c : ℚ)
    (x : Nat) : (setTravelTime G u v c).successors x = G.successors x := by
  unfold Graph.successors setTravelTime
  dsimp only
  rw [List.filter_map, List.map_map]
  have hpred : ((fun e : (Nat × Nat) × EdgeData => decide (e.1.1 = x)) ∘
      (fun e : (Nat × Nat) × EdgeData =>
        if e.1 = (u, v) then (e.1, ⟨c, e.2.length⟩) else e)) =
      fun e : (Nat × Nat) × EdgeData => decide (e.1.1 = x) := by
    funext e
    by_cases he : e.1 = (u, v) <;> simp [he]
  rw [hpred]
  refine List.map_congr_left (fun e he => ?_)
  by_cases hc : e.1 = (u, v) <;> simp [hc]

theorem setTravelTime_predecessors (G : Graph) (u v : Nat) (c : ℚ)
    (x : Nat) :
    (setTravelTime G u v c).predecessors x = G.predecessors x := by
  unfold Graph.predecessors setTravelTime
  dsimp only
  rw [List.filter_map, List.map_map]
  have hpred : ((fun e : (Nat × Nat) × EdgeData => decide (e.1.2 = x)) ∘
      (fun e : (Nat × Nat) × EdgeData =>
        if e.1 = (u, v) then (e.1, ⟨c, e.2.length⟩) else e)) =
      fun e : (Nat × Nat) × EdgeData => decide (e.1.2 = x) := by
    funext e
    by_cases he : e.1 = (u, v) <;> simp [he]
  rw [hpred]
  refine List.map_congr_left (fun e he => ?_)
  by_cases hc : e.1 = (u, v) <;> simp [hc]

theorem setTravelTime_travelTime_ne (G : Graph) (u v : Nat) (c : ℚ)
    (a b : Nat) (hne : ¬ (a, b) = (u, v)) :
    (setTravelTime G u v c).travelTime a b = G.travelTime a b := by
  unfold Graph.travelTime setTravelTime
  dsimp only
  rw [List.find?_map]
  have hcomp : ((fun e : (Nat × Nat) × EdgeData => decide (e.1 = (a, b))) ∘
      (fun e : (Nat × Nat) × EdgeData =>
        if e.1 = (u, v) then (e.1, ⟨c, e.2.length⟩) else e)) =
      fun e : (Nat × Nat) × EdgeData => decide (e.1 = (a, b)) := by
    funext e
    by_cases he : e.1 = (u, v) <;> simp [he]
  rw [hcomp]
  cases hfind : G.edges.find? (fun e => decide (e.1 = (a, b))) with
  | none => rfl
  | some e0 =>
    have hp0 := List.find?_some hfind
    simp only [decide_eq_true_eq] at hp0
    have : ¬ e0.1 = (u, v) := by rw [hp0]; exact hne
    simp [this]

theorem isWalkB_hasEdge_congr (G G' : Graph)
    (h : ∀ a b, G.hasEdge a b = G'.hasEdge a b) :
    ∀ w : List Nat, isWalkB G w = isWalkB G' w := by
  intro w
  induction w with
  | nil => rfl
  | cons a t ih =>
    cases t with
    | nil => rfl
    | cons b r =>
      show (G.hasEdge a b && isWalkB G (b :: r)) =
        (G'.hasEdge a b && isWalkB G' (b :: r))
      rw [h a b, ih]

theorem reaches_setTravelTime (G : Graph) (u v : Nat) (c : ℚ)
    (x goal : Nat) :
    Reaches (setTravelTime G u v c) x goal ↔ Reaches G x goal := by
  unfold Reaches
  refine exists_congr (fun w => ?_)
  rw [isWalkB_hasEdge_congr (setTravelTime G u v c) G
    (fun a b => setTravelTime_hasEdge G u v c a b)]

/-! #### Anatomy of `_update_vertex` -/

/-- The `rhs` table `_update_vertex u` leaves behind. -/
def uvRhs (st : DState) (u : Nat) : List (Nat × Option ℚ) :=
  if u = st.goal then st.rhs else dictSet st.rhs u (minRhs st u)

theorem updateVertex_g_eq (h : Nat → Nat → Option ℚ) (st : DState)
    (u : Nat) : (updateVertex h st u).g = st.g := by
  simp only [updateVertex]
  split <;> split <;> rfl

theorem updateVertex_km_eq (h : Nat → Nat → Option ℚ) (st : DState)
    (u : Nat) : (updateVertex h st u).km = st.km := by
  simp only [updateVertex]
  split <;> split <;> rfl

theorem updateVertex_rhs_eq (h : Nat → Nat → Option ℚ) (st : DState)
    (u : Nat) : (updateVertex h st u).rhs = uvRhs st u := by
  unfold uvRhs
  simp only [updateVertex, minRhs]
  by_cases hg : u = st.goal
  · rw [if_pos hg, if_neg (not_not_intro hg)]
    split <;> rfl
  · rw [if_neg hg, if_pos hg]
    split <;> rfl

theorem calculateKey_congr (h : Nat → Nat → Option ℚ) (st st' : DState)
    (x : Nat) (h1 : st'.start = st.start) (h2 : st'.km = st.km)
    (h3 : dictGet st'.g x none = dictGet st.g x none)
    (h4 : dictGet st'.rhs x none = dictGet st.rhs x none) :
    calculateKey h st' x = calculateKey h st x := by
  unfold calculateKey
  rw [h1, h2, h3, h4]

theorem updateVertex_queue_sub (h : Nat → Nat → Option ℚ) (st : DState)
    (u : Nat) :
    ∀ e ∈ (updateVertex h st u).queue,
      (e ∈ st.queue ∧ e.2 ≠ u) ∨
      (e.2 = u ∧ e.1 = calculateKey h { st with rhs := uvRhs st u } u) := by
  intro e he
  simp only [updateVertex, minRhs] at he
  by_cases hg : u = st.goal
  · rw [if_neg (not_not_intro hg)] at he
    split at he
    · rcases List.mem_append.mp he with h1 | h1
      · exact Or.inl ⟨List.mem_of_mem_filter h1,
          by simpa using List.of_mem_filter h1⟩
      · rcases List.mem_singleton.mp h1 with rfl
        refine Or.inr ⟨rfl, ?_⟩
        show calculateKey h st u = calculateKey h { st with rhs := uvRhs st u } u
        refine (calculateKey_congr h st { st with rhs := uvRhs st u } u
          rfl rfl rfl ?_).symm
        show dictGet (uvRhs st u) u none = dictGet st.rhs u none
        unfold uvRhs
        rw [if_pos hg]
    · exact Or.inl ⟨List.mem_of_mem_filter he,
        by simpa using List.of_mem_filter he⟩
  · rw [if_pos hg] at he
    split at he
    · rcases List.mem_append.mp he with h1 | h1
      · exact Or.inl ⟨List.mem_of_mem_filter h1,
          by simpa using List.of_mem_filter h1⟩
      · rcases List.mem_singleton.mp h1 with rfl
        refine Or.inr ⟨rfl, ?_⟩
        show calculateKey h { st with rhs := dictSet st.rhs u (minRhs st u) } u =
          calculateKey h { st with rhs := uvRhs st u } u
        refine calculateKey_congr h { st with rhs := uvRhs st u }
          { st with rhs := dictSet st.rhs u (minRhs st u) } u rfl rfl rfl ?_
        show dictGet (dictSet st.rhs u (minRhs st u)) u none =
          dictGet (uvRhs st u) u none
        unfold uvRhs
        rw [if_neg hg]
    · exact Or.inl ⟨List.mem_of_mem_filter he,
        by simpa using List.of_mem_filter he⟩

theorem updateVertex_queue_keep (h : Nat → Nat → Option ℚ) (st : DState)
    (u : Nat) (e : (Option ℚ × Option ℚ) × Nat) (he : e ∈ st.queue)
    (hne : e.2 ≠ u) : e ∈ (updateVertex h st u).queue := by
  have hf : e ∈ st.queue.filter fun item => decide (item.2 ≠ u) :=
    List.mem_filter.mpr ⟨he, by simpa using hne⟩
  simp only [updateVertex, minRhs]
  by_cases hg : u = st.goal
  · rw [if_neg (not_not_intro hg)]
    split
    · exact List.mem_append_left _ hf
    · exact hf
  · rw [if_pos hg]
    split
    · exact List.mem_append_left _ hf
    · exact hf

theorem updateVertex_queue_push (h : Nat → Nat → Option ℚ) (st : DState)
    (u : Nat) (hc : dictGet st.g u none ≠ dictGet (uvRhs st u) u none) :
    ∃ e ∈ (updateVertex h st u).queue, e.2 = u := by
  simp only [updateVertex, minRhs]
  by_cases hg : u = st.goal
  · rw [if_neg (not_not_intro hg)]
    have hc' : dictGet st.g u none ≠ dictGet st.rhs u none := by
      unfold uvRhs at hc
      rw [if_pos hg] at hc
      exact hc
    split
    next hcc =>
      exact ⟨_, List.mem_append_right _ (List.mem_singleton_self _), rfl⟩
    next hcc => exact absurd hc' hcc
  · rw [if_pos hg]
    have hc' : dictGet st.g u none ≠
        dictGet (dictSet st.rhs u (minRhs st u)) u none := by
      unfold uvRhs at hc
      rw [if_neg hg] at hc
      exact hc
    split
    next hcc =>
      exact ⟨_, List.mem_append_right _ (List.mem_singleton_self _), rfl⟩
    next hcc => exact absurd hc' hcc

theorem updateVertex_E (h : Nat → Nat → Option ℚ) (st : DState) (u : Nat)
    (hE : st.queue.Pairwise (fun a b => a.2 ≠ b.2)) :
    (updateVertex h st u).queue.Pairwise (fun a b => a.2 ≠ b.2) := by
  have hfil : (st.queue.filter fun item => decide (item.2 ≠ u)).Pairwise
      (fun a b => a.2 ≠ b.2) := hE.filter _
  have happ : ∀ k : Option ℚ × Option ℚ,
      ((st.queue.filter fun item => decide (item.2 ≠ u)) ++
        [(k, u)]).Pairwise (fun a b => a.2 ≠ b.2) := by
    intro k
    rw [List.pairwise_append]
    refine ⟨hfil, List.pairwise_singleton _ _, ?_⟩
    intro a ha b hb
    rcases List.mem_singleton.mp hb with rfl
    simpa using List.of_mem_filter ha
  simp only [updateVertex, minRhs]
  by_cases hg : u = st.goal
  · rw [if_neg (not_not_intro hg)]
    split
    · exact happ _
    · exact hfil
  · rw [if_pos hg]
    split
    · exact happ _
    · exact hfil

theorem updateVertex_rhs_ne (h : Nat → Nat → Option ℚ) (st : DState)
    (u x : Nat) (hx : x ≠ u) :
    dictGet (updateVertex h st u).rhs x none = dictGet st.rhs x none := by
  rw [updateVertex_rhs_eq]
  unfold uvRhs
  split
  · rfl
  · exact dictGet_dictSet_ne _ _ _ _ _ hx

theorem updateVertex_rhs_at (h : Nat → Nat → Option ℚ) (st : DState)
    (u : Nat) (hg : ¬ u = st.goal) :
    dictGet (updateVertex h st u).rhs u none = minRhs st u := by
  rw [updateVertex_rhs_eq]
  unfold uvRhs
  rw [if_neg hg]
  exact dictGet_dictSet_self _ _ _ _

theorem updateVertex_rhs_goal (h : Nat → Nat → Option ℚ) (st : DState)
    (u : Nat) (hg : u = st.goal) : (updateVertex h st u).rhs = st.rhs := by
  rw [updateVertex_rhs_eq]
  unfold uvRhs
  rw [if_pos hg]

/-! #### The reachable-state invariant of a `DStarLite` object -/

/-- Every finite `g` value witnesses a walk to the goal. -/
def InvA (st : DState) : Prop :=
  ∀ x v, dictGet st.g x none = some v → Reaches st.G x st.goal

/-- `rhs` satisfies the one-step Bellman equation off the goal. -/
def InvB (st : DState) : Prop :=
  ∀ x, ¬ x = st.goal → dictGet st.rhs x none = minRhs st x

/-- Every queue entry carries the key of its own vertex as computed
from the CURRENT tables (each vertex's entry is refreshed by
`_update_vertex` whenever its `g`/`rhs` change). -/
def InvC (h : Nat → Nat → Option ℚ) (st : DState) : Prop :=
  ∀ e ∈ st.queue, e.1 = calculateKey h st e.2

/-- Every inconsistent vertex is on the queue. -/
def InvD (st : DState) : Prop :=
  ∀ x, dictGet st.g x none ≠ dictGet st.rhs x none →
    ∃ e ∈ st.queue, e.2 = x

/-- `InvD` away from one (possibly still unprocessed) vertex. -/
def InvDx (st : DState) (w : Nat) : Prop :=
  ∀ x, x ≠ w → dictGet st.g x none ≠ dictGet st.rhs x none →
    ∃ e ∈ st.queue, e.2 = x

/-- The queue holds at most one entry per vertex. -/
def InvE (st : DState) : Prop :=
  st.queue.Pairwise (fun a b => a.2 ≠ b.2)

/-- The reachable-state invariant of a `DStarLite` object at the head
of the `_compute_shortest_path` loop: finite `km`, `InvA`-`InvE`, and
`rhs(goal) = 0` (set by `__init__` and never overwritten). -/
def DInv (h : Nat → Nat → Option ℚ) (st : DState) : Prop :=
  st.km ≠ none ∧ InvA st ∧ dictGet st.rhs st.goal none = some 0 ∧
  InvB st ∧ InvC h st ∧ InvD st ∧ InvE st

theorem uv_A (h : Nat → Nat → Option ℚ) (st : DState) (p : Nat)
    (hA : InvA st) : InvA (updateVertex h st p) := by
  intro x v hx
  rw [updateVertex_g_eq] at hx
  rw [(updateVertex_frame h st p).1, (updateVertex_frame h st p).2.2]
  exact hA x v hx

theorem uv_B0 (h : Nat → Nat → Option ℚ) (st : DState) (p : Nat)
    (hB0 : dictGet st.rhs st.goal none = some 0) :
    dictGet (updateVertex h st p).rhs st.goal none = some 0 := by
  by_cases hpg : p = st.goal
  · rw [updateVertex_rhs_goal h st p hpg]
    exact hB0
  · rw [updateVertex_rhs_ne h st p st.goal (fun he => hpg he.symm)]
    exact hB0

theorem uv_C (h : Nat → Nat → Option ℚ) (st : DState) (p : Nat)
    (hC : InvC h st) : InvC h (updateVertex h st p) := by
  intro e he
  rcases updateVertex_queue_sub h st p e he with ⟨hold, hne⟩ | ⟨h2, hkey⟩
  · rw [hC e hold]
    exact (calculateKey_congr h st (updateVertex h st p) e.2
      (updateVertex_frame h st p).2.1 (updateVertex_km_eq h st p)
      (by rw [updateVertex_g_eq]) (updateVertex_rhs_ne h st p e.2 hne)).symm
  · rw [hkey, h2]
    refine calculateKey_congr h (updateVertex h st p)
      { st with rhs := uvRhs st p } p
      ((updateVertex_frame h st p).2.1).symm
      (updateVertex_km_eq h st p).symm
      (by rw [updateVertex_g_eq]) ?_
    show dictGet (uvRhs st p) p none = dictGet (updateVertex h st p).rhs p none
    rw [updateVertex_rhs_eq]

theorem uv_D (h : Nat → Nat → Option ℚ) (st : DState) (p : Nat)
    (hD : InvD st) : InvD (updateVertex h st p) := by
  intro x hx
  by_cases hxp : x = p
  · subst hxp
    refine updateVertex_queue_push h st x ?_
    rw [updateVertex_g_eq, updateVertex_rhs_eq] at hx
    exact hx
  · have hx' : dictGet st.g x none ≠ dictGet st.rhs x none := by
      rw [updateVertex_g_eq, updateVertex_rhs_ne h st p x hxp] at hx
      exact hx
    obtain ⟨e, he, he2⟩ := hD x hx'
    exact ⟨e, updateVertex_queue_keep h st p e he
      (by rw [he2]; exact hxp), he2⟩

theorem uv_Dx (h : Nat → Nat → Option ℚ) (st : DState) (p w : Nat)
    (hD : InvDx st w) : InvDx (updateVertex h st p) w := by
  intro x hxw hx
  by_cases hxp : x = p
  · subst hxp
    refine updateVertex_queue_push h st x ?_
    rw [updateVertex_g_eq, updateVertex_rhs_eq] at hx
    exact hx
  · have hx' : dictGet st.g x none ≠ dictGet st.rhs x none := by
      rw [updateVertex_g_eq, updateVertex_rhs_ne h st p x hxp] at hx
      exact hx
    obtain ⟨e, he, he2⟩ := hD x hxw hx'
    exact ⟨e, updateVertex_queue_keep h st p e he
      (by rw [he2]; exact hxp), he2⟩

/-- `_update_vertex p` even REPAIRS `InvDx` at its own argument. -/
theorem uv_Dx_fix (h : Nat → Nat → Option ℚ) (st : DState) (p : Nat)
    (hD : InvDx st p) : InvD (updateVertex h st p) := by
  intro x hx
  by_cases hxp : x = p
  · subst hxp
    refine updateVertex_queue_push h st x ?_
    rw [updateVertex_g_eq, updateVertex_rhs_eq] at hx
    exact hx
  · have hx' : dictGet st.g x none ≠ dictGet st.rhs x none := by
      rw [updateVertex_g_eq, updateVertex_rhs_ne h st p x hxp] at hx
      exact hx
    obtain ⟨e, he, he2⟩ := hD x hxp hx'
    exact ⟨e, updateVertex_queue_keep h st p e he
      (by rw [he2]; exact hxp), he2⟩

theorem uv_minRhs (h : Nat → Nat → Option ℚ) (st : DState) (p x : Nat) :
    minRhs (updateVertex h st p) x = minRhs st x :=
  minRhs_congr st (updateVertex h st p) x (updateVertex_frame h st p).1
    (fun n => by rw [updateVertex_g_eq])

/-- One pass of the predecessor loop: all invariant components are
preserved, `g`/`km` are untouched, and `rhs` is recomputed exactly on
the processed vertices. -/
theorem updFold_inv (h : Nat → Nat → Option ℚ) :
    ∀ (S : List Nat) (st : DState),
      ((S.foldl (fun s n => updateVertex h s n) st).g = st.g) ∧
      ((S.foldl (fun s n => updateVertex h s n) st).km = st.km) ∧
      (InvA st → InvA (S.foldl (fun s n => updateVertex h s n) st)) ∧
      (dictGet st.rhs st.goal none = some 0 →
        dictGet (S.foldl (fun s n => updateVertex h s n) st).rhs
          st.goal none = some 0) ∧
      (InvC h st → InvC h (S.foldl (fun s n => updateVertex h s n) st)) ∧
      (InvD st → InvD (S.foldl (fun s n => updateVertex h s n) st)) ∧
      (∀ w, InvDx st w →
        InvDx (S.foldl (fun s n => updateVertex h s n) st) w) ∧
      (InvE st → InvE (S.foldl (fun s n => updateVertex h s n) st)) ∧
      (∀ x, x ∉ S →
        dictGet (S.foldl (fun s n => updateVertex h s n) st).rhs x none =
          dictGet st.rhs x none) ∧
      (∀ x ∈ S, ¬ x = st.goal →
        dictGet (S.foldl (fun s n => updateVertex h s n) st).rhs x none =
          minRhs st x) := by
  intro S
  induction S with
  | nil =>
    intro st
    exact ⟨rfl, rfl, fun hA => hA, fun hB0 => hB0, fun hC => hC,
      fun hD => hD, fun w hD => hD, fun hE => hE,
      fun x _ => rfl, fun x hx => absurd hx (List.not_mem_nil x)⟩
  | cons p S' ih =>
    intro st
    rw [List.foldl_cons]
    obtain ⟨ih1, ih2, ih3, ih4, ih5, ih6, ih7, ih8, ih9, ih10⟩ :=
      ih (updateVertex h st p)
    have hgoal : (updateVertex h st p).goal = st.goal :=
      (updateVertex_frame h st p).2.2
    rw [hgoal] at ih4 ih10
    refine ⟨ih1.trans (updateVertex_g_eq h st p),
      ih2.trans (updateVertex_km_eq h st p),
      fun hA => ih3 (uv_A h st p hA),
      fun hB0 => ih4 (uv_B0 h st p hB0),
      fun hC => ih5 (uv_C h st p hC),
      fun hD => ih6 (uv_D h st p hD),
      fun w hD => ih7 w (uv_Dx h st p w hD),
      fun hE => ih8 (updateVertex_E h st p hE), ?_, ?_⟩
    · intro x hx
      have hxp : x ≠ p := fun he => hx (he ▸ List.mem_cons_self p S')
      have hxS : x ∉ S' := fun hm => hx (List.mem_cons_of_mem p hm)
      rw [ih9 x hxS, updateVertex_rhs_ne h st p x hxp]
    · intro x hx hxg
      by_cases hmem : x ∈ S'
      · rw [ih10 x hmem hxg, uv_minRhs]
      · have hxp : x = p := by
          rcases List.mem_cons.mp hx with he | hm
          · exact he
          · exact absurd hm hmem
        subst hxp
        rw [ih9 x hmem, updateVertex_rhs_at h st x hxg]

/-- `_update_vertex` preserves the Bellman equation everywhere. -/
theorem uv_B (h : Nat → Nat → Option ℚ) (st : DState) (p : Nat)
    (hB : InvB st) : InvB (updateVertex h st p) := by
  intro x hxg
  have hxg' : ¬ x = st.goal := by
    rwa [(updateVertex_frame h st p).2.2] at hxg
  by_cases hxp : x = p
  · subst hxp
    rw [updateVertex_rhs_at h st x hxg', uv_minRhs]
  · rw [updateVertex_rhs_ne h st p x hxp, hB x hxg', uv_minRhs]

/-- A finite `rhs` value also witnesses a walk to the goal. -/
theorem rhs_reach (st : DState) (hA : InvA st) (hB : InvB st) :
    ∀ u v, dictGet st.rhs u none = some v → Reaches st.G u st.goal := by
  intro u v hu
  by_cases hg : u = st.goal
  · rw [hg]
    exact reaches_self _ _
  · rw [hB u hg] at hu
    have hnn : minRhs st u ≠ none := by rw [hu]; simp
    obtain ⟨nbr, hmem, hgn⟩ := minRhs_witness st u hnn
    obtain ⟨gv, hgv⟩ := Option.ne_none_iff_exists'.mp hgn
    exact reaches_cons _ _ _ _ (mem_successors_hasEdge hmem) (hA nbr gv hgv)

/-- At a Bellman fixpoint (`g = rhs` everywhere), every vertex with a
walk to the goal has finite `g`. -/
theorem bellman_finite (st : DState)
    (hB0 : dictGet st.rhs st.goal none = some 0) (hB : InvB st)
    (hcons : ∀ x, dictGet st.g x none = dictGet st.rhs x none) :
    ∀ w : List Nat, w ≠ [] → isWalkB st.G w = true →
      w.getLastD 0 = st.goal → dictGet st.g (w.headD 0) none ≠ none := by
  intro w
  induction w with
  | nil => intro hne; exact absurd rfl hne
  | cons a t ih =>
    intro _ hwalk hlast
    cases t with
    | nil =>
      have ha : a = st.goal := hlast
      show dictGet st.g a none ≠ none
      rw [ha, hcons st.goal, hB0]
      simp
    | cons b r =>
      have hparts : st.G.hasEdge a b = true ∧
          isWalkB st.G (b :: r) = true := by
        have hw := hwalk
        rw [show isWalkB st.G (a :: b :: r) =
          (st.G.hasEdge a b && isWalkB st.G (b :: r)) from rfl,
          Bool.and_eq_true] at hw
        exact hw
      have hlast' : (b :: r).getLastD 0 = st.goal := by
        have hstep : (a :: b :: r).getLastD 0 = (b :: r).getLastD 0 := by
          rw [List.getLastD_cons, @getLastD_irrel (b :: r) (by simp) a 0]
        rw [← hstep]
        exact hlast
      have hb := ih (by simp) hparts.2 hlast'
      show dictGet st.g a none ≠ none
      by_cases hag : a = st.goal
      · rw [hag, hcons st.goal, hB0]
        simp
      · rw [hcons a, hB a hag]
        obtain ⟨gv, hgv⟩ := Option.ne_none_iff_exists'.mp hb
        exact minRhs_ne_none st a b gv
          (hasEdge_mem_successors hparts.1) hgv

/-- The exit condition of the claim, at any all-consistent state. -/
theorem consistent_exit_iff (st : DState) (hA : InvA st) (hB : InvB st)
    (hB0 : dictGet st.rhs st.goal none = some 0)
    (hcons : ∀ x, dictGet st.g x none = dictGet st.rhs x none) :
    (dictGet st.g st.start none ≠ none ↔
      Reaches st.G st.start st.goal) := by
  constructor
  · intro hne
    obtain ⟨v, hv⟩ := Option.ne_none_iff_exists'.mp hne
    exact hA st.start v hv
  · intro hR
    obtain ⟨w, hne, hwalk, hhead, hlast⟩ := hR
    have hfin := bellman_finite st hB0 hB hcons w hne hwalk hlast
    rw [hhead] at hfin
    exact hfin

theorem keyLt_none_false (a : Option ℚ × Option ℚ)
    (h : keyLt a (none, none) = false) : a = (none, none) := by
  obtain ⟨a1, a2⟩ := a
  unfold keyLt at h
  cases a1 with
  | some x =>
    rw [if_pos (by simp)] at h
    exact absurd h (by simp [qltB])
  | none =>
    rw [if_neg (by simp)] at h
    cases a2 with
    | some y => exact absurd h (by simp [qltB])
    | none => rfl

/-- When the loop breaks with `g(start) = rhs(start) = ∞`, the top key
is `(∞, ∞)`, so by key-correctness and minimality every queued vertex
is consistent — and by `InvD` so is every vertex. -/
theorem break_consistent (h : Nat → Nat → Option ℚ)
    (hfin : ∀ a b, h a b ≠ none) (st : DState)
    (k_old : Option ℚ × Option ℚ) (u : Nat)
    (restQ : List ((Option ℚ × Option ℚ) × Nat))
    (hkm : st.km ≠ none) (hC : InvC h st) (hD : InvD st)
    (hq : popMinBy dstarEntryLt st.queue = some ((k_old, u), restQ))
    (hk : keyLt k_old (calculateKey h st st.start) = false)
    (hgs : dictGet st.g st.start none = none)
    (hrs : dictGet st.rhs st.start none = none) :
    ∀ x, dictGet st.g x none = dictGet st.rhs x none := by
  have hks : calculateKey h st st.start = (none, none) := by
    unfold calculateKey
    rw [hgs, hrs]
    rfl
  rw [hks] at hk
  have hko : k_old = (none, none) := keyLt_none_false _ hk
  intro x
  by_contra hx
  obtain ⟨e, he, he2⟩ := hD x hx
  have hkey := hC e he
  rw [he2] at hkey
  have hm : qmin (dictGet st.g x none) (dictGet st.rhs x none) ≠ none :=
    qmin_ne_none_of_ne _ _ hx
  obtain ⟨mv, hmv⟩ := Option.ne_none_iff_exists'.mp hm
  obtain ⟨hv, hhv⟩ := Option.ne_none_iff_exists'.mp (hfin st.start x)
  obtain ⟨kv, hkv⟩ := Option.ne_none_iff_exists'.mp hkm
  have hkey1 : e.1 = (some (mv + hv + kv), some mv) := by
    rw [hkey]
    unfold calculateKey
    rw [hmv, hhv, hkv]
    rfl
  have hmin := popMinBy_min dstarEntryLt dstarEntryLt_irrefl
    dstarEntryLt_asymm dstarEntryLt_negtrans st.queue _ _ hq e he
  rw [hko] at hmin
  have hlt : dstarEntryLt e ((none, none), u) = true := by
    unfold dstarEntryLt
    have hne1 : e.1 ≠ ((none, none) : Option ℚ × Option ℚ) := by
      rw [hkey1]
      simp
    rw [if_pos (show e.1 ≠ (((none, none), u) :
      (Option ℚ × Option ℚ) × Nat).1 from hne1)]
    unfold keyLt
    have hne2 : e.1.1 ≠ (none : Option ℚ) := by
      rw [hkey1]
      simp
    rw [if_pos (show e.1.1 ≠ (((none, none) :
      Option ℚ × Option ℚ)).1 from hne2)]
    obtain ⟨ev, hev⟩ := Option.ne_none_iff_exists'.mp hne2
    rw [hev]
    rfl
  rw [hlt] at hmin
  exact Bool.noConfusion hmin

/-- Structure of the queue after popping its minimum `u`-entry: the
remainder is the old queue minus that entry, and (by `InvE`) carries no
other `u`-entry. -/
theorem pop_facts (st : DState) (k_old : Option ℚ × Option ℚ) (u : Nat)
    (restQ : List ((Option ℚ × Option ℚ) × Nat))
    (hq : popMinBy dstarEntryLt st.queue = some ((k_old, u), restQ))
    (hE : InvE st) :
    (∀ e ∈ restQ, e ∈ st.queue) ∧ (∀ e ∈ restQ, e.2 ≠ u) ∧
    restQ.Pairwise (fun a b => a.2 ≠ b.2) ∧
    (∀ e ∈ st.queue, e.2 ≠ u → e ∈ restQ) := by
  have hperm := popMinBy_perm hq
  have hpair : ((k_old, u) :: restQ).Pairwise (fun a b => a.2 ≠ b.2) :=
    (hperm.pairwise_iff (fun hab => Ne.symm hab)).mpr hE
  obtain ⟨hhead, htail⟩ := List.pairwise_cons.mp hpair
  refine ⟨fun e he => hperm.subset (List.mem_cons_of_mem _ he),
    fun e he => (hhead e he).symm, htail, ?_⟩
  intro e he hne
  rcases List.mem_cons.mp (hperm.mem_iff.mpr he) with he1 | he1
  · exact absurd (by rw [he1]) hne
  · exact he1

/-- Loop branch 1 (stale key, re-push) preserves the invariant. -/
theorem branch1_dinv (h : Nat → Nat → Option ℚ) (st : DState)
    (k_old : Option ℚ × Option ℚ) (u : Nat)
    (restQ : List ((Option ℚ × Option ℚ) × Nat))
    (hq : popMinBy dstarEntryLt st.queue = some ((k_old, u), restQ))
    (hinv : DInv h st) :
    DInv h { st with queue := restQ ++ [(calculateKey h st u, u)] } := by
  obtain ⟨hkm, hA, hB0, hB, hC, hD, hE⟩ := hinv
  obtain ⟨hsub, hnou, hresE, hkeep⟩ := pop_facts st k_old u restQ hq hE
  refine ⟨hkm, fun x v hx => hA x v hx, hB0, fun x hxg => hB x hxg,
    ?_, ?_, ?_⟩
  · intro e he
    rcases List.mem_append.mp he with h1 | h1
    · exact hC e (hsub e h1)
    · rcases List.mem_singleton.mp h1 with rfl
      rfl
  · intro x hx
    by_cases hxu : x = u
    · subst hxu
      exact ⟨(calculateKey h st x, x),
        List.mem_append_right _ (List.mem_singleton_self _), rfl⟩
    · obtain ⟨e, he, he2⟩ := hD x hx
      exact ⟨e, List.mem_append_left _
        (hkeep e he (by rw [he2]; exact hxu)), he2⟩
  · show (restQ ++ [(calculateKey h st u, u)]).Pairwise
      (fun a b => a.2 ≠ b.2)
    rw [List.pairwise_append]
    refine ⟨hresE, List.pairwise_singleton _ _, ?_⟩
    intro a ha b hb
    rcases List.mem_singleton.mp hb with rfl
    exact hnou a ha

/-- Loop branch 2 (`g(u) := rhs(u)`, update predecessors) preserves
the invariant. -/
theorem branch2_dinv (h : Nat → Nat → Option ℚ) (st : DState)
    (k_old : Option ℚ × Option ℚ) (u : Nat)
    (restQ : List ((Option ℚ × Option ℚ) × Nat))
    (hq : popMinBy dstarEntryLt st.queue = some ((k_old, u), restQ))
    (hinv : DInv h st) :
    DInv h ((st.G.predecessors u).foldl (fun s n => updateVertex h s n)
      { st with g := dictSet st.g u (dictGet st.rhs u none),
                queue := restQ }) := by
  obtain ⟨hkm, hA, hB0, hB, hC, hD, hE⟩ := hinv
  obtain ⟨hsub, hnou, hresE, hkeep⟩ := pop_facts st k_old u restQ hq hE
  set st2 : DState := { st with
    g := dictSet st.g u (dictGet st.rhs u none), queue := restQ }
    with hst2
  have hgu : dictGet st2.g u none = dictGet st.rhs u none :=
    dictGet_dictSet_self _ _ _ _
  have hgne : ∀ x, x ≠ u → dictGet st2.g x none = dictGet st.g x none :=
    fun x hx => dictGet_dictSet_ne _ _ _ _ _ hx
  have hA2 : InvA st2 := by
    intro x w hx
    by_cases hxu : x = u
    · subst hxu
      rw [hgu] at hx
      exact rhs_reach st hA hB x w hx
    · rw [hgne x hxu] at hx
      exact hA x w hx
  have hC2 : InvC h st2 := by
    intro e he
    rw [hC e (hsub e he)]
    exact (calculateKey_congr h st st2 e.2 rfl rfl
      (hgne e.2 (hnou e he)) rfl).symm
  have hD2 : InvD st2 := by
    intro x hx
    by_cases hxu : x = u
    · exfalso
      apply hx
      rw [hxu, hgu]
    · have hx' : dictGet st.g x none ≠ dictGet st.rhs x none := by
        rw [hgne x hxu] at hx
        exact hx
      obtain ⟨e, he, he2⟩ := hD x hx'
      exact ⟨e, hkeep e he (by rw [he2]; exact hxu), he2⟩
  have hB2x : ∀ x, ¬ x = st.goal → x ∉ st.G.predecessors u →
      dictGet st2.rhs x none = minRhs st2 x := by
    intro x hxg hxp
    have h1 : dictGet st2.rhs x none = dictGet st.rhs x none := rfl
    rw [h1, hB x hxg]
    refine (minRhs_congr_except st st2 x u rfl hgne ?_).symm
    exact fun hsucc => hxp (mem_successors_mem_predecessors hsucc)
  obtain ⟨f1, f2, f3, f4, f5, f6, f7, f8, f9, f10⟩ :=
    updFold_inv h (st.G.predecessors u) st2
  refine ⟨?_, f3 hA2, ?_, ?_, f5 hC2, f6 hD2, f8 hresE⟩
  · rw [f2]
    exact hkm
  · rw [(updFold_frame h (st.G.predecessors u) st2).2.2]
    exact f4 hB0
  · intro x hxg
    have hxg' : ¬ x = st.goal := by
      rwa [(updFold_frame h (st.G.predecessors u) st2).2.2] at hxg
    have hmr : minRhs ((st.G.predecessors u).foldl
        (fun s n => updateVertex h s n) st2) x = minRhs st2 x :=
      minRhs_congr st2 _ x (updFold_frame h (st.G.predecessors u) st2).1
        (fun n => by rw [f1])
    by_cases hxp : x ∈ st.G.predecessors u
    · rw [f10 x hxp hxg', hmr]
    · rw [f9 x hxp, hB2x x hxg' hxp, hmr]

/-- Loop branch 3 (`g(u) := ∞`, update predecessors and `u` itself)
preserves the invariant. -/
theorem branch3_dinv (h : Nat → Nat → Option ℚ) (st : DState)
    (k_old : Option ℚ × Option ℚ) (u : Nat)
    (restQ : List ((Option ℚ × Option ℚ) × Nat))
    (hq : popMinBy dstarEntryLt st.queue = some ((k_old, u), restQ))
    (hinv : DInv h st) :
    DInv h (updateVertex h
      ((st.G.predecessors u).foldl (fun s n => updateVertex h s n)
        { st with g := dictSet st.g u none, queue := restQ }) u) := by
  obtain ⟨hkm, hA, hB0, hB, hC, hD, hE⟩ := hinv
  obtain ⟨hsub, hnou, hresE, hkeep⟩ := pop_facts st k_old u restQ hq hE
  set st3 : DState := { st with g := dictSet st.g u none, queue := restQ }
    with hst3
  have hgu : dictGet st3.g u none = none := dictGet_dictSet_self _ _ _ _
  have hgne : ∀ x, x ≠ u → dictGet st3.g x none = dictGet st.g x none :=
    fun x hx => dictGet_dictSet_ne _ _ _ _ _ hx
  have hA3 : InvA st3 := by
    intro x w hx
    by_cases hxu : x = u
    · rw [hxu, hgu] at hx
      cases hx
    · rw [hgne x hxu] at hx
      exact hA x w hx
  have hC3 : InvC h st3 := by
    intro e he
    rw [hC e (hsub e he)]
    exact (calculateKey_congr h st st3 e.2 rfl rfl
      (hgne e.2 (hnou e he)) rfl).symm
  have hD3 : InvDx st3 u := by
    intro x hxu hx
    have hx' : dictGet st.g x none ≠ dictGet st.rhs x none := by
      rw [hgne x hxu] at hx
      exact hx
    obtain ⟨e, he, he2⟩ := hD x hx'
    exact ⟨e, hkeep e he (by rw [he2]; exact hxu), he2⟩
  have hB3x : ∀ x, ¬ x = st.goal → x ∉ st.G.predecessors u →
      dictGet st3.rhs x none = minRhs st3 x := by
    intro x hxg hxp
    have h1 : dictGet st3.rhs x none = dictGet st.rhs x none := rfl
    rw [h1, hB x hxg]
    refine (minRhs_congr_except st st3 x u rfl hgne ?_).symm
    exact fun hsucc => hxp (mem_successors_mem_predecessors hsucc)
  obtain ⟨f1, f2, f3, f4, f5, f6, f7, f8, f9, f10⟩ :=
    updFold_inv h (st.G.predecessors u) st3
  have hBf : InvB ((st.G.predecessors u).foldl
      (fun s n => updateVertex h s n) st3) := by
    intro x hxg
    have hxg' : ¬ x = st.goal := by
      rwa [(updFold_frame h (st.G.predecessors u) st3).2.2] at hxg
    have hmr : minRhs ((st.G.predecessors u).foldl
        (fun s n => updateVertex h s n) st3) x = minRhs st3 x :=
      minRhs_congr st3 _ x (updFold_frame h (st.G.predecessors u) st3).1
        (fun n => by rw [f1])
    by_cases hxp : x ∈ st.G.predecessors u
    · rw [f10 x hxp hxg', hmr]
    · rw [f9 x hxp, hB3x x hxg' hxp, hmr]
  refine ⟨?_, uv_A h _ u (f3 hA3), ?_, uv_B h _ u hBf,
    uv_C h _ u (f5 hC3), uv_Dx_fix h _ u (f7 u hD3),
    updateVertex_E h _ u (f8 hresE)⟩
  · rw [updateVertex_km_eq, f2]
    exact hkm
  · rw [(updateVertex_frame h _ u).2.2]
    refine uv_B0 h _ u ?_
    rw [(updFold_frame h (st.G.predecessors u) st3).2.2]
    exact f4 hB0

theorem dictGet_cons {κ α : Type} [DecidableEq κ] (k : κ) (v : α)
    (d : List (κ × α)) (x : κ) (dflt : α) :
    dictGet ((k, v) :: d) x dflt =
      if k = x then v else dictGet d x dflt := by
  unfold dictGet
  by_cases h : k = x
  · rw [List.find?_cons_of_pos _ (by simp [h]), if_pos h]
  · rw [List.find?_cons_of_neg _ (by simp [h]), if_neg h]

/-- `_compute_shortest_path` preserves the reachable-state invariant
across its loop, and whenever it returns (queue exhausted or the break
condition reached), the finiteness of `g(start)` in the resulting state
decides exactly whether start and goal are connected. -/
theorem cspLoop_iff (h : Nat → Nat → Option ℚ)
    (hfin : ∀ a b, h a b ≠ none) :
    ∀ (fuel : Nat) (st st' : DState), DInv h st →
      cspLoop h fuel st = some st' →
      (dictGet st'.g st'.start none ≠ none ↔
        Reaches st'.G st'.start st'.goal) := by
  intro fuel
  induction fuel with
  | zero =>
    intro st st' _ hr
    have h0 : cspLoop h 0 st = none := rfl
    rw [h0] at hr
    cases hr
  | succ fuel ih =>
    intro st st' hinv hr
    simp only [cspLoop] at hr
    cases hq : popMinBy dstarEntryLt st.queue with
    | none =>
      rw [hq] at hr
      dsimp only at hr
      cases hr
      obtain ⟨hkm, hA, hB0, hB, hC, hD, hE⟩ := hinv
      have hnil : st.queue = [] := popMinBy_eq_none.mp hq
      refine consistent_exit_iff st hA hB hB0 ?_
      intro x
      by_contra hx
      obtain ⟨e, he, _⟩ := hD x hx
      rw [hnil] at he
      exact absurd he (List.not_mem_nil e)
    | some pr =>
      obtain ⟨⟨k_old, u⟩, restQ⟩ := pr
      rw [hq] at hr
      dsimp only at hr
      split at hr
      next hcond =>
        split at hr
        next h1 => exact ih _ _ (branch1_dinv h st k_old u restQ hq hinv) hr
        next h1 =>
          split at hr
          next h2 =>
            exact ih _ _ (branch2_dinv h st k_old u restQ hq hinv) hr
          next h2 =>
            exact ih _ _ (branch3_dinv h st k_old u restQ hq hinv) hr
      next hcond =>
        cases hr
        have hb : (keyLt k_old (calculateKey h st st.start) ||
            decide (dictGet st.rhs st.start none ≠
              dictGet st.g st.start none)) = false :=
          Bool.eq_false_iff.mpr hcond
        rw [Bool.or_eq_false_iff] at hb
        have hrg : dictGet st.rhs st.start none =
            dictGet st.g st.start none := not_not.mp (of_decide_eq_false hb.2)
        obtain ⟨hkm, hA, hB0, hB, hC, hD, hE⟩ := hinv
        by_cases hgs : dictGet st.g st.start none = none
        · refine consistent_exit_iff st hA hB hB0 ?_
          exact break_consistent h hfin st k_old u restQ hkm hC hD hq
            hb.1 hgs (hrg.trans hgs)
        · constructor
          · intro _
            obtain ⟨v, hv⟩ := Option.ne_none_iff_exists'.mp hgs
            exact hA st.start v hv
          · intro _
            exact hgs

/-- `block_edge_and_replan`'s mutation (one edge weight changed, then
`_update_vertex` on its source) restores the reachable-state
invariant: the weight change can break the Bellman equation only at
`u`, and the vertex update repairs exactly that. -/
theorem mutate_dinv (h : Nat → Nat → Option ℚ) (st : DState)
    (u v : Nat) (c : ℚ) (hinv : DInv h st) :
    DInv h (updateVertex h
      { st with G := setTravelTime st.G u v c } u) := by
  obtain ⟨hkm, hA, hB0, hB, hC, hD, hE⟩ := hinv
  set st1 : DState := { st with G := setTravelTime st.G u v c } with hst1
  have hA1 : InvA st1 := by
    intro x w hx
    exact (reaches_setTravelTime st.G u v c x st.goal).mpr (hA x w hx)
  have hB1x : ∀ x, ¬ x = st.goal → x ≠ u →
      dictGet st1.rhs x none = minRhs st1 x := by
    intro x hxg hxu
    have h1 : dictGet st1.rhs x none = dictGet st.rhs x none := rfl
    rw [h1, hB x hxg]
    unfold minRhs
    rw [show st1.G.successors x = st.G.successors x from
      setTravelTime_successors st.G u v c x]
    refine foldl_congr_mem _ _ _ _ (fun m nbr _ => ?_)
    rw [show st1.G.travelTime x nbr = st.G.travelTime x nbr from
      setTravelTime_travelTime_ne st.G u v c x nbr
        (fun he => hxu (congrArg Prod.fst he))]
  have hC1 : InvC h st1 := by
    intro e he
    rw [hC e he]
    exact (calculateKey_congr h st st1 e.2 rfl rfl rfl rfl).symm
  have hD1 : InvD st1 := fun x hx => hD x hx
  have hE1 : InvE st1 := hE
  have hB01 : dictGet st1.rhs st1.goal none = some 0 := hB0
  refine ⟨?_, uv_A h st1 u hA1, ?_, ?_, uv_C h st1 u hC1, uv_D h st1 u hD1,
    updateVertex_E h st1 u hE1⟩
  · rw [updateVertex_km_eq]
    exact hkm
  · rw [(updateVertex_frame h st1 u).2.2]
    exact uv_B0 h st1 u hB01
  · intro x hxg
    have hxg' : ¬ x = st.goal := by
      rwa [(updateVertex_frame h st1 u).2.2] at hxg
    by_cases hxu : x = u
    · subst hxu
      rw [updateVertex_rhs_at h st1 x hxg', uv_minRhs]
    · rw [updateVertex_rhs_ne h st1 u x hxu, hB1x x hxg' hxu, uv_minRhs]

/-- The concrete D* Lite scenario: a two-node graph `0 → 1` with
`travel_time` 1, both nodes at identical coordinates (so the haversine
heuristic is exactly 0 everywhere). -/
def dstarCexG : Graph := ⟨[(0, 0, 0), (1, 0, 0)], [((0, 1), ⟨1, 1⟩)]⟩

/-- The same graph after the edge is "blocked" (`travel_time × 1e6`). -/
def dstarCexGB : Graph :=
  ⟨[(0, 0, 0), (1, 0, 0)], [((0, 1), ⟨1000000, 1⟩)]⟩

/-- The heuristic oracle for `dstarCexG`: both nodes carry the same
coordinates, so `_heuristic` is exactly 0. -/
def dstarCexH : Nat → Nat → Option ℚ := fun _ _ => some 0

/-- The solver state after `__init__` on `dstarCexG` (0 → 1). -/
def dstarSt1 : DState := ⟨dstarCexG, 0, 1, some 0,
  [(0, some 1), (1, some 0)], [(0, some 1), (1, some 0)], [], [0, 1]⟩

/-- The state just after `block_edge_and_replan` mutates the edge and
runs `_update_vertex 0`. -/
def dstarStB : DState := ⟨dstarCexGB, 0, 1, some 0,
  [(0, some 1), (1, some 0)], [(0, some 1000000), (1, some 0)],
  [((some 1, some 1), 0)], [0, 1]⟩

/-- … after the repair loop's first iteration (g(0) wiped to ∞). -/
def dstarStB1 : DState := ⟨dstarCexGB, 0, 1, some 0,
  [(0, none), (1, some 0)], [(0, some 1000000), (1, some 0)],
  [((some 1000000, some 1000000), 0)], [0, 1]⟩

/-- … after the second iteration: `g(0) = 10⁶`, queue empty, fixpoint. -/
def dstarStC : DState := ⟨dstarCexGB, 0, 1, some 0,
  [(0, some 1000000), (1, some 0)], [(0, some 1000000), (1, some 0)],
  [], [0, 1]⟩

section

attribute [local semireducible] Rat.add Rat.mul Rat.sub Rat.inv

set_option maxRecDepth 40000 in
theorem dstarInit_run :
    dstarInit dstarCexH dstarCexG 0 1 10 = some dstarSt1 := by
  rfl

set_option maxRecDepth 40000 in
theorem dstar_block_run :
    blockEdgeAndReplan dstarCexH dstarSt1 0 1 10 = some dstarStC := by
  have hE : dstarSt1.G.hasEdge 0 1 = true := by rfl
  have hgo : blockEdgeAndReplan dstarCexH dstarSt1 0 1 10 =
      (cspLoop dstarCexH 10 (updateVertex dstarCexH
        { dstarSt1 with G := (setTravelTime dstarSt1.G 0 1
            (dstarSt1.G.travelTime 0 1 * 1000000)) } 0)).map extractPath := by
    unfold blockEdgeAndReplan
    rw [if_pos hE]
  have hup : updateVertex dstarCexH
      { dstarSt1 with G := (setTravelTime dstarSt1.G 0 1
          (dstarSt1.G.travelTime 0 1 * 1000000)) } 0 = dstarStB := by
    rfl
  rw [hgo, hup]
  have e1 : cspLoop dstarCexH 10 dstarStB = cspLoop dstarCexH 9
      (updateVertex dstarCexH
        ((dstarStB.G.predecessors 0).foldl
          (fun s n => updateVertex dstarCexH s n)
          { dstarStB with g := dictSet dstarStB.g 0 none, queue := [] })
        0) :=
    cspLoop_step3 dstarCexH 9 dstarStB (some 1, some 1) 0 []
      (by rfl) (by rfl)
      (by rfl) (by rfl)
  have r1 : updateVertex dstarCexH
      ((dstarStB.G.predecessors 0).foldl
        (fun s n => updateVertex dstarCexH s n)
        { dstarStB with g := dictSet dstarStB.g 0 none, queue := [] })
      0 = dstarStB1 := by
    rfl
  have e2 : cspLoop dstarCexH 9 dstarStB1 = cspLoop dstarCexH 8
      ((dstarStB1.G.predecessors 0).foldl
        (fun s n => updateVertex dstarCexH s n)
        { dstarStB1 with
            g := dictSet dstarStB1.g 0 (dictGet dstarStB1.rhs 0 none),
            queue := [] }) :=
    cspLoop_step2 dstarCexH 8 dstarStB1 (some 1000000, some 1000000) 0 []
      (by rfl) (by rfl)
      (by rfl) (by rfl)
  have r2 : (dstarStB1.G.predecessors 0).foldl
      (fun s n => updateVertex dstarCexH s n)
      { dstarStB1 with
          g := dictSet dstarStB1.g 0 (dictGet dstarStB1.rhs 0 none),
          queue := [] } = dstarStC := by
    rfl
  have e3 : cspLoop dstarCexH 8 dstarStC = some dstarStC :=
    cspLoop_pop_none dstarCexH 7 dstarStC rfl
  rw [e1, r1, e2, r2, e3]
  have hex : extractPath dstarStC = dstarStC := by
    rfl
  show some (extractPath dstarStC) = some dstarStC
  rw [hex]

/-- C4 counterexample: on `dstarCexG` (one edge `0 → 1`, cost 1), after
`block_edge_and_replan(0, 1)` the extracted `path_nodes` is `[0, 1]`,
which DOES contain the consecutive pair `(0, 1)`; the edge's new cost
is the finite `10⁶` and the extracted path itself is a start-goal walk
of finite total cost `10⁶` using the blocked edge, so neither disjunct
of the claim holds (`g(start) = 10⁶` stays finite, matching the still
connected graph). -/
theorem dstar_blocked_edge_counterexample :
    dstarInit dstarCexH dstarCexG 0 1 10 = some dstarSt1 ∧
    blockEdgeAndReplan dstarCexH dstarSt1 0 1 10 = some dstarStC ∧
    dstarStC.path_nodes = [0, 1] ∧
    dstarStC.G.hasEdge 0 1 = true ∧
    dstarStC.G.travelTime 0 1 = 1000000 ∧
    isWalkB dstarStC.G dstarStC.path_nodes = true ∧
    pathCost dstarStC.G dstarStC.path_nodes = 1000000 ∧
    dictGet dstarStC.g 0 none = some 1000000 := by
  refine ⟨dstarInit_run, dstar_block_run, ?_, ?_, ?_, ?_, ?_, ?_⟩ <;>
    rfl

/-- C4 (amended): `block_edge_and_replan(u, v)` on a missing edge
changes nothing; on an existing edge it multiplies the edge's
`travel_time` by `10⁶` — a finite value, so the edge is neither removed
nor given infinite cost — the re-extracted `path_nodes` is a nonempty
directed walk of the mutated graph beginning at the current start
(which, as the counterexample shows, may still traverse the blocked
edge `(u, v)` itself), and — under the solver's reachable-state
invariant `DInv` and a finite heuristic oracle — `g(start)` in the
returned state is finite iff start and goal remain connected in the
mutated graph. -/
theorem block_edge_and_replan_props (h : Nat → Nat → Option ℚ)
    (st st' : DState) (u v : Nat) (fuel : Nat)
    (hret : blockEdgeAndReplan h st u v fuel = some st') :
    (st.G.hasEdge u v = false → st' = st) ∧
    (st.G.hasEdge u v = true →
      st'.G = setTravelTime st.G u v (st.G.travelTime u v * 1000000) ∧
      st'.G.travelTime u v = st.G.travelTime u v * 1000000 ∧
      st'.start = st.start ∧
      st'.goal = st.goal ∧
      st'.path_nodes ≠ [] ∧
      st'.path_nodes.headD 0 = st.start ∧
      isWalkB st'.G st'.path_nodes = true) ∧
    (st.G.hasEdge u v = true → (∀ a b, h a b ≠ none) → DInv h st →
      (dictGet st'.g st'.start none ≠ none ↔
        Reaches st'.G st'.start st'.goal)) := by
  refine ⟨?_, ?_, ?_⟩
  · intro hne
    unfold blockEdgeAndReplan at hret
    rw [if_neg (fun hh => Bool.false_ne_true (hne ▸ hh))] at hret
    cases hret
    rfl
  · intro hE
    unfold blockEdgeAndReplan at hret
    rw [if_pos hE] at hret
    obtain ⟨stc, hcsp, hmap⟩ := Option.map_eq_some'.mp hret
    obtain ⟨f1, f2, f3⟩ := cspLoop_frame h fuel _ _ hcsp
    obtain ⟨v1, v2, v3⟩ := updateVertex_frame h
      { st with G := (setTravelTime st.G u v
          (st.G.travelTime u v * 1000000)) } u
    have hG : stc.G = setTravelTime st.G u v
        (st.G.travelTime u v * 1000000) := f1.trans v1
    have hs : stc.start = st.start := f2.trans v2
    have hgl : stc.goal = st.goal := f3.trans v3
    have hwalk := extractLoop_walk stc.G stc.g stc.goal
      (stc.G.nodes.length * 2) (stc.G.nodes.length * 2 + 1) stc.start
      [stc.start] (by simp) rfl rfl
    rw [← hmap]
    refine ⟨hG, ?_, hs, hgl, hwalk.1, hwalk.2.1.trans ?_, hwalk.2.2⟩
    · rw [show (extractPath stc).G = stc.G from rfl, hG]
      exact setTravelTime_travelTime st.G u v _ hE
    · show [stc.start].headD 0 = st.start
      rw [show [stc.start].headD 0 = stc.start from rfl, hs]
  · intro hEe hfin hinv
    unfold blockEdgeAndReplan at hret
    rw [if_pos hEe] at hret
    obtain ⟨stc, hcsp, hmap⟩ := Option.map_eq_some'.mp hret
    have hiff := cspLoop_iff h hfin fuel _ stc
      (mutate_dinv h st u v (st.G.travelTime u v * 1000000) hinv) hcsp
    rw [← hmap]
    exact hiff

/-- Witness for the amended C4 theorem: the concrete blocked-edge run
of the counterexample scenario, with the invariant `DInv` discharged
at the post-`__init__` state `dstarSt1`, so the connectivity
equivalence is obtained outright for the returned state. -/
theorem block_edge_and_replan_props_witness :
    (dstarSt1.G.hasEdge 0 1 = false → dstarStC = dstarSt1) ∧
    (dstarSt1.G.hasEdge 0 1 = true →
      dstarStC.G = setTravelTime dstarSt1.G 0 1
        (dstarSt1.G.travelTime 0 1 * 1000000) ∧
      dstarStC.G.travelTime 0 1 = dstarSt1.G.travelTime 0 1 * 1000000 ∧
      dstarStC.start = dstarSt1.start ∧
      dstarStC.goal = dstarSt1.goal ∧
      dstarStC.path_nodes ≠ [] ∧
      dstarStC.path_nodes.headD 0 = dstarSt1.start ∧
      isWalkB dstarStC.G dstarStC.path_nodes = true) ∧
    (dictGet dstarStC.g dstarStC.start none ≠ none ↔
      Reaches dstarStC.G dstarStC.start dstarStC.goal) := by
  have hmain := block_edge_and_replan_props dstarCexH dstarSt1 dstarStC
    0 1 10 dstar_block_run
  refine ⟨hmain.1, hmain.2.1,
    hmain.2.2 rfl (fun a b hc => Option.noConfusion hc) ?_⟩
  refine ⟨fun hc => Option.noConfusion hc, ?_, rfl, ?_,
    fun e he => absurd he (List.not_mem_nil e),
    fun x hx => absurd rfl hx, List.Pairwise.nil⟩
  · intro x w hx
    by_cases h0 : (0 : Nat) = x
    · subst h0
      exact ⟨[0, 1], List.cons_ne_nil 0 [1], rfl, rfl, rfl⟩
    · by_cases h1 : (1 : Nat) = x
      · subst h1
        exact reaches_self _ _
      · rw [show dstarSt1.g = [(0, (some 1 : Option ℚ)), (1, some 0)]
          from rfl, dictGet_cons, if_neg h0, dictGet_cons, if_neg h1] at hx
        exact Option.noConfusion hx
  · intro x hxg
    by_cases h0 : (0 : Nat) = x
    · subst h0
      rfl
    · have h1 : ¬ (1 : Nat) = x := fun he => hxg he.symm
      have hsucc : dstarSt1.G.successors x = [] := by
        show dstarCexG.successors x = []
        simp [Graph.successors, dstarCexG, List.filter_cons, h0]
      rw [show dstarSt1.rhs = [(0, (some 1 : Option ℚ)), (1, some 0)]
        from rfl, dictGet_cons, if_neg h0, dictGet_cons, if_neg h1]
      show (none : Option ℚ) = minRhs dstarSt1 x
      unfold minRhs
      rw [hsucc]
      rfl

end

end MAPF
